import Mathlib

/-!
Verification of the TaskAlign injection-molding scheduler
(`src/backend/app/services/ga_scheduler.py`) against its specification.

The Python source is shallowly embedded: machine hours are rational numbers
(`ℚ`), Python dicts become association lists that preserve insertion order,
and the heterogeneous task dicts become a `Task` structure whose
type-specific fields are `Option`-valued (a `none` models an absent key).
All definitions are executable; simulation loops are expressed with explicit
fuel chosen large enough to cover the number of iterations the Python loops
can perform.
-/

namespace TaskAlign

/-- `EPS = 1e-9`, the floating-point slack constant of the source. -/
def EPS : ℚ := 1 / 1000000000

/-- Data model: `Machine` from `models.py`. -/
structure Machine where
  id : String
  name : String
  group : String
  tonnage : Int
  hours_per_day : ℚ
  efficiency : ℚ
  deriving Repr, DecidableEq

/-- Data model: `Mold` from `models.py`. -/
structure Mold where
  id : String
  name : String
  group : String
  tonnage : Int
  deriving Repr, DecidableEq

/-- Data model: `ProductComponent` from `models.py` (`status` is informational
and unused by the core, it is kept for completeness). -/
structure ProductComponent where
  id : String
  name : String
  quantity : Int
  cycle_time_sec : ℚ
  mold_id : String
  color : String
  due_day : Int
  lead_time_days : Int
  prerequisites : List String
  status : String
  deriving Repr, DecidableEq

/-- The four task kinds emitted by the decoder. -/
inductive TaskType where
  | PRODUCE
  | CHANGE_MOLD
  | CHANGE_COLOR
  | WAIT
  deriving Repr, DecidableEq

/-- A task record.  The Python decoder emits dicts; fields that are present
only for some task types are `Option`-valued here (`none` = key absent).
`from_mold_id` / `from_color` keys hold a nullable value in Python, hence
the doubled `Option`. -/
structure Task where
  day : Nat
  machine_id : String
  machine_name : String
  sequence_in_day : Nat
  task_type : TaskType
  used_hours : ℚ
  start_hour : ℚ
  end_hour : ℚ
  utilization : ℚ
  mold_id : Option String := none
  component_id : Option String := none
  component_name : Option String := none
  color : Option String := none
  produced_qty : Option Int := none
  from_mold_id : Option (Option String) := none
  to_mold_id : Option String := none
  from_color : Option (Option String) := none
  to_color : Option String := none
  deriving Repr, DecidableEq

/-! ### Association lists modelling Python dicts

A Python dict iterates in insertion order; assignment to an existing key
keeps its position, assignment to a fresh key appends.  `dictSet` mirrors
that; lookups take the first (unique) matching key. -/

/-- Lookup in a dict modelled as an association list. -/
def dget (l : List (String × α)) (k : String) : Option α :=
  (l.find? (fun p => p.1 == k)).map (·.2)

/-- Lookup with default (Python `d.get(k, v0)`). -/
def dgetD (l : List (String × α)) (k : String) (v0 : α) : α :=
  (dget l k).getD v0

/-- Python `d[k] = v`: replace in place if present, else append. -/
def dset (l : List (String × α)) (k : String) (v : α) : List (String × α) :=
  if (dget l k).isSome then
    l.map (fun p => if p.1 == k then (k, v) else p)
  else
    l ++ [(k, v)]

/-- Python dict comprehension `{key(a): val(a) for a in l}`: later duplicate
keys overwrite the value while the key keeps its first position. -/
def dictOf (l : List α) (key : α → String) (val : α → β) : List (String × β) :=
  l.foldl (fun acc a => dset acc (key a) (val a)) []

/-! ### Interval helpers (`_overlaps`, `_interval_is_free`, `_reserve_interval`) -/

/-- `_overlaps`: two half-open intervals intersect (touching endpoints do
not count as overlap). -/
def _overlaps (a_start a_end b_start b_end : ℚ) : Bool :=
  !(a_end ≤ b_start || b_end ≤ a_start)

/-- `_interval_is_free`: `[start, end)` meets none of the recorded intervals. -/
def _interval_is_free (intervals : List (ℚ × ℚ)) (start stop : ℚ) : Bool :=
  intervals.all (fun p => !_overlaps p.1 p.2 start stop)

/-- `_reserve_interval`: append-only reservation. -/
def _reserve_interval (intervals : List (ℚ × ℚ)) (start stop : ℚ) : List (ℚ × ℚ) :=
  intervals ++ [(start, stop)]

/-- `_piece_hours`: hours per piece. -/
def _piece_hours (cycle_time_sec : ℚ) : ℚ :=
  cycle_time_sec / 3600

/-! ### Fitness (`_fitness_v2`)

The Python function indexes `comps_by_id[cid]` and `t["component_id"]`
directly; a missing key raises `KeyError`.  The embedding returns `none`
exactly in those situations. -/

/-- State accumulated by the task scan of `_fitness_v2`:
produced total, changeover hours, wait hours, first-production-day dict. -/
def fitnessScan :
    List Task → Int × ℚ × ℚ × List (String × Int) →
    Option (Int × ℚ × ℚ × List (String × Int))
  | [], st => some st
  | t :: ts, (prod, cho, wai, fpd) =>
    match t.task_type with
    | .PRODUCE =>
      match t.component_id with
      | none => none
      | some cid =>
        fitnessScan ts
          (prod + t.produced_qty.getD 0, cho, wai,
            dset fpd cid (min (dgetD fpd cid (10 ^ 9)) (t.day : Int)))
    | .CHANGE_MOLD => fitnessScan ts (prod, cho + t.used_hours, wai, fpd)
    | .CHANGE_COLOR => fitnessScan ts (prod, cho + t.used_hours, wai, fpd)
    | .WAIT => fitnessScan ts (prod, cho, wai + t.used_hours, fpd)

/-- The late-start penalty loop of `_fitness_v2`; `none` models the
`KeyError` on a component id absent from `comps_by_id`. -/
def lateStartPen (compsById : List (String × ProductComponent)) :
    List (String × Int) → ℚ → Option ℚ
  | [], acc => some acc
  | (cid, d) :: rest, acc =>
    match dget compsById cid with
    | none => none
    | some c =>
      let latest_start := max (c.due_day - c.lead_time_days) 1
      if d > latest_start then
        lateStartPen compsById rest (acc + ((d - latest_start : Int) : ℚ) * 10000)
      else
        lateStartPen compsById rest acc

/-- `_fitness_v2` from the source (returns `none` on `KeyError`). -/
def _fitness_v2 (tasks : List Task) (unmet : List (String × Int))
    (components : List ProductComponent) : Option ℚ :=
  let comps_by_id := dictOf components (fun c => c.id) (fun c => c)
  let unmet_pen : ℚ := (((unmet.map (·.2)).sum : Int) : ℚ) * 1000000
  match fitnessScan tasks (0, 0, 0, []) with
  | none => none
  | some (produced_total, changeover_hours, wait_hours, first_prod_day) =>
    match lateStartPen comps_by_id first_prod_day 0 with
    | none => none
    | some late_start_pen =>
      some ((produced_total : ℚ) - unmet_pen - late_start_pen -
        changeover_hours * 50 - wait_hours * 5)

/-! ### Specification-side fitness formula (for claim C4)

These definitions follow the words of the specification (§4.3), to be
compared with `_fitness_v2` above. -/

/-- Spec: Σ `produced_qty` over PRODUCE tasks. -/
def producedTotalSpec (tasks : List Task) : Int :=
  ((tasks.filter (fun t => t.task_type == TaskType.PRODUCE)).map
    (fun t => t.produced_qty.getD 0)).sum

/-- Spec: Σ `used_hours` over CHANGE_MOLD and CHANGE_COLOR tasks. -/
def changeoverHoursSpec (tasks : List Task) : ℚ :=
  ((tasks.filter (fun t =>
    t.task_type == TaskType.CHANGE_MOLD || t.task_type == TaskType.CHANGE_COLOR)).map
    (fun t => t.used_hours)).sum

/-- Spec: Σ `used_hours` over WAIT tasks. -/
def waitHoursSpec (tasks : List Task) : ℚ :=
  ((tasks.filter (fun t => t.task_type == TaskType.WAIT)).map
    (fun t => t.used_hours)).sum

/-- Spec: the PRODUCE tasks of component `cid`. -/
def producesOf (tasks : List Task) (cid : String) : List Task :=
  tasks.filter (fun t =>
    t.task_type == TaskType.PRODUCE && t.component_id == some cid)

/-- Spec: minimum day among the PRODUCE tasks of `cid`, if any. -/
def firstDaySpec (tasks : List Task) (cid : String) : Option Int :=
  ((producesOf tasks cid).map (fun t => (t.day : Int))).min?

/-- Spec: late-start penalty, summed over each component with at least one
PRODUCE task: `max 0 (first_day − max 1 (due_day − lead_time_days))`. -/
def lateStartPenSpec (tasks : List Task) (components : List ProductComponent) : ℚ :=
  (components.map (fun c =>
    match firstDaySpec tasks c.id with
    | none => (0 : ℚ)
    | some d => ((max 0 (d - max 1 (c.due_day - c.lead_time_days)) : Int) : ℚ) * 10000)).sum

/-- Spec: the full fitness formula of §4.3. -/
def fitnessSpec (tasks : List Task) (unmet : List (String × Int))
    (components : List ProductComponent) : ℚ :=
  (producedTotalSpec tasks : ℚ) - 1000000 * (((unmet.map (·.2)).sum : Int) : ℚ) -
    lateStartPenSpec tasks components - 50 * changeoverHoursSpec tasks -
    5 * waitHoursSpec tasks

/-! ### GA genome operators (`_mutate_swap`, `_crossover_ox`)

The Python functions draw their random indices from the global `random`
source; the embedding receives those draws as explicit arguments.  Both
functions return their input unchanged (and draw nothing) when the genome
has fewer than two entries, exactly as the source does. -/

/-- `_mutate_swap` with the two sampled positions `i j` made explicit.
Python performs `genome[i], genome[j] = genome[j], genome[i]`. -/
def _mutate_swap (genome : List String) (i j : Nat) : List String :=
  if genome.length < 2 then genome
  else (genome.set i (genome.getD j "")).set j (genome.getD i "")

/-- `_crossover_ox` with the two sampled cut points made explicit; the
source sorts them (`a, b = sorted(random.sample(range(n), 2))`). -/
def _crossover_ox (p1 p2 : List String) (d1 d2 : Nat) : List String :=
  if p1.length < 2 then p1
  else
    let a := min d1 d2
    let b := max d1 d2
    let mid := (p1.drop a).take (b - a)
    let rest := p2.filter (fun x => !(mid.contains x))
    rest.take a ++ mid ++ rest.drop a

/-! ### Topological order (`_topological_order`)

Kahn's algorithm.  The `while queue` loop is given `components.length + 1`
fuel; since every id is enqueued at most once (its in-degree is strictly
decreasing once decrements start, so reaches 0 at most once), the loop
performs at most `components.length` iterations and the fuel is never
exhausted (proved below for the error-surface claim). -/

/-- The edge-building loop body: for one component `cid`, process its
prerequisite list, raising on a prerequisite id absent from `ids`. -/
def addPrereqEdges (ids : List String) (cid : String) :
    List String → List (String × List String) × List (String × Int) →
    Except String (List (String × List String) × List (String × Int))
  | [], gi => .ok gi
  | pr :: rest, (graph, indeg) =>
    if ids.contains pr then
      addPrereqEdges ids cid rest
        (dset graph pr (dgetD graph pr [] ++ [cid]),
         dset indeg cid (dgetD indeg cid 0 + 1))
    else
      .error "Prerequisite not found for component."

/-- The full edge-building pass over all components. -/
def buildPrereqGraph (ids : List String) :
    List ProductComponent → List (String × List String) × List (String × Int) →
    Except String (List (String × List String) × List (String × Int))
  | [], gi => .ok gi
  | c :: rest, gi =>
    match addPrereqEdges ids c.id c.prerequisites gi with
    | .error e => .error e
    | .ok gi' => buildPrereqGraph ids rest gi'

/-- Inner loop of a Kahn iteration: decrement the in-degree of each
successor of the dequeued id, enqueueing those that reach 0. -/
def processNeighbors :
    List String → List (String × Int) → List String →
    List (String × Int) × List String
  | [], indeg, queue => (indeg, queue)
  | nxt :: rest, indeg, queue =>
    let d := dgetD indeg nxt 0 - 1
    let indeg' := dset indeg nxt d
    if d == 0 then processNeighbors rest indeg' (queue ++ [nxt])
    else processNeighbors rest indeg' queue

/-- The `while queue` loop of `_topological_order` (fuelled). -/
def kahnLoop (graph : List (String × List String)) :
    Nat → List String → List (String × Int) → List String →
    List String × List (String × Int)
  | 0, _, indeg, out => (out, indeg)
  | _ + 1, [], indeg, out => (out, indeg)
  | fuel + 1, cid :: queue, indeg, out =>
    let (indeg', queue') := processNeighbors (dgetD graph cid []) indeg queue
    kahnLoop graph fuel queue' indeg' (out ++ [cid])

/-- `_topological_order` from the source. -/
def _topological_order (components : List ProductComponent) :
    Except String (List ProductComponent) :=
  let ids := components.map (·.id)
  let graph0 := dictOf components (fun c => c.id) (fun _ => ([] : List String))
  let indeg0 := dictOf components (fun c => c.id) (fun _ => (0 : Int))
  match buildPrereqGraph ids components (graph0, indeg0) with
  | .error e => .error e
  | .ok (graph, indeg) =>
    let queue := (indeg.filter (fun p => p.2 == 0)).map (·.1)
    let (outIds, _) := kahnLoop graph (components.length + 1) queue indeg []
    let by_id := dictOf components (fun c => c.id) (fun c => c)
    let out := outIds.filterMap (fun cid => dget by_id cid)
    if out.length ≠ components.length then
      .error "Circular dependency detected in prerequisites."
    else
      .ok out

/-! ### Genome rank and the scanned component order -/

/-- `rank = {cid: i for i, cid in enumerate(genome)}` (later duplicates
overwrite the value, position keeps the first insertion, like a dict). -/
def genomeRank (genome : List String) : List (String × Nat) :=
  genome.enum.foldl (fun acc p => dset acc p.2 p.1) []

/-- `rank.get(cid, 10**9)`. -/
def rankOf (genome : List String) (cid : String) : Nat :=
  dgetD (genomeRank genome) cid (10 ^ 9)

/-- `comp_order = sorted(topo, key=lambda c: rank.get(c.id, 10**9))` —
Python's `sorted` is stable, as is insertion sort. -/
def compOrder (genome : List String) (topo : List ProductComponent) :
    List ProductComponent :=
  topo.insertionSort (fun c1 c2 => rankOf genome c1.id ≤ rankOf genome c2.id)

/-! ### Decoder helpers -/

/-- `_feasible_on_machine`: the required mold exists, matches the machine
group, fits the tonnage, and the cycle time is positive. -/
def _feasible_on_machine (comp : ProductComponent) (machine : Machine)
    (moldsById : List (String × Mold)) : Bool :=
  match dget moldsById comp.mold_id with
  | none => false
  | some mold =>
    mold.group == machine.group &&
    decide (mold.tonnage ≤ machine.tonnage) &&
    decide (0 < comp.cycle_time_sec)

/-- Scan of the prerequisite list in `_next_ready_time_due_to_prereqs`,
collecting same-day completion hours later than `after + EPS`;
`none` when a prerequisite is missing or completes on a future day. -/
def nextReadyScan (completion : List (String × Nat × ℚ)) (day : Nat) (after : ℚ) :
    List String → List ℚ → Option (List ℚ)
  | [], acc => some acc
  | pr :: rest, acc =>
    match dget completion pr with
    | none => none
    | some (pr_day, pr_hour) =>
      if pr_day > day then none
      else if pr_day == day && decide (pr_hour > after + EPS) then
        nextReadyScan completion day after rest (acc ++ [pr_hour])
      else
        nextReadyScan completion day after rest acc

/-- `_next_ready_time_due_to_prereqs`. -/
def _next_ready_time_due_to_prereqs (comp : ProductComponent)
    (completion : List (String × Nat × ℚ)) (day : Nat) (after : ℚ) : Option ℚ :=
  match nextReadyScan completion day after comp.prerequisites [] with
  | none => none
  | some [] => some after
  | some (h :: t) => some (t.foldl max h)

/-- The `while` loop of `_next_mold_free_time_for_window`, with the
source's safety bound (10 000 iterations) as fuel. -/
def windowSearchGo (intervals : List (ℚ × ℚ)) (w cap : ℚ) :
    Nat → ℚ → Option ℚ
  | 0, _ => none
  | fuel + 1, t =>
    if t + w ≤ cap + EPS then
      match intervals.filterMap
          (fun p => if _overlaps p.1 p.2 t (t + w) then some p.2 else none) with
      | [] => some t
      | e :: es => windowSearchGo intervals w cap fuel (es.foldl max e)
    else none

/-- `_next_mold_free_time_for_window`: earliest `t ≥ after` with
`[t, t+w]` free of mold usage and `t + w ≤ cap`. -/
def _next_mold_free_time_for_window (intervals : List (ℚ × ℚ))
    (after w cap : ℚ) : Option ℚ :=
  if w ≤ 0 then (if after ≤ cap + EPS then some after else none)
  else if decide (after + w ≤ cap + EPS) && _interval_is_free intervals after (after + w) then
    some after
  else windowSearchGo intervals w cap 10000 after

/-- `_next_busy_start`: earliest recorded start at least `after + EPS`. -/
def _next_busy_start (intervals : List (ℚ × ℚ)) (after : ℚ) : Option ℚ :=
  ((intervals.filter (fun p => decide (p.1 ≥ after + EPS))).map (·.1)).min?

/-- Effective daily capacity of a machine (`hours_per_day × efficiency`). -/
def machineUsable (m : Machine) : ℚ := m.hours_per_day * m.efficiency

/-! ### Decoder state -/

/-- Decode state while simulating one day (persisted parts included). -/
structure DayState where
  day : Nat
  usable : List (String × ℚ)
  remaining : List (String × Int)
  completion : List (String × Nat × ℚ)
  owner : List (String × String)
  moldBusy : List (String × List (ℚ × ℚ))
  tcur : List (String × ℚ)
  seq : List (String × Nat)
  done : List (String × Bool)
  curMold : List (String × Option String)
  curColor : List (String × Option String)
  lastComp : List (String × Option String)
  tasks : List Task
  deriving Repr, DecidableEq

/-- `cap = usable[mid]` (the per-day capacity dict of the source). -/
def machineCap (st : DayState) (mid : String) : ℚ :=
  dgetD st.usable mid 0

/-- A candidate tuple of the in-day scan:
`(sticky, color_match, mold_match, latest_start, rank, comp,
need_color_change, need_mold_change)`. -/
structure Cand where
  sticky : Nat
  color_match : Nat
  mold_match : Nat
  latest_start : Int
  rnk : Nat
  comp : ProductComponent
  need_color_change : Bool
  need_mold_change : Bool
  deriving Repr, DecidableEq

/-- Lexicographic comparison on the sort key
`(-sticky, -color_match, -mold_match, latest_start, rank)` used by
`candidates.sort`. -/
def candLE (x y : Cand) : Bool :=
  decide (y.sticky < x.sticky) ||
  (x.sticky == y.sticky &&
    (decide (y.color_match < x.color_match) ||
      (x.color_match == y.color_match &&
        (decide (y.mold_match < x.mold_match) ||
          (x.mold_match == y.mold_match &&
            (decide (x.latest_start < y.latest_start) ||
              (x.latest_start == y.latest_start && decide (x.rnk ≤ y.rnk))))))))

/-- `cur_mold.get(mid) != comp.mold_id` of the scan. -/
def needMoldChange (st : DayState) (mid : String) (comp : ProductComponent) :
    Bool :=
  dgetD st.curMold mid none != some comp.mold_id

/-- `cur_color.get(mid) != comp.color` of the scan. -/
def needColorChange (st : DayState) (mid : String) (comp : ProductComponent) :
    Bool :=
  dgetD st.curColor mid none != some comp.color

/-- The changeover hours added before production can begin. -/
def setupHours (cch mch : ℚ) (st : DayState) (mid : String)
    (comp : ProductComponent) : ℚ :=
  (if needColorChange st mid comp then max 0 cch else 0) +
    (if needMoldChange st mid comp then max 0 mch else 0)

/-- The time from which the mold is held (a mold change holds the mold
from the start of the change, a color change happens before it). -/
def moldHoldStart (cch mch : ℚ) (st : DayState) (mid : String)
    (comp : ProductComponent) (now : ℚ) : ℚ :=
  if needMoldChange st mid comp && decide (0 < mch) then
    now + (if needColorChange st mid comp then max 0 cch else 0)
  else now

/-- The candidate tuple pushed by the scan. -/
def candOf (rank : List (String × Nat)) (st : DayState) (mid : String)
    (comp : ProductComponent) : Cand :=
  { sticky := if dgetD st.lastComp mid none == some comp.id then 1 else 0,
    color_match := if dgetD st.curColor mid none == some comp.color then 1 else 0,
    mold_match := if dgetD st.curMold mid none == some comp.mold_id then 1 else 0,
    latest_start := comp.due_day - comp.lead_time_days,
    rnk := dgetD rank comp.id (10 ^ 9), comp := comp,
    need_color_change := needColorChange st mid comp,
    need_mold_change := needMoldChange st mid comp }

/-- The candidate/wait-time scan over `comp_order` (the `for comp in
comp_order` loop of the slot body). -/
def scanCandidates (cch mch : ℚ) (moldsById : List (String × Mold))
    (rank : List (String × Nat)) (st : DayState) (machine : Machine) :
    List ProductComponent → List Cand × List ℚ → List Cand × List ℚ
  | [], acc => acc
  | comp :: rest, (cands, waits) =>
    let mid := machine.id
    let now := dgetD st.tcur mid 0
    let cap := machineCap st mid
    let skip := scanCandidates cch mch moldsById rank st machine rest (cands, waits)
    if dgetD st.remaining comp.id 0 ≤ 0 then skip
    else if (dget st.owner comp.id).isSome && dget st.owner comp.id != some mid then skip
    else if !(_feasible_on_machine comp machine moldsById) then skip
    else
      let start_after_setup := now + setupHours cch mch st mid comp
      let per_piece_h := _piece_hours comp.cycle_time_sec
      if per_piece_h ≤ 0 then skip
      else
        match _next_ready_time_due_to_prereqs comp st.completion st.day start_after_setup with
        | none => skip
        | some prereq_ready =>
          let produce_start := max start_after_setup prereq_ready
          if cap - produce_start < per_piece_h - EPS then skip
          else
            match dget st.moldBusy comp.mold_id with
            | none => skip
            | some intervals =>
              let mold_hold_start := moldHoldStart cch mch st mid comp now
              let mold_hold_end_min := produce_start + per_piece_h
              if !(_interval_is_free intervals mold_hold_start mold_hold_end_min) then
                let required_window := mold_hold_end_min - mold_hold_start
                match _next_mold_free_time_for_window intervals mold_hold_start required_window cap with
                | some nxt =>
                  if decide (now + EPS < nxt) && decide (nxt < cap - EPS) then
                    scanCandidates cch mch moldsById rank st machine rest (cands, waits ++ [nxt])
                  else skip
                | none => skip
              else
                scanCandidates cch mch moldsById rank st machine rest
                  (cands ++ [candOf rank st mid comp], waits)

/-- `utilization` field: `min(1.0, used / cap) if cap > EPS else 0.0`. -/
def taskUtil (used cap : ℚ) : ℚ :=
  if EPS < cap then min 1 (used / cap) else 0

/-- The WAIT task literal emitted by `pushWait`. -/
def pushTask (st : DayState) (machine : Machine) (now endt : ℚ) : Task :=
  { day := st.day, machine_id := machine.id, machine_name := machine.name,
    sequence_in_day := dgetD st.seq machine.id 1, task_type := .WAIT,
    used_hours := endt - now, start_hour := now, end_hour := endt,
    utilization := taskUtil (endt - now) (machineCap st machine.id) }

/-- Emit a WAIT task `[now, endt)` on `machine` and advance its clock:
the shape shared by all five WAIT emission sites of the source. -/
def pushWait (st : DayState) (machine : Machine) (now endt : ℚ) : DayState :=
  { st with
    tasks := st.tasks ++ [pushTask st machine now endt]
    tcur := dset st.tcur machine.id endt
    seq := dset st.seq machine.id (dgetD st.seq machine.id 1 + 1) }

/-- `done[mid] = True; t[mid] = cap`. -/
def markDone (st : DayState) (machine : Machine) : DayState :=
  { st with
    done := dset st.done machine.id true
    tcur := dset st.tcur machine.id (machineCap st machine.id) }

/-- Record a reservation `[s, e)` on mold `cm` (`_reserve_interval` applied
to the busy dict entry). -/
def reserveMold (st : DayState) (cm : String) (s e : ℚ) : DayState :=
  { st with
    moldBusy := dset st.moldBusy cm
      (_reserve_interval (dgetD st.moldBusy cm []) s e) }

/-- `if owner.get(cid) is None: owner[cid] = mid`. -/
def claimOwner (st : DayState) (cid mid : String) : DayState :=
  if (dget st.owner cid).isSome then st
  else { st with owner := dset st.owner cid mid }

/-- The PRODUCE task literal of the slot body. -/
def produceTask (machine : Machine) (comp : ProductComponent) (qty : Int)
    (st : DayState) (now : ℚ) : Task :=
  { day := st.day, machine_id := machine.id, machine_name := machine.name,
    sequence_in_day := dgetD st.seq machine.id 1, task_type := .PRODUCE,
    mold_id := some comp.mold_id, component_id := some comp.id,
    component_name := some comp.name, color := some comp.color,
    produced_qty := some qty,
    used_hours := (qty : ℚ) * _piece_hours comp.cycle_time_sec,
    start_hour := now,
    end_hour := now + (qty : ℚ) * _piece_hours comp.cycle_time_sec,
    utilization := taskUtil ((qty : ℚ) * _piece_hours comp.cycle_time_sec)
      (machineCap st machine.id) }

/-- Emit the PRODUCE task and update the per-machine dicts (the last block
of the slot body before the completion check). -/
def emitProduce (machine : Machine) (comp : ProductComponent) (qty : Int)
    (st : DayState) (now : ℚ) : DayState :=
  { st with
    tasks := st.tasks ++ [produceTask machine comp qty st now]
    remaining := dset st.remaining comp.id
      (dgetD st.remaining comp.id 0 - qty)
    lastComp := dset st.lastComp machine.id (some comp.id)
    curMold := dset st.curMold machine.id (some comp.mold_id)
    curColor := dset st.curColor machine.id (some comp.color)
    tcur := dset st.tcur machine.id
      (now + (qty : ℚ) * _piece_hours comp.cycle_time_sec)
    seq := dset st.seq machine.id (dgetD st.seq machine.id 1 + 1) }

/-- `if remaining[cid] <= 0: completion[cid] = (day, h)`. -/
def finishComp (st : DayState) (cid : String) (day : Nat) (h : ℚ) : DayState :=
  if dgetD st.remaining cid 0 ≤ 0 then
    { st with completion := dset st.completion cid (day, h) }
  else st

/-- The CHANGE_MOLD task literal of the slot body. -/
def moldTask (st : DayState) (machine : Machine) (comp : ProductComponent)
    (mh now : ℚ) : Task :=
  { day := st.day, machine_id := machine.id, machine_name := machine.name,
    sequence_in_day := dgetD st.seq machine.id 1, task_type := .CHANGE_MOLD,
    from_mold_id := some (dgetD st.curMold machine.id none),
    to_mold_id := some comp.mold_id,
    used_hours := mh, start_hour := now, end_hour := now + mh,
    utilization := taskUtil mh (machineCap st machine.id) }

/-- The CHANGE_COLOR task literal of the slot body. -/
def colorTask (st : DayState) (machine : Machine) (comp : ProductComponent)
    (ch now : ℚ) : Task :=
  { day := st.day, machine_id := machine.id, machine_name := machine.name,
    sequence_in_day := dgetD st.seq machine.id 1, task_type := .CHANGE_COLOR,
    from_color := some (dgetD st.curColor machine.id none),
    to_color := some comp.color,
    used_hours := ch, start_hour := now, end_hour := now + ch,
    utilization := taskUtil ch (machineCap st machine.id) }

/-- The PRODUCE part of the slot body (source lines 534-618). -/
def produceStage (machine : Machine) (comp : ProductComponent)
    (st : DayState) (now : ℚ) : DayState :=
  let mid := machine.id
  let cap := machineCap st mid
  let per_piece_h := _piece_hours comp.cycle_time_sec
  if per_piece_h ≤ 0 then markDone st machine
  else
    let start_prod := now
    let intervals := dgetD st.moldBusy comp.mold_id []
    let hard_end :=
      match _next_busy_start intervals start_prod with
      | none => cap
      | some nb => min cap nb
    let available_run_h := hard_end - start_prod
    if available_run_h < per_piece_h - EPS then markDone st machine
    else
      let max_qty_fit : Int := Rat.floor (available_run_h / per_piece_h)
      let qty := min (dgetD st.remaining comp.id 0) max_qty_fit
      if qty ≤ 0 then markDone st machine
      else
        let used_h := (qty : ℚ) * per_piece_h
        let end_prod := start_prod + used_h
        if !(_interval_is_free intervals start_prod end_prod) then
          match _next_mold_free_time_for_window intervals start_prod per_piece_h cap with
          | some nxt =>
            if decide (start_prod + EPS < nxt) && decide (nxt < cap - EPS) then
              pushWait st machine start_prod nxt
            else markDone st machine
          | none => markDone st machine
        else
          finishComp
            (emitProduce machine comp qty
              (claimOwner (reserveMold st comp.mold_id start_prod end_prod)
                comp.id mid)
              start_prod)
            comp.id st.day end_prod

/-- The same-day prerequisite wait of the slot body (source lines 477-532);
falls through to `produceStage`. -/
def prereqStage (machine : Machine) (comp : ProductComponent)
    (st : DayState) (now : ℚ) : DayState :=
  let mid := machine.id
  let cap := machineCap st mid
  match _next_ready_time_due_to_prereqs comp st.completion st.day now with
  | none => markDone st machine
  | some prn =>
    if decide (now + EPS < prn) then
      if decide (prn ≥ cap - EPS) then markDone st machine
      else
        match dgetD st.curMold mid none with
        | some cm =>
          match dget st.moldBusy cm with
          | none => produceStage machine comp (pushWait st machine now prn) prn
          | some intervals =>
            if !(_interval_is_free intervals now prn) then
              match _next_mold_free_time_for_window intervals now (prn - now) cap with
              | some nxt =>
                if decide (now + EPS < nxt) && decide (nxt < cap - EPS) then
                  pushWait st machine now nxt
                else markDone st machine
              | none => markDone st machine
            else
              produceStage machine comp
                (pushWait (reserveMold st cm now prn) machine now prn) prn
        | none => produceStage machine comp (pushWait st machine now prn) prn
    else produceStage machine comp st now

/-- The CHANGE_MOLD part of the slot body (source lines 425-475);
falls through to `prereqStage`. -/
def moldStage (mch : ℚ) (machine : Machine) (comp : ProductComponent)
    (nmc : Bool) (st : DayState) (now : ℚ) : DayState :=
  let mid := machine.id
  let cap := machineCap st mid
  if nmc then
    let mh := max 0 mch
    if 0 < mh then
      if decide (cap + EPS < now + mh) then markDone st machine
      else
        let intervals := dgetD st.moldBusy comp.mold_id []
        if !(_interval_is_free intervals now (now + mh)) then
          match _next_mold_free_time_for_window intervals now mh cap with
          | some nxt =>
            if decide (now + EPS < nxt) && decide (nxt < cap - EPS) then
              pushWait st machine now nxt
            else markDone st machine
          | none => markDone st machine
        else
          let st1 := reserveMold st comp.mold_id now (now + mh)
          let st2 :=
            { st1 with
              tasks := st1.tasks ++ [moldTask st1 machine comp mh now]
              tcur := dset st1.tcur mid (now + mh)
              seq := dset st1.seq mid (dgetD st1.seq mid 1 + 1)
              curMold := dset st1.curMold mid (some comp.mold_id) }
          prereqStage machine comp st2 (now + mh)
    else
      prereqStage machine comp
        { st with curMold := dset st.curMold mid (some comp.mold_id) } now
  else prereqStage machine comp st now

/-- The CHANGE_COLOR part of the slot body (source lines 399-423);
falls through to `moldStage`. -/
def colorStage (cch mch : ℚ) (machine : Machine) (comp : ProductComponent)
    (ncc nmc : Bool) (st : DayState) (now : ℚ) : DayState :=
  let mid := machine.id
  let cap := machineCap st mid
  if ncc then
    let ch := max 0 cch
    if 0 < ch then
      if decide (cap + EPS < now + ch) then markDone st machine
      else
        let st1 :=
          { st with
            tasks := st.tasks ++ [colorTask st machine comp ch now]
            tcur := dset st.tcur mid (now + ch)
            seq := dset st.seq mid (dgetD st.seq mid 1 + 1)
            curColor := dset st.curColor mid (some comp.color) }
        moldStage mch machine comp nmc st1 (now + ch)
    else
      moldStage mch machine comp nmc
        { st with curColor := dset st.curColor mid (some comp.color) } now
  else moldStage mch machine comp nmc st now

/-- The sticky-preference filter (`last_comp` match) of the slot body. -/
def filterSticky (st : DayState) (mid : String) (cands : List Cand) :
    List Cand :=
  if (dgetD st.lastComp mid none).isSome &&
      cands.any (fun c => c.sticky == 1) then
    cands.filter (fun c => c.sticky == 1)
  else cands

/-- The color-preference filter (`cur_color` match) of the slot body. -/
def filterColor (st : DayState) (mid : String) (cands : List Cand) :
    List Cand :=
  if (dgetD st.curColor mid none).isSome &&
      cands.any (fun c => c.color_match == 1) then
    cands.filter (fun c => c.color_match == 1)
  else cands

/-- One iteration of the event-driven slot loop, for the picked machine:
the candidate scan, wait/done fallback, preference filtering, and the
chosen-candidate pipeline. -/
def slotMachine (cch mch : ℚ) (comp_order : List ProductComponent)
    (moldsById : List (String × Mold)) (rank : List (String × Nat))
    (machine : Machine) (st : DayState) : DayState :=
  let mid := machine.id
  let now := dgetD st.tcur mid 0
  let scan := scanCandidates cch mch moldsById rank st machine comp_order ([], [])
  let cands := scan.1
  let waits := scan.2
  match cands with
  | [] =>
    match waits.min? with
    | some t_next =>
      if decide (now + EPS < t_next) then pushWait st machine now t_next
      else markDone st machine
    | none => markDone st machine
  | _ :: _ =>
    match (filterColor st mid (filterSticky st mid cands)).insertionSort
        (fun a b => candLE a b) with
    | [] => markDone st machine
    | chosen :: _ =>
      colorStage cch mch machine chosen.comp chosen.need_color_change
        chosen.need_mold_change st now

/-- The within-day event loop (`while True` of source lines 276-618),
fuelled; picks the non-done machine with the smallest clock, first in
input order among ties (a stable sort by clock, then the head). -/
def dayLoop (cch mch : ℚ) (comp_order : List ProductComponent)
    (moldsById : List (String × Mold)) (machines : List Machine)
    (rank : List (String × Nat)) : Nat → DayState → DayState
  | 0, st => st
  | fuel + 1, st =>
    let active := machines.filter (fun m =>
      !(dgetD st.done m.id false) &&
        decide (dgetD st.tcur m.id 0 < machineCap st m.id - EPS))
    match active.insertionSort
        (fun m1 m2 => dgetD st.tcur m1.id 0 ≤ dgetD st.tcur m2.id 0) with
    | [] => st
    | machine :: _ =>
      dayLoop cch mch comp_order moldsById machines rank fuel
        (slotMachine cch mch comp_order moldsById rank machine st)

/-- Decoder state persisted across days. -/
structure Persist where
  remaining : List (String × Int)
  completion : List (String × Nat × ℚ)
  owner : List (String × String)
  msMold : List (String × Option String)
  msColor : List (String × Option String)
  msLast : List (String × Option String)
  tasks : List Task
  deriving Repr, DecidableEq

/-- Build the state for one simulated day (source lines 265-273). -/
def initDay (machines : List Machine) (molds : List Mold) (p : Persist)
    (day : Nat) : DayState :=
  let us := dictOf machines (fun m => m.id) (fun m => machineUsable m)
  { day := day, usable := us, remaining := p.remaining,
    completion := p.completion,
    owner := p.owner,
    moldBusy := dictOf molds (fun m => m.id) (fun _ => []),
    tcur := dictOf machines (fun m => m.id) (fun _ => (0 : ℚ)),
    seq := dictOf machines (fun m => m.id) (fun _ => 1),
    done := dictOf machines (fun m => m.id)
      (fun m => decide (dgetD us m.id 0 ≤ EPS)),
    curMold := dictOf machines (fun m => m.id) (fun m => dgetD p.msMold m.id none),
    curColor := dictOf machines (fun m => m.id) (fun m => dgetD p.msColor m.id none),
    lastComp := dictOf machines (fun m => m.id) (fun m => dgetD p.msLast m.id none),
    tasks := p.tasks }

/-- End-of-day persistence (source lines 620-624). -/
def endDay (machines : List Machine) (st : DayState) : Persist :=
  { remaining := st.remaining, completion := st.completion, owner := st.owner,
    msMold := dictOf machines (fun m => m.id) (fun m => dgetD st.curMold m.id none),
    msColor := dictOf machines (fun m => m.id) (fun m => dgetD st.curColor m.id none),
    msLast := dictOf machines (fun m => m.id) (fun m => dgetD st.lastComp m.id none),
    tasks := st.tasks }

/-- Fuel that over-approximates the number of slot-loop iterations in one
day: every iteration marks a machine done, emits a PRODUCE (consuming at
least one remaining piece), or advances some machine clock by more than
`EPS` (all WAIT emissions are strictly longer than `EPS`). -/
def dayFuel (components : List ProductComponent) (machines : List Machine) : Nat :=
  2 * machines.length + 3 +
    (components.map (fun c => c.quantity.toNat)).sum +
    (machines.map (fun m => (Rat.floor (machineUsable m / EPS)).toNat + 1)).sum

/-- The `for day in range(1, month_days + 1)` loop. -/
def runDays (cch mch : ℚ) (comp_order : List ProductComponent)
    (molds : List Mold) (moldsById : List (String × Mold))
    (machines : List Machine) (rank : List (String × Nat)) (fuel : Nat) :
    List Nat → Persist → Persist
  | [], p => p
  | day :: rest, p =>
    let st := initDay machines molds p day
    let st' := dayLoop cch mch comp_order moldsById machines rank fuel st
    runDays cch mch comp_order molds moldsById machines rank fuel rest
      (endDay machines st')

/-- `_decode_v2` from the source: genome to `(tasks, unmet)`.  The only
error is the `InvalidInput` raised by `_topological_order`. -/
def _decode_v2 (genome : List String) (components : List ProductComponent)
    (machines : List Machine) (molds : List Mold) (month_days : Nat)
    (mold_change_time_hours color_change_time_hours : ℚ) :
    Except String (List Task × List (String × Int)) :=
  match _topological_order components with
  | .error e => .error e
  | .ok topo =>
    let rank := genomeRank genome
    let comp_order := compOrder genome topo
    let moldsById := dictOf molds (fun m => m.id) (fun m => m)
    let p0 : Persist :=
      { remaining := dictOf components (fun c => c.id) (fun c => c.quantity),
        completion := [], owner := [],
        msMold := dictOf machines (fun m => m.id) (fun _ => none),
        msColor := dictOf machines (fun m => m.id) (fun _ => none),
        msLast := dictOf machines (fun m => m.id) (fun _ => none),
        tasks := [] }
    let pEnd := runDays color_change_time_hours mold_change_time_hours comp_order
      molds moldsById machines rank (dayFuel components machines)
      (List.range' 1 month_days) p0
    .ok (pEnd.tasks, pEnd.remaining.filter (fun q => 0 < q.2))

/-! ### GA driver (`ga_optimize_v2`)

All randomness of the source flows through the global `random` module; the
embedding threads an explicit generator state `γ` with the three draw
operations the GA uses: `random.sample(range(n), 2)`, `random.random()`,
and `random.shuffle`. -/

/-- The seeded random source, as consumed by the GA. -/
structure RandGen (γ : Type) where
  sample2 : Nat → γ → (Nat × Nat) × γ
  randQ : γ → ℚ × γ
  shuffle : List String → γ → List String × γ

/-- A well-behaved random source: `sample2 n` yields two distinct indices
below `n` (for `n ≥ 2`), and `shuffle` yields a permutation. -/
def RandGen.WellBehaved (G : RandGen γ) : Prop :=
  (∀ n g, 2 ≤ n →
    (G.sample2 n g).1.1 < n ∧ (G.sample2 n g).1.2 < n ∧
      (G.sample2 n g).1.1 ≠ (G.sample2 n g).1.2) ∧
  (∀ l g, (G.shuffle l g).1.Perm l)

/-- `_random_genome`: a shuffled copy of the component ids. -/
def _random_genome (G : RandGen γ) (components : List ProductComponent)
    (g : γ) : List String × γ :=
  G.shuffle (components.map (·.id)) g

/-- `_mutate_swap` with its two index draws taken from the source
(no draw happens for genomes shorter than 2). -/
def mutateSwapR (G : RandGen γ) (genome : List String) (g : γ) :
    List String × γ :=
  if genome.length < 2 then (genome, g)
  else
    let ((i, j), g') := G.sample2 genome.length g
    (_mutate_swap genome i j, g')

/-- `_crossover_ox` with its cut-point draws taken from the source. -/
def crossoverOxR (G : RandGen γ) (p1 p2 : List String) (g : γ) :
    List String × γ :=
  if p1.length < 2 then (p1, g)
  else
    let ((d1, d2), g') := G.sample2 p1.length g
    (_crossover_ox p1 p2 d1 d2, g')

/-- `[_random_genome(components) for _ in range(pop_size)]`. -/
def initPopulation (G : RandGen γ) (components : List ProductComponent) :
    Nat → γ → List (List String) × γ
  | 0, g => ([], g)
  | n + 1, g =>
    let (gnm, g') := _random_genome G components g
    let (rest, g'') := initPopulation G components n g'
    (gnm :: rest, g'')

/-- Score every genome of the population: decode then fitness (source
lines 656-668).  Decoding errors propagate; a fitness `KeyError` becomes
an error of its own (unreachable for decoder-produced tasks). -/
def scorePopulation (components : List ProductComponent)
    (machines : List Machine) (molds : List Mold) (month_days : Nat)
    (mch cch : ℚ) : List (List String) → Except String (List (ℚ × List String))
  | [] => .ok []
  | gnm :: rest =>
    match _decode_v2 gnm components machines molds month_days mch cch with
    | .error e => .error e
    | .ok (tasks, unmet) =>
      match _fitness_v2 tasks unmet components with
      | none => .error "KeyError"
      | some score =>
        match scorePopulation components machines molds month_days mch cch rest with
        | .error e => .error e
        | .ok l => .ok ((score, gnm) :: l)

/-- The `while len(new_pop) < pop_size` binary-tournament fill (source
lines 678-681), fuelled by `pop_size`. -/
def tournamentFill (G : RandGen γ) (scored : List (ℚ × List String))
    (pop_size : Nat) : Nat → List (List String) → γ → List (List String) × γ
  | 0, pool, g => (pool, g)
  | k + 1, pool, g =>
    if pool.length < pop_size then
      let ((i, j), g') := G.sample2 pop_size g
      let si := scored.getD i (0, [])
      let sj := scored.getD j (0, [])
      let parent := if sj.1 < si.1 then si.2 else sj.2
      tournamentFill G scored pop_size k (pool ++ [parent]) g'
    else (pool, g)

/-- The parent pool of one generation: the top `elite_k = max(2,
pop_size // 5)` genomes followed by tournament winners up to `pop_size`
(source lines 675-681). -/
def parentPool (G : RandGen γ) (scored : List (ℚ × List String))
    (pop_size : Nat) (g : γ) : List (List String) × γ :=
  let elite_k := max 2 (pop_size / 5)
  tournamentFill G scored pop_size pop_size ((scored.take elite_k).map (·.2)) g

/-- The crossover pass: consecutive pairs of the parent pool produce two
OX children each; an odd trailing parent is carried through (source
lines 683-690). -/
def breedPairs (G : RandGen γ) : List (List String) → γ → List (List String) × γ
  | [], g => ([], g)
  | [p], g => ([p], g)
  | p1 :: p2 :: rest, g =>
    let (c1, g1) := crossoverOxR G p1 p2 g
    let (c2, g2) := crossoverOxR G p2 p1 g1
    let (cs, g3) := breedPairs G rest g2
    (c1 :: c2 :: cs, g3)

/-- The mutation pass: each child is swap-mutated with probability
`mutation_rate` (source lines 692-694). -/
def mutateAll (G : RandGen γ) (mutation_rate : ℚ) :
    List (List String) → γ → List (List String) × γ
  | [], g => ([], g)
  | c :: rest, g =>
    let (r, g1) := G.randQ g
    let (c', g2) := if r < mutation_rate then mutateSwapR G c g1 else (c, g1)
    let (cs, g3) := mutateAll G mutation_rate rest g2
    (c' :: cs, g3)

/-- One full generation step from the (descending-sorted) scored
population to the population used for the next generation
(source lines 675-696). -/
def nextPopulation (G : RandGen γ) (scored : List (ℚ × List String))
    (pop_size : Nat) (mutation_rate : ℚ) (g : γ) : List (List String) × γ :=
  let (pool, g1) := parentPool G scored pop_size g
  let (children, g2) := breedPairs G pool g1
  let (mutated, g3) := mutateAll G mutation_rate children g2
  (mutated.take pop_size, g3)

/-- The generation loop of `ga_optimize_v2`, returning the running best
`(score, genome)` (source lines 655-696). -/
def gaLoop (G : RandGen γ) (components : List ProductComponent)
    (machines : List Machine) (molds : List Mold) (month_days : Nat)
    (mch cch : ℚ) (pop_size : Nat) (mutation_rate : ℚ) :
    Nat → List (List String) → Option (ℚ × List String) → γ →
    Except String (Option (ℚ × List String))
  | 0, _, best, _ => .ok best
  | n + 1, population, best, g =>
    match scorePopulation components machines molds month_days mch cch population with
    | .error e => .error e
    | .ok scoredRaw =>
      let scored := scoredRaw.insertionSort (fun a b => b.1 ≤ a.1)
      match scored with
      | [] => .error "IndexError"
      | top :: _ =>
        let best' :=
          match best with
          | none => some (top.1, top.2)
          | some (bs, bg) => if bs < top.1 then some (top.1, top.2) else some (bs, bg)
        let (newPop, g') := nextPopulation G scored pop_size mutation_rate g
        gaLoop G components machines molds month_days mch cch pop_size
          mutation_rate n newPop best' g'

/-- The structured record returned by `ga_optimize_v2`. -/
structure GaResult where
  assignments : List Task
  unmet : List (String × Int)
  score : ℚ
  deriving Repr, DecidableEq

/-- `ga_optimize_v2` from the source: validation, population seeding,
the generation loop, and the final re-decode of the best genome. -/
def ga_optimize_v2 (G : RandGen γ) (components : List ProductComponent)
    (machines : List Machine) (molds : List Mold) (month_days : Int)
    (mold_change_time_hours color_change_time_hours : ℚ)
    (pop_size n_generations : Int) (mutation_rate : ℚ) (g : γ) :
    Except String GaResult :=
  if month_days < 1 then .error "month_days must be at least 1"
  else if pop_size < 2 then .error "pop_size must be at least 2"
  else if n_generations < 1 then .error "n_generations must be at least 1"
  else if ¬(0 ≤ mutation_rate ∧ mutation_rate ≤ 1) then
    .error "mutation_rate must be between 0 and 1"
  else
    let (pop0, g0) := initPopulation G components pop_size.toNat g
    match gaLoop G components machines molds month_days.toNat
        mold_change_time_hours color_change_time_hours pop_size.toNat
        mutation_rate n_generations.toNat pop0 none g0 with
    | .error e => .error e
    | .ok none => .error "TypeError"
    | .ok (some (_, best_genome)) =>
      match _decode_v2 best_genome components machines molds month_days.toNat
          mold_change_time_hours color_change_time_hours with
      | .error e => .error e
      | .ok (final_tasks, final_unmet) =>
        match _fitness_v2 final_tasks final_unmet components with
        | none => .error "KeyError"
        | some final_score =>
          .ok { assignments := final_tasks, unmet := final_unmet,
                score := final_score }

/-! ### Concrete random sources used in witnesses and counterexamples -/

/-- A trivial well-behaved random source: `sample2` always yields `(0, 1)`,
`random()` yields `0`, `shuffle` is the identity permutation. -/
def GUnit : RandGen Unit :=
  { sample2 := fun _ _ => ((0, 1), ()),
    randQ := fun _ => (0, ()),
    shuffle := fun l _ => (l, ()) }

/-- A stream-driven random source: `sample2` pops two naturals,
`random()` pops one (interpreted as 0), `shuffle` is the identity. -/
def GStream : RandGen (List Nat) :=
  { sample2 := fun _ s => ((s.headD 0, s.tail.headD 1), s.drop 2),
    randQ := fun s => (0, s.drop 1),
    shuffle := fun l s => (l, s) }

/-! ### Spec-side predicates used in claim statements -/

/-- Topological legality of a component list: every component appears
strictly after each of its prerequisites (claim C7's property). -/
def topoLegal (l : List ProductComponent) : Prop :=
  ∀ i j : Fin l.length, (l.get i).id ∈ (l.get j).prerequisites →
    (i : Nat) < (j : Nat)

/-- The output ordering claimed by C6: day ascending, then machine input
order (position in the `machines` list), then sequence-in-day. -/
def orderedByDayMachineSeq (machines : List Machine) (tasks : List Task) : Prop :=
  ∀ i j : Fin tasks.length, (i : Nat) < (j : Nat) →
    (tasks.get i).day < (tasks.get j).day ∨
    ((tasks.get i).day = (tasks.get j).day ∧
      (machines.findIdx (fun m => m.id == (tasks.get i).machine_id) <
        machines.findIdx (fun m => m.id == (tasks.get j).machine_id) ∨
      ((tasks.get i).machine_id = (tasks.get j).machine_id ∧
        (tasks.get i).sequence_in_day < (tasks.get j).sequence_in_day)))

/-! ### Concrete fixtures used in witnesses and counterexamples -/

/-- Fixture: a prerequisite component `p`. -/
def compP : ProductComponent :=
  { id := "p", name := "p", quantity := 1, cycle_time_sec := 3600,
    mold_id := "d", color := "r", due_day := 1, lead_time_days := 0,
    prerequisites := [], status := "pending" }

/-- Fixture: a component `c` that requires `p`. -/
def compC : ProductComponent :=
  { id := "c", name := "c", quantity := 1, cycle_time_sec := 3600,
    mold_id := "d", color := "r", due_day := 1, lead_time_days := 0,
    prerequisites := ["p"], status := "pending" }

/-- The `first_prod_day` fold of `_fitness_v2`, in isolation (PRODUCE
tasks with a missing component id are skipped here; the full scan errors
on them). -/
def scanFpd : List Task → List (String × Int) → List (String × Int)
  | [], f => f
  | t :: ts, f =>
    match t.task_type, t.component_id with
    | .PRODUCE, some cid =>
      scanFpd ts (dset f cid (min (dgetD f cid (10 ^ 9)) (t.day : Int)))
    | _, _ => scanFpd ts f

/-- The late-start penalty contributed by one `first_prod_day` entry. -/
def penOf (compsById : List (String × ProductComponent)) (cid : String)
    (d : Int) : ℚ :=
  match dget compsById cid with
  | none => 0
  | some c =>
    let latest_start := max (c.due_day - c.lead_time_days) 1
    if d > latest_start then ((d - latest_start : Int) : ℚ) * 10000 else 0

/-- Fixture: a PRODUCE task whose component id is unknown to the
component list (for the C4 counterexample). -/
def taskBad : Task :=
  { day := 1, machine_id := "M", machine_name := "M", sequence_in_day := 1,
    task_type := .PRODUCE, used_hours := 1, start_hour := 0, end_hour := 1,
    utilization := 0, mold_id := some "d", component_id := some "a",
    component_name := some "a", color := some "r", produced_qty := some 1 }

/-- Fixture: a PRODUCE task for component `p` (see `compP`). -/
def taskP : Task :=
  { day := 1, machine_id := "M", machine_name := "M", sequence_in_day := 1,
    task_type := .PRODUCE, used_hours := 1, start_hour := 0, end_hour := 1,
    utilization := 0, mold_id := some "d", component_id := some "p",
    component_name := some "p", color := some "r", produced_qty := some 1 }

/-- The mold that a task occupies, if any: a PRODUCE task occupies its
`mold_id`, a CHANGE_MOLD task its `to_mold_id`. -/
def taskMoldOf (t : Task) : Option String :=
  match t.task_type with
  | .PRODUCE => t.mold_id
  | .CHANGE_MOLD => t.to_mold_id
  | _ => none

/-- Claim C1's relation between two tasks: if they fall on the same day
and occupy the same mold, their half-open intervals do not overlap. -/
def moldDisjoint (t1 t2 : Task) : Prop :=
  ∀ mo : String, t1.day = t2.day → taskMoldOf t1 = some mo →
    taskMoldOf t2 = some mo →
    _overlaps t1.start_hour t1.end_hour t2.start_hour t2.end_hour = false

/-- Total pieces produced for a component id. -/
def producedSum (tasks : List Task) (cid : String) : Int :=
  ((producesOf tasks cid).map (fun t => t.produced_qty.getD 0)).sum

/-- Pairwise non-overlap of a reservation list. -/
def pairwiseIvFree (ivs : List (ℚ × ℚ)) : Prop :=
  ivs.Pairwise (fun a b => _overlaps a.1 a.2 b.1 b.2 = false)

/-- The master invariant carried through the within-day simulation.
`rem0` is the initial `remaining` dict of the decode. -/
structure DInv (components : List ProductComponent) (rem0 : List (String × Int))
    (mch cch : ℚ) (st : DayState) : Prop where
  taskPos : ∀ t ∈ st.tasks, 0 < t.used_hours ∧ t.start_hour < t.end_hour ∧
    (t.task_type = TaskType.PRODUCE → ∃ q, t.produced_qty = some q ∧ 1 ≤ q) ∧
    (t.task_type = TaskType.CHANGE_MOLD → 0 < mch) ∧
    (t.task_type = TaskType.CHANGE_COLOR → 0 < cch)
  dayLe : ∀ t ∈ st.tasks, t.day ≤ st.day
  dayMono : st.tasks.Pairwise (fun t1 t2 => t1.day ≤ t2.day)
  seqMono : st.tasks.Pairwise (fun t1 t2 => t1.day = t2.day →
    t1.machine_id = t2.machine_id → t1.sequence_in_day < t2.sequence_in_day)
  seqLt : ∀ t ∈ st.tasks, t.day = st.day →
    t.sequence_in_day < dgetD st.seq t.machine_id 1
  busyFree : ∀ mo ivs, dget st.moldBusy mo = some ivs → pairwiseIvFree ivs
  taskBusy : ∀ t ∈ st.tasks, t.day = st.day → ∀ mo, taskMoldOf t = some mo →
    ∃ ivs, dget st.moldBusy mo = some ivs ∧ (t.start_hour, t.end_hour) ∈ ivs
  moldDisj : st.tasks.Pairwise moldDisjoint
  remKeysNodup : (st.remaining.map (·.1)).Nodup
  remCons : ∀ cid, (dget st.remaining cid).isSome ↔ (dget rem0 cid).isSome
  remSum : ∀ cid q, dget st.remaining cid = some q →
    ∃ q0, dget rem0 cid = some q0 ∧ producedSum st.tasks cid + q = q0
  remNonneg : ∀ cid q, dget st.remaining cid = some q →
    0 ≤ q ∨ (producedSum st.tasks cid = 0 ∧ dget rem0 cid = some q)
  prodComp : ∀ t ∈ st.tasks, t.task_type = TaskType.PRODUCE → ∀ cid,
    t.component_id = some cid → (dget rem0 cid).isSome ∧ ∃ comp,
    comp ∈ components ∧ comp.id = cid ∧
    ∀ pr ∈ comp.prerequisites, ∃ d h, dget st.completion pr = some (d, h) ∧
      (d < t.day ∨ (d = t.day ∧ h ≤ t.start_hour + EPS))
  prodCid : ∀ t ∈ st.tasks, t.task_type = TaskType.PRODUCE →
    (t.component_id).isSome
  owned : ∀ t ∈ st.tasks, t.task_type = TaskType.PRODUCE → ∀ cid,
    t.component_id = some cid → dget st.owner cid = some t.machine_id
  complRem : ∀ p d h, dget st.completion p = some (d, h) →
    ∀ q, dget st.remaining p = some q → q ≤ 0
  complWitness : ∀ p d h, dget st.completion p = some (d, h) →
    ∃ t ∈ st.tasks, t.task_type = TaskType.PRODUCE ∧
      t.component_id = some p ∧ t.day = d ∧ t.end_hour = h
  complLast : ∀ p d h, dget st.completion p = some (d, h) →
    ∀ t ∈ st.tasks, t.task_type = TaskType.PRODUCE → t.component_id = some p →
      (t.day < d ∨ (t.day = d ∧ t.end_hour ≤ h))
  prodCursor : ∀ t ∈ st.tasks, t.day = st.day → t.task_type = TaskType.PRODUCE →
    t.end_hour ≤ dgetD st.tcur t.machine_id 0
  prodCap : ∀ t ∈ st.tasks, t.day = st.day → t.task_type = TaskType.PRODUCE →
    t.end_hour ≤ machineCap st t.machine_id

/-- The persisted part of the invariant between days: `b` bounds the day
stamps of all emitted tasks. -/
structure PInv (components : List ProductComponent) (rem0 : List (String × Int))
    (mch cch : ℚ) (b : Nat) (p : Persist) : Prop where
  taskPos : ∀ t ∈ p.tasks, 0 < t.used_hours ∧ t.start_hour < t.end_hour ∧
    (t.task_type = TaskType.PRODUCE → ∃ q, t.produced_qty = some q ∧ 1 ≤ q) ∧
    (t.task_type = TaskType.CHANGE_MOLD → 0 < mch) ∧
    (t.task_type = TaskType.CHANGE_COLOR → 0 < cch)
  dayLe : ∀ t ∈ p.tasks, t.day ≤ b
  dayMono : p.tasks.Pairwise (fun t1 t2 => t1.day ≤ t2.day)
  seqMono : p.tasks.Pairwise (fun t1 t2 => t1.day = t2.day →
    t1.machine_id = t2.machine_id → t1.sequence_in_day < t2.sequence_in_day)
  moldDisj : p.tasks.Pairwise moldDisjoint
  remKeysNodup : (p.remaining.map (·.1)).Nodup
  remCons : ∀ cid, (dget p.remaining cid).isSome ↔ (dget rem0 cid).isSome
  remSum : ∀ cid q, dget p.remaining cid = some q →
    ∃ q0, dget rem0 cid = some q0 ∧ producedSum p.tasks cid + q = q0
  remNonneg : ∀ cid q, dget p.remaining cid = some q →
    0 ≤ q ∨ (producedSum p.tasks cid = 0 ∧ dget rem0 cid = some q)
  prodComp : ∀ t ∈ p.tasks, t.task_type = TaskType.PRODUCE → ∀ cid,
    t.component_id = some cid → (dget rem0 cid).isSome ∧ ∃ comp,
    comp ∈ components ∧ comp.id = cid ∧
    ∀ pr ∈ comp.prerequisites, ∃ d h, dget p.completion pr = some (d, h) ∧
      (d < t.day ∨ (d = t.day ∧ h ≤ t.start_hour + EPS))
  prodCid : ∀ t ∈ p.tasks, t.task_type = TaskType.PRODUCE →
    (t.component_id).isSome
  owned : ∀ t ∈ p.tasks, t.task_type = TaskType.PRODUCE → ∀ cid,
    t.component_id = some cid → dget p.owner cid = some t.machine_id
  complRem : ∀ pr d h, dget p.completion pr = some (d, h) →
    ∀ q, dget p.remaining pr = some q → q ≤ 0
  complWitness : ∀ pr d h, dget p.completion pr = some (d, h) →
    ∃ t ∈ p.tasks, t.task_type = TaskType.PRODUCE ∧
      t.component_id = some pr ∧ t.day = d ∧ t.end_hour = h
  complLast : ∀ pr d h, dget p.completion pr = some (d, h) →
    ∀ t ∈ p.tasks, t.task_type = TaskType.PRODUCE → t.component_id = some pr →
      (t.day < d ∨ (t.day = d ∧ t.end_hour ≤ h))

/-- Fixture machine with nanoscale capacity: the decoder fuel
`dayFuel` stays small, so concrete decodes reduce in the kernel. -/
def mW : Machine :=
  { id := "M", name := "M", group := "small", tonnage := 100,
    hours_per_day := 4 / 10 ^ 9, efficiency := 1 }

/-- Fixture mold for `mW`. -/
def dW : Mold := { id := "D", name := "D", group := "small", tonnage := 50 }

/-- Fixture component: two pieces, one nanohour each. -/
def cW1 : ProductComponent :=
  { id := "C1", name := "C1", quantity := 2, cycle_time_sec := 3600 / 10 ^ 9,
    mold_id := "D", color := "red", due_day := 1, lead_time_days := 0,
    prerequisites := [], status := "pending" }

/-- Fixture component depending on `cW1`. -/
def cW2 : ProductComponent :=
  { id := "C2", name := "C2", quantity := 1, cycle_time_sec := 3600 / 10 ^ 9,
    mold_id := "D", color := "red", due_day := 1, lead_time_days := 0,
    prerequisites := ["C1"], status := "pending" }

/-- Fixture component with a negative requested quantity. -/
def cNeg : ProductComponent :=
  { id := "N", name := "N", quantity := -1, cycle_time_sec := 3600 / 10 ^ 9,
    mold_id := "D", color := "red", due_day := 1, lead_time_days := 0,
    prerequisites := [], status := "pending" }

/-- Fixture: big machine (10 nanohours). -/
def mb1 : Machine :=
  { id := "M1", name := "M1", group := "big", tonnage := 100,
    hours_per_day := 10 / 10 ^ 9, efficiency := 1 }

/-- Fixture: small machine (4 nanohours). -/
def mb2 : Machine :=
  { id := "M2", name := "M2", group := "small", tonnage := 100,
    hours_per_day := 4 / 10 ^ 9, efficiency := 1 }

/-- Fixture molds for the two machine groups. -/
def db1 : Mold := { id := "D1", name := "D1", group := "big", tonnage := 50 }

def db2 : Mold := { id := "D2", name := "D2", group := "small", tonnage := 50 }

def db3 : Mold := { id := "D3", name := "D3", group := "big", tonnage := 50 }

/-- Fixture components that interleave across the two machines. -/
def cb1 : ProductComponent :=
  { id := "C1", name := "C1", quantity := 1, cycle_time_sec := 3600 / 10 ^ 9,
    mold_id := "D1", color := "red", due_day := 1, lead_time_days := 0,
    prerequisites := [], status := "pending" }

def cb2 : ProductComponent :=
  { id := "C2", name := "C2", quantity := 2, cycle_time_sec := 3600 / 10 ^ 9,
    mold_id := "D2", color := "red", due_day := 1, lead_time_days := 0,
    prerequisites := [], status := "pending" }

def cb3 : ProductComponent :=
  { id := "C3", name := "C3", quantity := 1, cycle_time_sec := 3600 / 10 ^ 9,
    mold_id := "D3", color := "red", due_day := 1, lead_time_days := 0,
    prerequisites := [], status := "pending" }

/-! ### Spec-side prerequisite-graph notions (for claim C5) -/

/-- The prerequisite edge relation of a component list: `p → q` holds when
some component with id `q` lists `p` among its prerequisites. -/
def prereqEdge (components : List ProductComponent) (p q : String) : Prop :=
  ∃ c ∈ components, c.id = q ∧ p ∈ c.prerequisites

/-- A cyclic prerequisite graph: some id reaches itself through at least
one prerequisite edge. -/
def prereqCyclic (components : List ProductComponent) : Prop :=
  ∃ x, Relation.TransGen (prereqEdge components) x x

/-- Some component lists a prerequisite id that is not among the component
ids. -/
def unknownPrereq (components : List ProductComponent) : Prop :=
  ∃ c ∈ components, ∃ pr ∈ c.prerequisites, pr ∉ components.map (fun c => c.id)

/-- The edge list of the prerequisite graph: one entry `(pr, c.id)` per
prerequisite mention, in the traversal order of `buildPrereqGraph`. -/
def edgesOf (components : List ProductComponent) : List (String × String) :=
  components.flatMap (fun c => c.prerequisites.map (fun pr => (pr, c.id)))

/-- One edge insertion of `buildPrereqGraph`: append the successor to the
adjacency list of the source and bump the in-degree of the target. -/
def addEdge (gi : List (String × List String) × List (String × Int))
    (e : String × String) :
    List (String × List String) × List (String × Int) :=
  (dset gi.1 e.1 (dgetD gi.1 e.1 [] ++ [e.2]),
   dset gi.2 e.2 (dgetD gi.2 e.2 0 + 1))

/-- Number of edges of `E` into `x` whose source lies outside `out` (the
pending in-degree of `x` during a Kahn run). -/
def pendIn (E : List (String × String)) (out : List String) (x : String) : Nat :=
  (E.filter (fun e => e.2 == x && !(decide (e.1 ∈ out)))).length

/-- The loop invariant of the fuelled Kahn iteration, relative to the id
list `ids` and the edge list `E` of the graph being sorted. -/
structure KInv (ids : List String) (E : List (String × String))
    (out queue : List String) (indeg : List (String × Int)) : Prop where
  outq_nodup : (out ++ queue).Nodup
  outq_sub : ∀ x ∈ out ++ queue, x ∈ ids
  keys : ∀ x, (dget indeg x).isSome ↔ x ∈ ids
  count : ∀ x, dgetD indeg x 0 = (pendIn E out x : Int)
  zero_mem : ∀ x ∈ ids, dgetD indeg x 0 = 0 → x ∈ out ++ queue
  mem_zero : ∀ x ∈ out ++ queue, dgetD indeg x 0 = 0
  queue_pred : ∀ x ∈ queue, ∀ e ∈ E, e.2 = x → e.1 ∈ out
  out_order : ∀ e ∈ E, e.2 ∈ out →
    e.1 ∈ out ∧ out.indexOf e.1 < out.indexOf e.2

/-! ### Lemmas about the dict model -/

theorem dget_nil (k : String) : dget ([] : List (String × α)) k = none := rfl

theorem dget_cons (p : String × α) (l : List (String × α)) (k : String) :
    dget (p :: l) k = if p.1 == k then some p.2 else dget l k := by
  by_cases h : p.1 == k
  · simp [dget, List.find?_cons_of_pos, h]
  · simp only [Bool.not_eq_true] at h
    simp [dget, List.find?_cons_of_neg, h]

theorem dget_append (l l' : List (String × α)) (k : String) :
    dget (l ++ l') k = (dget l k).or (dget l' k) := by
  induction l with
  | nil => simp [dget_nil]
  | cons p rest ih =>
    rw [List.cons_append, dget_cons, dget_cons]
    by_cases h : p.1 == k <;> simp [h, ih]

/-- The in-place replacement branch of `dset`. -/
theorem dget_mapRepl_self (l : List (String × α)) (k : String) (v : α) :
    dget (l.map (fun p => if p.1 == k then (k, v) else p)) k =
      (dget l k).map (fun _ => v) := by
  induction l with
  | nil => simp [dget_nil]
  | cons p rest ih =>
    simp only [List.map_cons]
    rw [dget_cons, dget_cons]
    by_cases hb : p.1 = k
    · simp [hb]
    · have hb' : (p.1 == k) = false := beq_eq_false_iff_ne.mpr hb
      simp only [hb', Bool.false_eq_true, if_false]
      exact ih

theorem dget_mapRepl_ne (l : List (String × α)) (k k' : String) (v : α)
    (hne : k' ≠ k) :
    dget (l.map (fun p => if p.1 == k then (k, v) else p)) k' = dget l k' := by
  induction l with
  | nil => simp [dget_nil]
  | cons p rest ih =>
    simp only [List.map_cons]
    rw [dget_cons, dget_cons]
    by_cases hb : p.1 = k
    · have h1 : ¬(k = k') := fun hc => hne hc.symm
      simp only [hb, beq_self_eq_true, if_true]
      rw [if_neg (by simpa using h1), if_neg (by simpa using h1)]
      exact ih
    · have hb' : (p.1 == k) = false := beq_eq_false_iff_ne.mpr hb
      simp only [hb', Bool.false_eq_true, if_false]
      by_cases hc : p.1 = k'
      · rw [if_pos (by simpa using hc), if_pos (by simpa using hc)]
      · rw [if_neg (by simpa using hc), if_neg (by simpa using hc)]
        exact ih

theorem dget_dset_self (l : List (String × α)) (k : String) (v : α) :
    dget (dset l k v) k = some v := by
  unfold dset
  by_cases h : (dget l k).isSome
  · rw [if_pos h, dget_mapRepl_self]
    obtain ⟨w, hw⟩ := Option.isSome_iff_exists.mp h
    simp [hw]
  · rw [if_neg h]
    rw [dget_append]
    have hn : dget l k = none := Option.not_isSome_iff_eq_none.mp h
    simp [hn, dget_cons]

theorem dget_dset_ne (l : List (String × α)) (k k' : String) (v : α)
    (hne : k' ≠ k) : dget (dset l k v) k' = dget l k' := by
  unfold dset
  by_cases h : (dget l k).isSome
  · rw [if_pos h, dget_mapRepl_ne _ _ _ _ hne]
  · rw [if_neg h, dget_append]
    have h1 : (k == k') = false := by
      simp only [beq_eq_false_iff_ne, ne_eq]
      exact fun hc => hne hc.symm
    cases hl : dget l k' <;> simp [dget_cons, h1, dget_nil]

theorem dgetD_dset_self (l : List (String × α)) (k : String) (v d : α) :
    dgetD (dset l k v) k d = v := by
  simp [dgetD, dget_dset_self]

theorem dgetD_dset_ne (l : List (String × α)) (k k' : String) (v d : α)
    (hne : k' ≠ k) : dgetD (dset l k v) k' d = dgetD l k' d := by
  simp [dgetD, dget_dset_ne _ _ _ _ hne]

/-- Every binding of `dset l k v` is the new binding or an untouched old
binding with a different key. -/
theorem mem_dset (l : List (String × α)) (k : String) (v : α) (p : String × α)
    (hp : p ∈ dset l k v) : p = (k, v) ∨ (p ∈ l ∧ p.1 ≠ k) := by
  unfold dset at hp
  by_cases h : (dget l k).isSome
  · rw [if_pos h] at hp
    obtain ⟨q, hq, hqe⟩ := List.mem_map.mp hp
    cases hqk : (q.1 == k) with
    | true =>
      left
      rw [if_pos (by simp [hqk])] at hqe
      exact hqe.symm
    | false =>
      right
      rw [if_neg (by simp [hqk])] at hqe
      refine ⟨hqe ▸ hq, ?_⟩
      rw [← hqe]
      simpa using hqk
  · rw [if_neg h] at hp
    rcases List.mem_append.mp hp with h1 | h2
    · right
      refine ⟨h1, fun hc => ?_⟩
      have hn : dget l k = none := Option.not_isSome_iff_eq_none.mp h
      have hfn : (l.find? (fun q => q.1 == k)) = none := by
        simpa [dget, Option.map_eq_none'] using hn
      have := List.find?_eq_none.mp hfn p h1
      simp [hc] at this
    · left; simpa using h2

theorem dget_some_mem (l : List (String × α)) (k : String) (v : α)
    (h : dget l k = some v) : (k, v) ∈ l := by
  unfold dget at h
  obtain ⟨p, hp, hpe⟩ := Option.map_eq_some'.mp h
  have hmem := List.mem_of_find?_eq_some hp
  have hkey : p.1 = k := by
    have := List.find?_some hp
    simpa using this
  have : p = (k, v) := by
    cases p; simp_all
  exact this ▸ hmem

/-- Key lists: replacing in place keeps the key list. -/
theorem keys_dset_isSome (l : List (String × α)) (k : String) (v : α)
    (h : (dget l k).isSome) :
    (dset l k v).map (·.1) = l.map (·.1) := by
  unfold dset
  rw [if_pos h, List.map_map]
  apply List.map_congr_left
  intro p _
  cases hpk : (p.1 == k) with
  | true =>
    simp only [Function.comp_apply]
    rw [if_pos (by simp [hpk])]
    exact (beq_iff_eq.mp hpk).symm
  | false =>
    simp only [Function.comp_apply]
    rw [if_neg (by simp [hpk])]

theorem keys_dset_none (l : List (String × α)) (k : String) (v : α)
    (h : dget l k = none) :
    (dset l k v).map (·.1) = l.map (·.1) ++ [k] := by
  unfold dset
  rw [if_neg (by simp [h])]
  simp

theorem dget_isSome_iff_mem_keys (l : List (String × α)) (k : String) :
    (dget l k).isSome ↔ k ∈ l.map (·.1) := by
  induction l with
  | nil => simp [dget_nil]
  | cons p rest ih =>
    rw [dget_cons]
    cases hb : (p.1 == k) with
    | true =>
      have : p.1 = k := beq_iff_eq.mp hb
      simp [this]
    | false =>
      rw [if_neg (by simp [hb])]
      simp only [List.map_cons, List.mem_cons]
      rw [ih]
      constructor
      · intro hm; right; exact hm
      · rintro (hm | hm)
        · exact absurd (beq_iff_eq.mpr hm.symm) (by simp [hb])
        · exact hm

theorem dget_eq_none_iff (l : List (String × α)) (k : String) :
    dget l k = none ↔ k ∉ l.map (·.1) := by
  rw [← dget_isSome_iff_mem_keys]
  cases dget l k <;> simp

/-- With nodup keys, membership determines the lookup. -/
theorem dget_of_mem_nodup (l : List (String × α)) (k : String) (v : α)
    (hnd : (l.map (·.1)).Nodup) (hm : (k, v) ∈ l) : dget l k = some v := by
  induction l with
  | nil => cases hm
  | cons p rest ih =>
    rcases List.mem_cons.mp hm with h1 | h2
    · rw [← h1, dget_cons]
      simp
    · rw [dget_cons]
      have hk : k ∈ rest.map (·.1) := List.mem_map.mpr ⟨(k, v), h2, rfl⟩
      have hnd1 : p.1 ∉ rest.map (·.1) := by
        simp only [List.map_cons, List.nodup_cons] at hnd; exact hnd.1
      have hne : ¬((p.1 == k) = true) := by
        intro hc
        exact hnd1 ((beq_iff_eq.mp hc) ▸ hk)
      rw [if_neg hne]
      exact ih (by simp only [List.map_cons, List.nodup_cons] at hnd; exact hnd.2) h2

theorem nodupKeys_dset (l : List (String × α)) (k : String) (v : α)
    (hnd : (l.map (·.1)).Nodup) : ((dset l k v).map (·.1)).Nodup := by
  by_cases h : (dget l k).isSome
  · rw [keys_dset_isSome _ _ _ h]; exact hnd
  · rw [keys_dset_none _ _ _ (Option.not_isSome_iff_eq_none.mp h)]
    rw [List.nodup_append]
    refine ⟨hnd, List.nodup_singleton k, ?_⟩
    intro x hx
    simp only [List.mem_singleton]
    intro hc
    rw [hc] at hx
    exact absurd ((dget_isSome_iff_mem_keys l k).mpr hx) h

theorem nodupKeys_foldl_dset (l : List α) (key : α → String) (val : α → β)
    (acc : List (String × β)) (hnd : (acc.map (·.1)).Nodup) :
    (((l.foldl (fun a x => dset a (key x) (val x)) acc)).map (·.1)).Nodup := by
  induction l generalizing acc with
  | nil => simpa
  | cons x rest ih =>
    exact ih _ (nodupKeys_dset _ _ _ hnd)

theorem nodupKeys_dictOf (l : List α) (key : α → String) (val : α → β) :
    ((dictOf l key val).map (·.1)).Nodup :=
  nodupKeys_foldl_dset l key val [] (by simp)

/-- With nodup source keys, a dict comprehension is just the list of pairs. -/
theorem dictOf_eq_map (l : List α) (key : α → String) (val : α → β)
    (hnd : (l.map key).Nodup) :
    dictOf l key val = l.map (fun a => (key a, val a)) := by
  suffices h : ∀ acc : List (String × β), (∀ a ∈ l, dget acc (key a) = none) →
      l.foldl (fun a x => dset a (key x) (val x)) acc =
        acc ++ l.map (fun a => (key a, val a)) by
    simpa [dictOf] using h [] (by simp [dget_nil])
  induction l with
  | nil => simp
  | cons x rest ih =>
    intro acc hacc
    simp only [List.foldl_cons, List.map_cons]
    have hx : dget acc (key x) = none := hacc x (by simp)
    have hset : dset acc (key x) (val x) = acc ++ [(key x, val x)] := by
      unfold dset; rw [if_neg (by simp [hx])]
    rw [hset]
    have hnd' : (rest.map key).Nodup := by
      simp only [List.map_cons, List.nodup_cons] at hnd; exact hnd.2
    have hxni : key x ∉ rest.map key := by
      simp only [List.map_cons, List.nodup_cons] at hnd; exact hnd.1
    rw [ih hnd' _ ?_]
    · simp
    · intro a ha
      rw [dget_append]
      have h1 : dget acc (key a) = none := hacc a (by simp [ha])
      have h2 : dget [(key x, val x)] (key a) = none := by
        rw [dget_cons]
        have : ¬(key x == key a) := by
          intro hc
          exact hxni ((beq_iff_eq.mp hc) ▸ List.mem_map.mpr ⟨a, ha, rfl⟩)
        simp [this, dget_nil]
      simp [h1, h2]

/-! ### Permutation preservation of the genome operators (claim C10) -/

theorem getD_set_cons_perm (t : List String) (k : Nat) (a d : String)
    (hk : k < t.length) :
    List.Perm (t.getD k d :: t.set k a) (a :: t) := by
  induction t generalizing k with
  | nil => simp at hk
  | cons x s ih =>
    cases k with
    | zero =>
      simp only [List.getD_cons_zero, List.set_cons_zero]
      exact List.Perm.swap a x s
    | succ k' =>
      have hk' : k' < s.length := by simpa using hk
      simp only [List.getD_cons_succ, List.set_cons_succ]
      exact (List.Perm.swap x _ _).trans (((ih k' hk').cons x).trans
        (List.Perm.swap a x s))

theorem mutate_swap_perm (genome : List String) (i j : Nat)
    (hi : i < genome.length) (hj : j < genome.length) :
    List.Perm (_mutate_swap genome i j) genome := by
  unfold _mutate_swap
  by_cases h : genome.length < 2
  · rw [if_pos h]
  · rw [if_neg h]
    clear h
    induction genome generalizing i j with
    | nil => simp at hi
    | cons x s ih =>
      cases i with
      | zero =>
        cases j with
        | zero => simp
        | succ j' =>
          have hj' : j' < s.length := by simpa using hj
          simp only [List.getD_cons_zero, List.getD_cons_succ,
            List.set_cons_zero, List.set_cons_succ]
          exact getD_set_cons_perm s j' x "" hj'
      | succ i' =>
        have hi' : i' < s.length := by simpa using hi
        cases j with
        | zero =>
          simp only [List.getD_cons_zero, List.getD_cons_succ,
            List.set_cons_zero, List.set_cons_succ]
          exact getD_set_cons_perm s i' x "" hi'
        | succ j' =>
          have hj' : j' < s.length := by simpa using hj
          simp only [List.getD_cons_succ, List.set_cons_succ]
          exact (ih i' j' hi' hj').cons x

theorem crossover_ox_perm (p1 p2 : List String) (d1 d2 : Nat)
    (hnd : p1.Nodup) (hp : List.Perm p2 p1) :
    List.Perm (_crossover_ox p1 p2 d1 d2) p1 := by
  unfold _crossover_ox
  by_cases h : p1.length < 2
  · rw [if_pos h]
  · rw [if_neg h]
    have hmidsub : ((p1.drop (min d1 d2)).take (max d1 d2 - min d1 d2)).Sublist p1 :=
      (List.take_sublist _ _).trans (List.drop_sublist _ _)
    set mid := (p1.drop (min d1 d2)).take (max d1 d2 - min d1 d2) with hmid
    set rest := p2.filter (fun x => !(mid.contains x)) with hrest
    have hmidnd : mid.Nodup := hmidsub.nodup hnd
    have hfilnd : (p2.filter (fun x => mid.contains x)).Nodup :=
      (hp.symm.nodup hnd).filter _
    have h2 : List.Perm (p2.filter (fun x => mid.contains x)) mid := by
      apply List.perm_of_nodup_nodup_toFinset_eq hfilnd hmidnd
      ext x
      simp only [List.mem_toFinset, List.mem_filter]
      constructor
      · rintro ⟨-, hc⟩
        simpa using hc
      · intro hx
        refine ⟨hp.mem_iff.mpr (hmidsub.subset hx), ?_⟩
        simpa using hx
    have h3 : List.Perm (mid ++ rest) p2 := by
      have hsplit := List.filter_append_perm (fun x => mid.contains x) p2
      exact (h2.symm.append_right rest).trans hsplit
    have h1 : List.Perm (rest.take (min d1 d2) ++ mid ++ rest.drop (min d1 d2))
        (mid ++ rest) := by
      have e1 : (mid ++ rest.take (min d1 d2)) ++ rest.drop (min d1 d2) =
          mid ++ rest := by
        rw [List.append_assoc, List.take_append_drop]
      have hp1 : List.Perm ((rest.take (min d1 d2) ++ mid) ++ rest.drop (min d1 d2))
          ((mid ++ rest.take (min d1 d2)) ++ rest.drop (min d1 d2)) :=
        (List.perm_append_comm).append_right _
      rw [e1] at hp1
      exact hp1
    exact h1.trans (h3.trans hp)

/-- Every genome of the seed population is a shuffle output. -/
theorem initPopulation_mem (G : RandGen γ) (components : List ProductComponent) :
    ∀ (n : Nat) (s : γ) (g : List String),
      g ∈ (initPopulation G components n s).1 →
      ∃ s', g = (G.shuffle (components.map (·.id)) s').1 := by
  intro n
  induction n with
  | zero => intro s g hg; simp [initPopulation] at hg
  | succ n ih =>
    intro s g hg
    simp only [initPopulation] at hg
    rcases List.mem_cons.mp hg with h1 | h2
    · exact ⟨s, h1⟩
    · exact ih _ g h2

/-- The tournament fill only adds genomes drawn from `scored`. -/
theorem tournamentFill_mem (G : RandGen γ) (scored : List (ℚ × List String))
    (ps : Nat) (hG : G.WellBehaved) (h2 : 2 ≤ ps) (hlen : ps ≤ scored.length) :
    ∀ (k : Nat) (pool : List (List String)) (s : γ) (x : List String),
      x ∈ (tournamentFill G scored ps k pool s).1 →
      x ∈ pool ∨ ∃ pr ∈ scored, x = pr.2 := by
  intro k
  induction k with
  | zero => intro pool s x hx; exact Or.inl hx
  | succ k ih =>
    intro pool s x hx
    rw [tournamentFill] at hx
    by_cases hfull : pool.length < ps
    · rw [if_pos hfull] at hx
      rcases ih _ _ x hx with hmem | hsc
      · rcases List.mem_append.mp hmem with hp | hnew
        · exact Or.inl hp
        · right
          rw [List.mem_singleton] at hnew
          obtain ⟨hi, hj, -⟩ := hG.1 ps s h2
          have hi' : (G.sample2 ps s).1.1 < scored.length := lt_of_lt_of_le hi hlen
          have hj' : (G.sample2 ps s).1.2 < scored.length := lt_of_lt_of_le hj hlen
          by_cases hcmp : (scored.getD (G.sample2 ps s).1.2 (0, [])).1 <
              (scored.getD (G.sample2 ps s).1.1 (0, [])).1
          · rw [if_pos hcmp] at hnew
            refine ⟨scored.getD (G.sample2 ps s).1.1 (0, []), ?_, hnew⟩
            rw [List.getD_eq_getElem scored (0, []) hi']
            exact List.getElem_mem hi'
          · rw [if_neg hcmp] at hnew
            refine ⟨scored.getD (G.sample2 ps s).1.2 (0, []), ?_, hnew⟩
            rw [List.getD_eq_getElem scored (0, []) hj']
            exact List.getElem_mem hj'
      · exact Or.inr hsc
    · rw [if_neg hfull] at hx
      exact Or.inl hx

/-- Randomised OX crossover preserves being a permutation of `ids`. -/
theorem crossoverOxR_perm (G : RandGen γ) (ids p1 p2 : List String) (s : γ)
    (hnd : ids.Nodup) (h1 : List.Perm p1 ids) (h2 : List.Perm p2 ids) :
    List.Perm (crossoverOxR G p1 p2 s).1 ids := by
  unfold crossoverOxR
  by_cases h : p1.length < 2
  · rw [if_pos h]; exact h1
  · rw [if_neg h]
    have hp1nd : p1.Nodup := h1.symm.nodup hnd
    have hp : List.Perm p2 p1 := h2.trans h1.symm
    exact (crossover_ox_perm p1 p2 _ _ hp1nd hp).trans h1

/-- Randomised swap mutation preserves being a permutation of `ids`. -/
theorem mutateSwapR_perm (G : RandGen γ) (ids c : List String) (s : γ)
    (hG : G.WellBehaved) (hc : List.Perm c ids) :
    List.Perm (mutateSwapR G c s).1 ids := by
  unfold mutateSwapR
  by_cases h : c.length < 2
  · rw [if_pos h]; exact hc
  · rw [if_neg h]
    obtain ⟨hi, hj, -⟩ := hG.1 c.length s (by omega)
    exact (mutate_swap_perm c _ _ hi hj).trans hc

/-- The crossover pass preserves being a permutation of `ids`. -/
theorem breedPairs_perm (G : RandGen γ) (ids : List String) (hnd : ids.Nodup) :
    ∀ (n : Nat) (pool : List (List String)) (s : γ), pool.length ≤ n →
      (∀ p ∈ pool, List.Perm p ids) →
      ∀ x ∈ (breedPairs G pool s).1, List.Perm x ids := by
  intro n
  induction n with
  | zero =>
    intro pool s hle hall x hx
    have : pool = [] := List.length_eq_zero.mp (Nat.le_zero.mp hle)
    subst this
    simp [breedPairs] at hx
  | succ n ih =>
    intro pool s hle hall x hx
    match pool, hx with
    | [], hx => simp [breedPairs] at hx
    | [p], hx =>
      simp only [breedPairs, List.mem_singleton] at hx
      exact hx ▸ hall p (by simp)
    | p1 :: p2 :: rest, hx =>
      simp only [breedPairs] at hx
      rcases List.mem_cons.mp hx with hx1 | hx'
      · exact hx1 ▸ crossoverOxR_perm G ids p1 p2 s hnd
          (hall p1 (by simp)) (hall p2 (by simp))
      · rcases List.mem_cons.mp hx' with hx2 | hx''
        · exact hx2 ▸ crossoverOxR_perm G ids p2 p1 _ hnd
            (hall p2 (by simp)) (hall p1 (by simp))
        · refine ih rest _ ?_ ?_ x hx''
          · simp only [List.length_cons] at hle; omega
          · intro p hp; exact hall p (by simp [hp])

/-- The mutation pass preserves being a permutation of `ids`. -/
theorem mutateAll_perm (G : RandGen γ) (ids : List String) (mr : ℚ)
    (hG : G.WellBehaved) :
    ∀ (cs : List (List String)) (s : γ),
      (∀ c ∈ cs, List.Perm c ids) →
      ∀ x ∈ (mutateAll G mr cs s).1, List.Perm x ids := by
  intro cs
  induction cs with
  | nil => intro s hall x hx; simp [mutateAll] at hx
  | cons c rest ih =>
    intro s hall x hx
    simp only [mutateAll] at hx
    rcases List.mem_cons.mp hx with hx1 | hx2
    · subst hx1
      by_cases hcoin : (G.randQ s).1 < mr
      · simp only [if_pos hcoin]
        exact mutateSwapR_perm G ids c _ hG (hall c (by simp))
      · simp only [if_neg hcoin]
        exact hall c (by simp)
    · exact ih _ (fun p hp => hall p (by simp [hp])) x hx2

/-- `GUnit` is a well-behaved random source. -/
theorem GUnit_wellBehaved : GUnit.WellBehaved := by
  constructor
  · intro n g h2
    refine ⟨?_, ?_, ?_⟩
    · show (0 : Nat) < n
      omega
    · show (1 : Nat) < n
      omega
    · show (0 : Nat) ≠ 1
      omega
  · intro l g
    exact List.Perm.refl l

/-- One generation step preserves being a permutation of `ids`. -/
theorem nextPopulation_perm (G : RandGen γ) (scored : List (ℚ × List String))
    (ps : Nat) (mr : ℚ) (s : γ) (ids : List String)
    (hG : G.WellBehaved) (h2 : 2 ≤ ps) (hlen : ps ≤ scored.length)
    (hnd : ids.Nodup) (hall : ∀ pr ∈ scored, List.Perm pr.2 ids) :
    ∀ x ∈ (nextPopulation G scored ps mr s).1, List.Perm x ids := by
  intro x hx
  have hx1 : x ∈ (mutateAll G mr
      (breedPairs G (parentPool G scored ps s).1 (parentPool G scored ps s).2).1
      (breedPairs G (parentPool G scored ps s).1 (parentPool G scored ps s).2).2).1 :=
    List.mem_of_mem_take hx
  refine mutateAll_perm G ids mr hG _ _ ?_ x hx1
  intro c hc
  refine breedPairs_perm G ids hnd (parentPool G scored ps s).1.length
    (parentPool G scored ps s).1 _ le_rfl ?_ c hc
  intro p hp
  rw [parentPool] at hp
  rcases tournamentFill_mem G scored ps hG h2 hlen _ _ _ p hp with hel | ⟨pr, hpr, hpe⟩
  · obtain ⟨pr, hpr, hpe⟩ := List.mem_map.mp hel
    exact hpe ▸ hall pr (List.mem_of_mem_take hpr)
  · exact hpe ▸ hall pr hpr

/-- C10 — permutation preservation: an order-crossover child of two
permutations of the same id set is again such a permutation;
`_mutate_swap` keeps the multiset of ids; consequently (given a
well-behaved random source and distinct ids) every genome of the seed
population and of every generation step is a permutation of the
component ids. -/
theorem C10_permutation_preservation :
    (∀ (p1 p2 : List String) (d1 d2 : Nat), p1.Nodup → List.Perm p2 p1 →
      List.Perm (_crossover_ox p1 p2 d1 d2) p1) ∧
    (∀ (genome : List String) (i j : Nat), i < genome.length →
      j < genome.length → List.Perm (_mutate_swap genome i j) genome) ∧
    (∀ (γ : Type) (G : RandGen γ) (components : List ProductComponent)
      (n : Nat) (s : γ), G.WellBehaved →
      ∀ gnm ∈ (initPopulation G components n s).1,
        List.Perm gnm (components.map (·.id))) ∧
    (∀ (γ : Type) (G : RandGen γ) (scored : List (ℚ × List String))
      (pop_size : Nat) (mutation_rate : ℚ) (s : γ) (ids : List String),
      G.WellBehaved → 2 ≤ pop_size → pop_size ≤ scored.length → ids.Nodup →
      (∀ pr ∈ scored, List.Perm (Prod.snd pr) ids) →
      ∀ gnm ∈ (nextPopulation G scored pop_size mutation_rate s).1,
        List.Perm gnm ids) := by
  refine ⟨crossover_ox_perm, mutate_swap_perm, ?_, ?_⟩
  · intro γ G components n s hG gnm hg
    obtain ⟨s', hs'⟩ := initPopulation_mem G components n s gnm hg
    exact hs' ▸ hG.2 (components.map (·.id)) s'
  · intro γ G scored pop_size mutation_rate s ids hG h2 hlen hnd hall
    exact nextPopulation_perm G scored pop_size mutation_rate s ids hG h2 hlen hnd hall

/-- Witness for C10 at concrete inputs. -/
theorem C10_permutation_preservation_witness :
    (["a", "b"] : List String).Nodup ∧
    List.Perm ["b", "a"] ["a", "b"] ∧
    (0 : Nat) < 2 ∧ (1 : Nat) < 2 ∧
    List.Perm (_crossover_ox ["a", "b"] ["b", "a"] 0 1) ["a", "b"] ∧
    List.Perm (_mutate_swap ["a", "b"] 0 1) ["a", "b"] ∧
    List.Perm ((nextPopulation GUnit [(1, ["a", "b"]), (0, ["b", "a"])] 2 0 ()).1.headD [])
      ["a", "b"] := by
  refine ⟨by decide, by decide, by decide, by decide, ?_, ?_, ?_⟩
  · exact C10_permutation_preservation.1 ["a", "b"] ["b", "a"] 0 1
      (by decide) (by decide)
  · exact C10_permutation_preservation.2.1 ["a", "b"] 0 1 (by decide) (by decide)
  · exact C10_permutation_preservation.2.2.2 Unit GUnit
      [(1, ["a", "b"]), (0, ["b", "a"])] 2 0 () ["a", "b"] GUnit_wellBehaved
      (by decide) (by decide) (by decide) (by decide) _ (by decide)

/-! ### Claim C7: the scanned candidate order -/

/-- Values of a dict comprehension come from the source list. -/
theorem dget_dictOf_mem (l : List α) (key : α → String) (val : α → β)
    (k : String) (v : β) (h : dget (dictOf l key val) k = some v) :
    ∃ a ∈ l, key a = k ∧ val a = v := by
  suffices hgen : ∀ acc : List (String × β),
      dget (l.foldl (fun a x => dset a (key x) (val x)) acc) k = some v →
      (∃ a ∈ l, key a = k ∧ val a = v) ∨ dget acc k = some v by
    rcases hgen [] h with hh | hh
    · exact hh
    · simp [dget_nil] at hh
  clear h
  induction l with
  | nil => intro acc h'; exact Or.inr h'
  | cons x rest ih =>
    intro acc h'
    rw [List.foldl_cons] at h'
    rcases ih (dset acc (key x) (val x)) h' with ⟨a, ha, hk, hv⟩ | hacc
    · exact Or.inl ⟨a, by simp [ha], hk, hv⟩
    · by_cases hkx : k = key x
      · subst hkx
        rw [dget_dset_self] at hacc
        exact Or.inl ⟨x, by simp, rfl, by simpa using hacc⟩
      · rw [dget_dset_ne _ _ _ _ hkx] at hacc
        exact Or.inr hacc

/-- Members of a successful topological sort are input components. -/
theorem topo_mem (components topo : List ProductComponent)
    (h : _topological_order components = Except.ok topo) :
    ∀ c ∈ topo, c ∈ components := by
  unfold _topological_order at h
  dsimp only [] at h
  split at h
  · cases h
  · split at h
    · cases h
    · have htopo : topo = _ := (Except.ok.inj h).symm
      intro c hc
      rw [htopo] at hc
      obtain ⟨cid, -, hcid⟩ := List.mem_filterMap.mp hc
      obtain ⟨a, ha, -, hval⟩ := dget_dictOf_mem components _ _ _ _ hcid
      exact hval ▸ ha

/-- C7 counterexample: with components `p`, `c` (`c` requires `p`) and
genome `["c", "p"]`, the decoder scans `[c, p]` — the stable sort by
genome rank places `c` before its prerequisite `p`, so the scanned list
is not topologically legal. -/
theorem C7_counterexample :
    _topological_order [compP, compC] = Except.ok [compP, compC] ∧
    compOrder ["c", "p"] [compP, compC] = [compC, compP] ∧
    ¬ topoLegal (compOrder ["c", "p"] [compP, compC]) := by
  refine ⟨rfl, by decide, ?_⟩
  intro hleg
  have h10 := hleg ⟨1, by decide⟩ ⟨0, by decide⟩
  revert h10
  decide

/-- C7 amended: the candidate list is the topological order stably
re-sorted by genome rank; it is topologically legal whenever the genome
ranks themselves respect the prerequisite relation (the stable sort
preserves legality only across rank ties, not in general). -/
theorem C7_amended (genome : List String)
    (components topo : List ProductComponent)
    (htopo : _topological_order components = Except.ok topo)
    (hrank : ∀ x ∈ components, ∀ y ∈ components, y.id ∈ x.prerequisites →
      rankOf genome y.id < rankOf genome x.id) :
    topoLegal (compOrder genome topo) := by
  unfold topoLegal
  intro i j hedge
  have hperm : List.Perm (compOrder genome topo) topo :=
    List.perm_insertionSort _ topo
  have hmem : ∀ idx : Fin (compOrder genome topo).length,
      (compOrder genome topo).get idx ∈ components := by
    intro idx
    exact topo_mem components topo htopo _
      (hperm.mem_iff.mp (List.get_mem _ idx.1 idx.2))
  have hij : rankOf genome ((compOrder genome topo).get i).id <
      rankOf genome ((compOrder genome topo).get j).id :=
    hrank _ (hmem j) _ (hmem i) hedge
  rcases lt_trichotomy (i : Nat) (j : Nat) with hlt | heq | hgt
  · exact hlt
  · exfalso
    have heq' : (compOrder genome topo).get i = (compOrder genome topo).get j := by
      congr 1
      exact Fin.ext heq
    rw [heq'] at hij
    exact lt_irrefl _ hij
  · exfalso
    haveI : IsTotal ProductComponent
        (fun c1 c2 => rankOf genome c1.id ≤ rankOf genome c2.id) :=
      ⟨fun a b => le_total _ _⟩
    haveI : IsTrans ProductComponent
        (fun c1 c2 => rankOf genome c1.id ≤ rankOf genome c2.id) :=
      ⟨fun a b c h1 h2 => le_trans h1 h2⟩
    have hsorted : (compOrder genome topo).Sorted
        (fun c1 c2 => rankOf genome c1.id ≤ rankOf genome c2.id) :=
      List.sorted_insertionSort _ topo
    have := hsorted.rel_get_of_lt hgt
    omega

/-- Witness for C7 amended, with the rank-respecting genome `["p", "c"]`. -/
theorem C7_amended_witness :
    _topological_order [compP, compC] = Except.ok [compP, compC] ∧
    (∀ x ∈ [compP, compC], ∀ y ∈ [compP, compC], y.id ∈ x.prerequisites →
      rankOf ["p", "c"] y.id < rankOf ["p", "c"] x.id) ∧
    topoLegal (compOrder ["p", "c"] [compP, compC]) := by
  refine ⟨rfl, by decide, ?_⟩
  exact C7_amended ["p", "c"] [compP, compC] [compP, compC] rfl (by decide)

/-! ### Claim C8: elitism -/

/-- The tournament fill only ever appends to the pool it is given. -/
theorem tournamentFill_prefix (G : RandGen γ) (scored : List (ℚ × List String))
    (ps : Nat) :
    ∀ (k : Nat) (pool : List (List String)) (s : γ),
      ∃ rest, (tournamentFill G scored ps k pool s).1 = pool ++ rest := by
  intro k
  induction k with
  | zero => intro pool s; exact ⟨[], by simp [tournamentFill]⟩
  | succ k ih =>
    intro pool s
    rw [tournamentFill]
    by_cases hfull : pool.length < ps
    · rw [if_pos hfull]
      obtain ⟨r, hr⟩ := ih
        (pool ++ [if (scored.getD (G.sample2 ps s).1.2 (0, [])).1 <
            (scored.getD (G.sample2 ps s).1.1 (0, [])).1 then
          (scored.getD (G.sample2 ps s).1.1 (0, [])).2
        else (scored.getD (G.sample2 ps s).1.2 (0, [])).2])
        (G.sample2 ps s).2
      refine ⟨[if (scored.getD (G.sample2 ps s).1.2 (0, [])).1 <
            (scored.getD (G.sample2 ps s).1.1 (0, [])).1 then
          (scored.getD (G.sample2 ps s).1.1 (0, [])).2
        else (scored.getD (G.sample2 ps s).1.2 (0, [])).2] ++ r, ?_⟩
      rw [hr, List.append_assoc]
    · rw [if_neg hfull]
      exact ⟨[], by simp⟩

/-- C8 counterexample: with the sorted scored population
`[(10, [a,b,c]), (5, [b,c,a])]`, `pop_size = 2` (so `elite_k = 2`),
mutation rate 0 and cut draws `(1,2)` for both crossovers, the top
genome `[a,b,c]` is an elite but does not appear in the population used
for the next generation — OX crossover replaces it. -/
theorem C8_counterexample :
    (["a", "b", "c"] ∈
      ((([((10 : ℚ), ["a", "b", "c"]), ((5 : ℚ), ["b", "c", "a"])]).take
        (max 2 (2 / 5))).map (·.2))) ∧
    ["a", "b", "c"] ∉
      (nextPopulation GStream
        [((10 : ℚ), ["a", "b", "c"]), ((5 : ℚ), ["b", "c", "a"])]
        2 0 [1, 2, 1, 2]).1 := by
  constructor
  · decide
  · decide

/-- C8 amended: the top `elite_k = max(2, pop_size // 5)` genomes of the
sorted scored population are carried — verbatim and in order — into the
front of the parent pool from which the next population is bred (they
are not, in general, carried into the next population itself). -/
theorem C8_amended (γ : Type) (G : RandGen γ)
    (scored : List (ℚ × List String)) (pop_size : Nat) (s : γ) :
    ∃ rest, (parentPool G scored pop_size s).1 =
      (scored.take (max 2 (pop_size / 5))).map (·.2) ++ rest := by
  unfold parentPool
  exact tournamentFill_prefix G scored pop_size pop_size _ s

/-! ### Claim C4: the fitness formula -/

theorem producedTotalSpec_cons (t : Task) (ts : List Task) :
    producedTotalSpec (t :: ts) =
      (if t.task_type = TaskType.PRODUCE then t.produced_qty.getD 0 else 0) +
        producedTotalSpec ts := by
  unfold producedTotalSpec
  rw [List.filter_cons]
  by_cases h : t.task_type = TaskType.PRODUCE <;> simp [h]

theorem changeoverHoursSpec_cons (t : Task) (ts : List Task) :
    changeoverHoursSpec (t :: ts) =
      (if t.task_type = TaskType.CHANGE_MOLD ∨ t.task_type = TaskType.CHANGE_COLOR
        then t.used_hours else 0) + changeoverHoursSpec ts := by
  unfold changeoverHoursSpec
  rw [List.filter_cons]
  cases t.task_type <;> simp

theorem waitHoursSpec_cons (t : Task) (ts : List Task) :
    waitHoursSpec (t :: ts) =
      (if t.task_type = TaskType.WAIT then t.used_hours else 0) +
        waitHoursSpec ts := by
  unfold waitHoursSpec
  rw [List.filter_cons]
  cases t.task_type <;> simp

/-- The task scan of `_fitness_v2` computes the three spec sums and the
`first_prod_day` dict, provided every PRODUCE task carries a component id. -/
theorem fitnessScan_eq :
    ∀ (ts : List Task) (p : Int) (c w : ℚ) (f : List (String × Int)),
      (∀ t ∈ ts, t.task_type = TaskType.PRODUCE → t.component_id.isSome) →
      fitnessScan ts (p, c, w, f) =
        some (p + producedTotalSpec ts, c + changeoverHoursSpec ts,
          w + waitHoursSpec ts, scanFpd ts f) := by
  intro ts
  induction ts with
  | nil =>
    intro p c w f h
    simp [fitnessScan, producedTotalSpec, changeoverHoursSpec, waitHoursSpec,
      scanFpd]
  | cons t rest ih =>
    intro p c w f h
    have hrest : ∀ t' ∈ rest, t'.task_type = TaskType.PRODUCE →
        t'.component_id.isSome :=
      fun t' ht' => h t' (by simp [ht'])
    rw [producedTotalSpec_cons, changeoverHoursSpec_cons, waitHoursSpec_cons]
    cases htt : t.task_type with
    | PRODUCE =>
      obtain ⟨cid, hcid⟩ := Option.isSome_iff_exists.mp (h t (by simp) htt)
      rw [fitnessScan, scanFpd, htt, hcid]
      simp only []
      rw [ih _ _ _ _ hrest]
      simp only [Option.some.injEq, Prod.mk.injEq]
      refine ⟨?_, ?_, ?_, ?_⟩ <;> simp <;> ring
    | CHANGE_MOLD =>
      rw [fitnessScan, scanFpd, htt]
      simp only []
      rw [ih _ _ _ _ hrest]
      simp only [Option.some.injEq, Prod.mk.injEq]
      refine ⟨?_, ?_, ?_, ?_⟩ <;> simp <;> ring
    | CHANGE_COLOR =>
      rw [fitnessScan, scanFpd, htt]
      simp only []
      rw [ih _ _ _ _ hrest]
      simp only [Option.some.injEq, Prod.mk.injEq]
      refine ⟨?_, ?_, ?_, ?_⟩ <;> simp <;> ring
    | WAIT =>
      rw [fitnessScan, scanFpd, htt]
      simp only []
      rw [ih _ _ _ _ hrest]
      simp only [Option.some.injEq, Prod.mk.injEq]
      refine ⟨?_, ?_, ?_, ?_⟩ <;> simp <;> ring

theorem foldl_min_init (l : List Int) (x a : Int) :
    l.foldl min (min x a) = min x (l.foldl min a) := by
  induction l generalizing a with
  | nil => rfl
  | cons b bs ih =>
    simp only [List.foldl_cons]
    rw [min_assoc, ih]

theorem min?_cons_int (x : Int) (l : List Int) :
    (x :: l).min? = some (match l.min? with
      | none => x
      | some m => min x m) := by
  cases l with
  | nil => rfl
  | cons a as =>
    show some ((a :: as).foldl min x) = _
    simp only [List.foldl_cons]
    rw [foldl_min_init]
    rfl

theorem producesOf_cons (t : Task) (ts : List Task) (cid : String) :
    producesOf (t :: ts) cid =
      if t.task_type = TaskType.PRODUCE ∧ t.component_id = some cid then
        t :: producesOf ts cid
      else producesOf ts cid := by
  unfold producesOf
  rw [List.filter_cons]
  by_cases h : t.task_type = TaskType.PRODUCE ∧ t.component_id = some cid
  · rw [if_pos h, if_pos (by simp [h.1, h.2])]
  · rw [if_neg h, if_neg ?_]
    intro hc
    simp only [Bool.and_eq_true, beq_iff_eq] at hc
    exact h hc

theorem firstDaySpec_cons_produce (t : Task) (ts : List Task) (cid : String)
    (h : t.task_type = TaskType.PRODUCE ∧ t.component_id = some cid) :
    firstDaySpec (t :: ts) cid = some (match firstDaySpec ts cid with
      | none => (t.day : Int)
      | some m => min (t.day : Int) m) := by
  unfold firstDaySpec
  rw [producesOf_cons, if_pos h, List.map_cons, min?_cons_int]

theorem firstDaySpec_cons_skip (t : Task) (ts : List Task) (cid : String)
    (h : ¬(t.task_type = TaskType.PRODUCE ∧ t.component_id = some cid)) :
    firstDaySpec (t :: ts) cid = firstDaySpec ts cid := by
  unfold firstDaySpec
  rw [producesOf_cons, if_neg h]

/-- The `first_prod_day` dict holds, for every id, the minimum of the
`10^9` sentinel (or the seed dict value) and the PRODUCE days of that id. -/
theorem scanFpd_dget :
    ∀ (ts : List Task) (f : List (String × Int)) (cid : String),
      dget (scanFpd ts f) cid =
        match dget f cid, firstDaySpec ts cid with
        | none, none => none
        | some d, none => some d
        | none, some m => some (min (10 ^ 9) m)
        | some d, some m => some (min d m) := by
  intro ts
  induction ts with
  | nil =>
    intro f cid
    have h0 : scanFpd ([] : List Task) f = f := rfl
    have hfd : firstDaySpec [] cid = none := rfl
    rw [h0, hfd]
    cases dget f cid <;> rfl
  | cons t rest ih =>
    intro f cid
    by_cases hp : t.task_type = TaskType.PRODUCE ∧ t.component_id = some cid
    · obtain ⟨htt, hci⟩ := hp
      rw [firstDaySpec_cons_produce t rest cid ⟨htt, hci⟩]
      have hscan : scanFpd (t :: rest) f =
          scanFpd rest (dset f cid (min (dgetD f cid (10 ^ 9)) (t.day : Int))) := by
        rw [scanFpd, htt, hci]
      rw [hscan, ih]
      rw [dget_dset_self]
      cases hdf : dget f cid with
      | none =>
        cases hfd : firstDaySpec rest cid with
        | none => simp [dgetD, hdf]
        | some m => simp [dgetD, hdf, min_assoc]
      | some d =>
        cases hfd : firstDaySpec rest cid with
        | none => simp [dgetD, hdf]
        | some m => simp [dgetD, hdf, min_assoc]
    · rw [firstDaySpec_cons_skip t rest cid hp]
      have hscan : scanFpd (t :: rest) f = scanFpd rest f ∨
          ∃ cid', cid' ≠ cid ∧ t.component_id = some cid' ∧
            scanFpd (t :: rest) f =
              scanFpd rest (dset f cid' (min (dgetD f cid' (10 ^ 9)) (t.day : Int))) := by
        cases htt : t.task_type with
        | PRODUCE =>
          cases hci : t.component_id with
          | none => left; rw [scanFpd, htt, hci]
          | some cid' =>
            right
            refine ⟨cid', ?_, rfl, by rw [scanFpd, htt, hci]⟩
            intro hc
            exact hp ⟨htt, by rw [hci, hc]⟩
        | CHANGE_MOLD => left; rw [scanFpd, htt]
        | CHANGE_COLOR => left; rw [scanFpd, htt]
        | WAIT => left; rw [scanFpd, htt]
      rcases hscan with hs | ⟨cid', hne, -, hs⟩
      · rw [hs, ih]
      · rw [hs, ih, dget_dset_ne _ _ _ _ (fun hc => hne hc.symm)]

/-- `scanFpd` keeps the key list nodup. -/
theorem scanFpd_nodupKeys :
    ∀ (ts : List Task) (f : List (String × Int)),
      (f.map (·.1)).Nodup → ((scanFpd ts f).map (·.1)).Nodup := by
  intro ts
  induction ts with
  | nil => intro f h; exact h
  | cons t rest ih =>
    intro f h
    cases htt : t.task_type with
    | PRODUCE =>
      cases hci : t.component_id with
      | none => rw [scanFpd, htt, hci]; exact ih f h
      | some cid => rw [scanFpd, htt, hci]; exact ih _ (nodupKeys_dset _ _ _ h)
    | CHANGE_MOLD =>
      rw [scanFpd, htt]
      exact ih f h
    | CHANGE_COLOR =>
      rw [scanFpd, htt]
      exact ih f h
    | WAIT =>
      rw [scanFpd, htt]
      exact ih f h

theorem sum_map_filter_zero (l : List α) (p : α → Bool) (f : α → ℚ)
    (h : ∀ x ∈ l, p x = false → f x = 0) :
    ((l.filter p).map f).sum = (l.map f).sum := by
  induction l with
  | nil => rfl
  | cons x xs ih =>
    rw [List.filter_cons]
    have hxs : ∀ y ∈ xs, p y = false → f y = 0 := fun y hy => h y (by simp [hy])
    cases hx : p x with
    | true => simp only [if_true, List.map_cons, List.sum_cons, ih hxs]
    | false =>
      simp only [Bool.false_eq_true, if_false, List.map_cons, List.sum_cons,
        ih hxs, h x (by simp) hx, zero_add]

/-- The late-start penalty loop sums `penOf` over the dict entries when
every entry id resolves in `comps_by_id`. -/
theorem lateStartPen_eq (compsById : List (String × ProductComponent)) :
    ∀ (fpd : List (String × Int)) (acc : ℚ),
      (∀ q ∈ fpd, (dget compsById q.1).isSome) →
      lateStartPen compsById fpd acc =
        some (acc + (fpd.map (fun q => penOf compsById q.1 q.2)).sum) := by
  intro fpd
  induction fpd with
  | nil => intro acc h; simp [lateStartPen]
  | cons q rest ih =>
    intro acc h
    obtain ⟨cid, d⟩ := q
    obtain ⟨c, hc⟩ := Option.isSome_iff_exists.mp (h (cid, d) (by simp))
    rw [lateStartPen, hc]
    have hrest : ∀ q ∈ rest, (dget compsById q.1).isSome :=
      fun q hq => h q (by simp [hq])
    simp only []
    by_cases hgt : d > max (c.due_day - c.lead_time_days) 1
    · rw [if_pos hgt, ih _ hrest]
      simp only [List.map_cons, List.sum_cons, Option.some.injEq]
      have hpen : penOf compsById cid d =
          ((d - max (c.due_day - c.lead_time_days) 1 : Int) : ℚ) * 10000 := by
        unfold penOf
        rw [hc]
        simp only [if_pos hgt]
      rw [hpen]
      ring
    · rw [if_neg hgt, ih _ hrest]
      simp only [List.map_cons, List.sum_cons, Option.some.injEq]
      have hpen : penOf compsById cid d = 0 := by
        unfold penOf
        rw [hc]
        simp only [if_neg hgt]
      rw [hpen]
      ring

/-- A `firstDaySpec` value is the day of some PRODUCE task for that id. -/
theorem firstDaySpec_mem (ts : List Task) (cid : String) (m : Int)
    (h : firstDaySpec ts cid = some m) :
    ∃ t ∈ ts, t.task_type = TaskType.PRODUCE ∧ t.component_id = some cid ∧
      (t.day : Int) = m := by
  have hm := List.min?_mem (fun x y => min_choice x y) h
  obtain ⟨t, ht, hday⟩ := List.mem_map.mp hm
  have ht' := List.mem_filter.mp ht
  refine ⟨t, ht'.1, ?_, ?_, hday⟩
  · have := ht'.2
    simp only [Bool.and_eq_true, beq_iff_eq] at this
    exact this.1
  · have := ht'.2
    simp only [Bool.and_eq_true, beq_iff_eq] at this
    exact this.2

/-- The sum of `penOf` over the `first_prod_day` dict equals the
spec-side late-start penalty. -/
theorem fpdSum_eq_latePenSpec (ts : List Task)
    (components : List ProductComponent)
    (hnd : (components.map (·.id)).Nodup)
    (hin : ∀ t ∈ ts, t.task_type = TaskType.PRODUCE → ∀ cid,
      t.component_id = some cid → cid ∈ components.map (·.id))
    (hday : ∀ t ∈ ts, t.task_type = TaskType.PRODUCE → (t.day : Int) ≤ 10 ^ 9) :
    (((scanFpd ts []).map (fun q =>
      penOf (dictOf components (fun c => c.id) (fun c => c)) q.1 q.2)).sum) =
      lateStartPenSpec ts components := by
  set B := dictOf components (fun c => c.id) (fun c => c) with hB
  have hBmap : B = components.map (fun c => (c.id, c)) := by
    rw [hB]
    exact dictOf_eq_map components _ _ hnd
  have hBkeys : (B.map (·.1)).Nodup := by
    rw [hBmap, List.map_map]
    simpa using hnd
  have hBget : ∀ c ∈ components, dget B c.id = some c := by
    intro c hc
    exact dget_of_mem_nodup _ _ _ hBkeys
      (by rw [hBmap]; exact List.mem_map.mpr ⟨c, hc, rfl⟩)
  have hm_le : ∀ cid m, firstDaySpec ts cid = some m → m ≤ 10 ^ 9 := by
    intro cid m hm
    obtain ⟨t, ht, htt, -, hd⟩ := firstDaySpec_mem ts cid m hm
    exact hd ▸ hday t ht htt
  have hA_nodup : ((scanFpd ts []).map (·.1)).Nodup :=
    scanFpd_nodupKeys ts [] (by simp)
  have hAval : ∀ q ∈ scanFpd ts [], firstDaySpec ts q.1 = some q.2 := by
    intro q hq
    have hdg : dget (scanFpd ts []) q.1 = some q.2 := by
      apply dget_of_mem_nodup _ _ _ hA_nodup
      cases q
      exact hq
    rw [scanFpd_dget ts [] q.1, dget_nil] at hdg
    cases hfd : firstDaySpec ts q.1 with
    | none => rw [hfd] at hdg; cases hdg
    | some m =>
      rw [hfd] at hdg
      have hq2 : min (10 ^ 9) m = q.2 := by
        simpa using hdg
      have : min ((10 : Int) ^ 9) m = m := min_eq_right (hm_le _ _ hfd)
      rw [this] at hq2
      exact congrArg some hq2
  have hkeysA_iff : ∀ cid, cid ∈ (scanFpd ts []).map (·.1) ↔
      (firstDaySpec ts cid).isSome := by
    intro cid
    rw [← dget_isSome_iff_mem_keys, scanFpd_dget ts [] cid, dget_nil]
    cases firstDaySpec ts cid <;> simp
  have hkeysA_sub : ∀ cid ∈ (scanFpd ts []).map (·.1),
      cid ∈ components.map (·.id) := by
    intro cid hcid
    obtain ⟨m, hm⟩ := Option.isSome_iff_exists.mp ((hkeysA_iff cid).mp hcid)
    obtain ⟨t, ht, htt, hci, -⟩ := firstDaySpec_mem ts cid m hm
    exact hin t ht htt cid hci
  -- keysB
  have hBfilter_nodup :
      ((components.filter (fun c => (firstDaySpec ts c.id).isSome)).map (·.id)).Nodup := by
    apply List.Sublist.nodup _ hnd
    exact List.Sublist.map _ (List.filter_sublist components)
  have hperm : List.Perm ((scanFpd ts []).map (·.1))
      ((components.filter (fun c => (firstDaySpec ts c.id).isSome)).map (·.id)) := by
    apply List.perm_of_nodup_nodup_toFinset_eq hA_nodup hBfilter_nodup
    ext cid
    simp only [List.mem_toFinset]
    rw [hkeysA_iff cid]
    constructor
    · intro hsome
      have hcid : cid ∈ components.map (·.id) := by
        apply hkeysA_sub
        rw [hkeysA_iff cid]
        exact hsome
      obtain ⟨c, hc, hceq⟩ := List.mem_map.mp hcid
      refine List.mem_map.mpr ⟨c, List.mem_filter.mpr ⟨hc, ?_⟩, hceq⟩
      rw [hceq]
      simpa using hsome
    · intro hmem
      obtain ⟨c, hc, hceq⟩ := List.mem_map.mp hmem
      have := (List.mem_filter.mp hc).2
      rw [← hceq]
      simpa using this
  -- pointwise equality of the two summands
  have hpoint : ∀ c ∈ components, ∀ m, firstDaySpec ts c.id = some m →
      penOf B c.id m =
        ((max 0 (m - max 1 (c.due_day - c.lead_time_days)) : Int) : ℚ) * 10000 := by
    intro c hc m hm
    unfold penOf
    rw [hBget c hc]
    simp only []
    rw [max_comm (c.due_day - c.lead_time_days) 1]
    by_cases hgt : m > max 1 (c.due_day - c.lead_time_days)
    · rw [if_pos hgt]
      have : max 0 (m - max 1 (c.due_day - c.lead_time_days)) =
          m - max 1 (c.due_day - c.lead_time_days) := by omega
      rw [this]
    · rw [if_neg hgt]
      have : max 0 (m - max 1 (c.due_day - c.lead_time_days)) = 0 := by omega
      rw [this]
      simp
  -- assemble
  have hstep1 : ((scanFpd ts []).map (fun q => penOf B q.1 q.2)) =
      ((scanFpd ts []).map (·.1)).map
        (fun cid => match firstDaySpec ts cid with
          | none => (0 : ℚ)
          | some m => penOf B cid m) := by
    rw [List.map_map]
    apply List.map_congr_left
    intro q hq
    have := hAval q hq
    simp only [Function.comp_apply, this]
  rw [hstep1]
  rw [List.Perm.sum_eq (hperm.map _)]
  unfold lateStartPenSpec
  have hzero : ∀ c ∈ components,
      (fun c => (firstDaySpec ts c.id).isSome) c = false →
      (fun c => match firstDaySpec ts c.id with
        | none => (0 : ℚ)
        | some d =>
          ((max 0 (d - max 1 (c.due_day - c.lead_time_days)) : Int) : ℚ) * 10000) c
        = 0 := by
    intro c hc hfalse
    simp only at hfalse ⊢
    cases hfd : firstDaySpec ts c.id with
    | none => rfl
    | some d =>
      rw [hfd] at hfalse
      simp at hfalse
  rw [← sum_map_filter_zero components _ _ hzero]
  rw [List.map_map]
  apply congrArg List.sum
  apply List.map_congr_left
  intro c hc
  have hcmem := (List.mem_filter.mp hc).1
  have hcSome := (List.mem_filter.mp hc).2
  obtain ⟨m, hm⟩ := Option.isSome_iff_exists.mp (by simpa using hcSome)
  simp only [Function.comp_apply, hm]
  exact hpoint c hcmem m hm

/-- C4 counterexample: the fitness formula claim quantifies over every
task list, but on a PRODUCE task whose component id is absent from the
component list the code raises `KeyError` (modelled as `none`) instead of
returning the formula value. -/
theorem C4_counterexample :
    _fitness_v2 [taskBad] [] [] ≠ some (fitnessSpec [taskBad] [] []) := by
  decide

/-- C4 amended: the fitness value equals the specification formula for
every task list in which each PRODUCE task names a component of the
(duplicate-free) component list and no PRODUCE day exceeds the code's
`10^9` sentinel. -/
theorem C4_amended (tasks : List Task) (unmet : List (String × Int))
    (components : List ProductComponent)
    (hcid : ∀ t ∈ tasks, t.task_type = TaskType.PRODUCE →
      ∃ cid, t.component_id = some cid ∧ cid ∈ components.map (·.id))
    (hnd : (components.map (·.id)).Nodup)
    (hday : ∀ t ∈ tasks, t.task_type = TaskType.PRODUCE →
      (t.day : Int) ≤ 10 ^ 9) :
    _fitness_v2 tasks unmet components =
      some (fitnessSpec tasks unmet components) := by
  have hIsSome : ∀ t ∈ tasks, t.task_type = TaskType.PRODUCE →
      t.component_id.isSome := by
    intro t ht htp
    obtain ⟨cid, hc, -⟩ := hcid t ht htp
    simp [hc]
  have hin : ∀ t ∈ tasks, t.task_type = TaskType.PRODUCE → ∀ cid,
      t.component_id = some cid → cid ∈ components.map (·.id) := by
    intro t ht htp cid hc
    obtain ⟨cid', hc', hmem⟩ := hcid t ht htp
    rw [hc] at hc'
    exact (Option.some.inj hc') ▸ hmem
  have hins : ∀ q ∈ scanFpd tasks [],
      (dget (dictOf components (fun c => c.id) (fun c => c)) q.1).isSome := by
    intro q hq
    have hA_nodup : ((scanFpd tasks []).map (·.1)).Nodup :=
      scanFpd_nodupKeys tasks [] (by simp)
    have hdg : dget (scanFpd tasks []) q.1 = some q.2 := by
      apply dget_of_mem_nodup _ _ _ hA_nodup
      cases q
      exact hq
    rw [scanFpd_dget tasks [] q.1, dget_nil] at hdg
    cases hfd : firstDaySpec tasks q.1 with
    | none => rw [hfd] at hdg; cases hdg
    | some m =>
      obtain ⟨t, ht, htt, hci, -⟩ := firstDaySpec_mem tasks q.1 m hfd
      have hmem : q.1 ∈ components.map (·.id) := hin t ht htt q.1 hci
      rw [dget_isSome_iff_mem_keys]
      obtain ⟨c, hc, hceq⟩ := List.mem_map.mp hmem
      have hBmap : dictOf components (fun c => c.id) (fun c => c) =
          components.map (fun c => (c.id, c)) := dictOf_eq_map components _ _ hnd
      rw [hBmap, List.map_map]
      exact List.mem_map.mpr ⟨c, hc, hceq⟩
  have hscan := fitnessScan_eq tasks 0 0 0 [] hIsSome
  have hlate := lateStartPen_eq (dictOf components (fun c => c.id) (fun c => c))
    (scanFpd tasks []) 0 hins
  unfold _fitness_v2
  dsimp only []
  rw [hscan]
  dsimp only []
  rw [hlate]
  dsimp only []
  rw [fpdSum_eq_latePenSpec tasks components hnd hin hday]
  unfold fitnessSpec
  rw [Option.some.injEq]
  ring

/-- Witness for C4 amended at concrete inputs. -/
theorem C4_amended_witness :
    (∀ t ∈ [taskP], t.task_type = TaskType.PRODUCE →
      ∃ cid, t.component_id = some cid ∧ cid ∈ [compP].map (·.id)) ∧
    ([compP].map (·.id)).Nodup ∧
    (∀ t ∈ [taskP], t.task_type = TaskType.PRODUCE →
      (t.day : Int) ≤ 10 ^ 9) ∧
    _fitness_v2 [taskP] [("x", 2)] [compP] =
      some (fitnessSpec [taskP] [("x", 2)] [compP]) := by
  refine ⟨by decide, by decide, by decide, ?_⟩
  exact C4_amended [taskP] [("x", 2)] [compP] (by decide) (by decide) (by decide)

/-! ### Helper lemmas for the decoder invariant -/

theorem pairwise_append_one {R : Task → Task → Prop} (l : List Task) (t : Task)
    (hl : l.Pairwise R) (ht : ∀ x ∈ l, R x t) : (l ++ [t]).Pairwise R := by
  rw [List.pairwise_append]
  exact ⟨hl, List.pairwise_singleton R t, fun x hx y hy =>
    (List.mem_singleton.mp hy) ▸ ht x hx⟩

theorem overlaps_comm (a b c d : ℚ) : _overlaps a b c d = _overlaps c d a b := by
  unfold _overlaps
  rw [Bool.or_comm]

theorem interval_is_free_iff (ivs : List (ℚ × ℚ)) (s e : ℚ) :
    _interval_is_free ivs s e = true ↔
      ∀ p ∈ ivs, _overlaps p.1 p.2 s e = false := by
  unfold _interval_is_free
  rw [List.all_eq_true]
  constructor
  · intro h p hp
    have := h p hp
    simpa using this
  · intro h p hp
    simpa using h p hp

theorem pairwiseIvFree_append (ivs : List (ℚ × ℚ)) (s e : ℚ)
    (h : pairwiseIvFree ivs) (hfree : _interval_is_free ivs s e = true) :
    pairwiseIvFree (ivs ++ [(s, e)]) := by
  unfold pairwiseIvFree at h ⊢
  rw [List.pairwise_append]
  refine ⟨h, List.pairwise_singleton _ _, fun x hx y hy => ?_⟩
  rw [List.mem_singleton] at hy
  subst hy
  exact (interval_is_free_iff ivs s e).mp hfree x hx

theorem producesOf_append (ts1 ts2 : List Task) (cid : String) :
    producesOf (ts1 ++ ts2) cid = producesOf ts1 cid ++ producesOf ts2 cid := by
  unfold producesOf
  exact List.filter_append _ _

theorem producedSum_append (ts1 ts2 : List Task) (cid : String) :
    producedSum (ts1 ++ ts2) cid = producedSum ts1 cid + producedSum ts2 cid := by
  unfold producedSum
  rw [producesOf_append, List.map_append, List.sum_append]

theorem producedSum_single_produce (t : Task) (cid : String)
    (htt : t.task_type = TaskType.PRODUCE) (hci : t.component_id = some cid) :
    producedSum [t] cid = t.produced_qty.getD 0 := by
  unfold producedSum producesOf
  rw [List.filter_cons]
  rw [if_pos (by simp [htt, hci])]
  simp [List.filter_nil]

theorem producedSum_single_skip (t : Task) (cid : String)
    (h : ¬(t.task_type = TaskType.PRODUCE ∧ t.component_id = some cid)) :
    producedSum [t] cid = 0 := by
  unfold producedSum producesOf
  rw [List.filter_cons]
  rw [if_neg (by simpa [Bool.and_eq_true] using h)]
  simp [List.filter_nil]

theorem self_le_foldl_max (t : List ℚ) (h : ℚ) : h ≤ t.foldl max h := by
  induction t generalizing h with
  | nil => exact le_refl h
  | cons a as ih =>
    simp only [List.foldl_cons]
    exact le_trans (le_max_left h a) (ih (max h a))

theorem le_foldl_max (t : List ℚ) (h x : ℚ) (hx : x ∈ h :: t) :
    x ≤ t.foldl max h := by
  induction t generalizing h with
  | nil => simp at hx; simp [hx]
  | cons a as ih =>
    simp only [List.foldl_cons]
    rcases List.mem_cons.mp hx with h1 | h2
    · subst h1
      exact le_trans (le_max_left x a) (self_le_foldl_max as (max x a))
    · rcases List.mem_cons.mp h2 with h3 | h4
      · subst h3
        exact le_trans (le_max_right h x) (self_le_foldl_max as (max h x))
      · exact ih (max h a) (List.mem_cons_of_mem _ h4)

/-- What a successful `nextReadyScan` guarantees about each prerequisite. -/
theorem nextReadyScan_spec (completion : List (String × Nat × ℚ)) (day : Nat)
    (after : ℚ) :
    ∀ (prs : List String) (acc out : List ℚ),
      nextReadyScan completion day after prs acc = some out →
      (∀ x ∈ acc, x ∈ out) ∧
      (∀ x ∈ out, x ∈ acc ∨ after + EPS < x) ∧
      (∀ pr ∈ prs, ∃ d h, dget completion pr = some (d, h) ∧
        (d < day ∨ (d = day ∧ (h ≤ after + EPS ∨ h ∈ out)))) := by
  intro prs
  induction prs with
  | nil =>
    intro acc out h
    have hout : acc = out := by
      simpa [nextReadyScan] using h
    subst hout
    exact ⟨fun x hx => hx, fun x hx => Or.inl hx, by simp⟩
  | cons pr rest ih =>
    intro acc out h
    rw [nextReadyScan] at h
    cases hc : dget completion pr with
    | none => rw [hc] at h; cases h
    | some dh =>
      obtain ⟨d, hh⟩ := dh
      rw [hc] at h
      dsimp only [] at h
      by_cases hd : d > day
      · rw [if_pos hd] at h; cases h
      · rw [if_neg hd] at h
        by_cases hlate : (d == day && decide (hh > after + EPS)) = true
        · rw [if_pos hlate] at h
          obtain ⟨hacc, hnew, hrest⟩ := ih (acc ++ [hh]) out h
          simp only [Bool.and_eq_true, beq_iff_eq, decide_eq_true_eq] at hlate
          refine ⟨fun x hx => hacc x (by simp [hx]), ?_, ?_⟩
          · intro x hx
            rcases hnew x hx with hin | hgt
            · rcases List.mem_append.mp hin with h1 | h2
              · exact Or.inl h1
              · rw [List.mem_singleton] at h2
                exact Or.inr (h2 ▸ hlate.2)
            · exact Or.inr hgt
          · intro pr' hpr'
            rcases List.mem_cons.mp hpr' with h1 | h2
            · subst h1
              refine ⟨d, hh, hc, ?_⟩
              rcases Nat.lt_or_ge d day with hlt | hge
              · exact Or.inl hlt
              · exact Or.inr ⟨by omega, Or.inr (hacc hh (by simp))⟩
            · exact hrest pr' h2
        · rw [if_neg hlate] at h
          obtain ⟨hacc, hnew, hrest⟩ := ih acc out h
          refine ⟨hacc, hnew, ?_⟩
          intro pr' hpr'
          rcases List.mem_cons.mp hpr' with h1 | h2
          · subst h1
            refine ⟨d, hh, hc, ?_⟩
            rcases Nat.lt_or_ge d day with hlt | hge
            · exact Or.inl hlt
            · have hdday : d = day := by omega
              refine Or.inr ⟨hdday, Or.inl ?_⟩
              by_contra hgt
              apply hlate
              simp only [Bool.and_eq_true, beq_iff_eq, decide_eq_true_eq]
              exact ⟨hdday, by linarith [not_le.mp hgt]⟩
          · exact hrest pr' h2

/-- What a successful `_next_ready_time_due_to_prereqs` guarantees. -/
theorem nextReady_spec (comp : ProductComponent)
    (completion : List (String × Nat × ℚ)) (day : Nat) (after v : ℚ)
    (h : _next_ready_time_due_to_prereqs comp completion day after = some v) :
    after ≤ v ∧
    ∀ pr ∈ comp.prerequisites, ∃ d hh, dget completion pr = some (d, hh) ∧
      (d < day ∨ (d = day ∧ (hh ≤ after + EPS ∨ hh ≤ v))) := by
  unfold _next_ready_time_due_to_prereqs at h
  cases hs : nextReadyScan completion day after comp.prerequisites [] with
  | none => rw [hs] at h; cases h
  | some out =>
    rw [hs] at h
    obtain ⟨-, hnew, hall⟩ := nextReadyScan_spec completion day after
      comp.prerequisites [] out hs
    cases out with
    | nil =>
      have hv : v = after := by
        simpa using h.symm
      subst hv
      refine ⟨le_refl _, ?_⟩
      intro pr hpr
      obtain ⟨d, hh, hc, hcond⟩ := hall pr hpr
      refine ⟨d, hh, hc, ?_⟩
      rcases hcond with h1 | ⟨h2, h3 | h3⟩
      · exact Or.inl h1
      · exact Or.inr ⟨h2, Or.inl h3⟩
      · simp at h3
    | cons hh0 tl =>
      have hv : v = tl.foldl max hh0 := by
        simpa using h.symm
      subst hv
      have hafter : after ≤ tl.foldl max hh0 := by
        have hmem : hh0 ∈ hh0 :: tl := by simp
        rcases hnew hh0 hmem with hacc0 | hgt
        · simp at hacc0
        · have h1 := le_foldl_max tl hh0 hh0 hmem
          have hEPS : (0 : ℚ) < EPS := by norm_num [EPS]
          linarith
      refine ⟨hafter, ?_⟩
      intro pr hpr
      obtain ⟨d, hh, hc, hcond⟩ := hall pr hpr
      refine ⟨d, hh, hc, ?_⟩
      rcases hcond with h1 | ⟨h2, h3 | h3⟩
      · exact Or.inl h1
      · exact Or.inr ⟨h2, Or.inl h3⟩
      · exact Or.inr ⟨h2, Or.inr (le_foldl_max tl hh0 hh h3)⟩

/-! ### Invariant preservation through the slot-body transitions -/

theorem markDone_inv (components : List ProductComponent)
    (rem0 : List (String × Int)) (mch cch : ℚ) (st : DayState)
    (machine : Machine) (hinv : DInv components rem0 mch cch st) :
    DInv components rem0 mch cch (markDone st machine) := by
  refine {
    taskPos := by simpa [markDone] using hinv.taskPos
    dayLe := by simpa [markDone] using hinv.dayLe
    dayMono := by simpa [markDone] using hinv.dayMono
    seqMono := by simpa [markDone] using hinv.seqMono
    seqLt := by simpa [markDone] using hinv.seqLt
    busyFree := by simpa [markDone] using hinv.busyFree
    taskBusy := by simpa [markDone] using hinv.taskBusy
    moldDisj := by simpa [markDone] using hinv.moldDisj
    remKeysNodup := by simpa [markDone] using hinv.remKeysNodup
    remCons := by simpa [markDone] using hinv.remCons
    remSum := by simpa [markDone] using hinv.remSum
    remNonneg := by simpa [markDone] using hinv.remNonneg
    prodComp := by simpa [markDone] using hinv.prodComp
    prodCid := by simpa [markDone] using hinv.prodCid
    owned := by simpa [markDone] using hinv.owned
    complRem := by simpa [markDone] using hinv.complRem
    complWitness := by simpa [markDone] using hinv.complWitness
    complLast := by simpa [markDone] using hinv.complLast
    prodCursor := ?_
    prodCap := by simpa [markDone, machineCap] using hinv.prodCap }
  intro t ht hday htp
  simp only [markDone] at ht hday ⊢
  by_cases hm : t.machine_id = machine.id
  · rw [hm, dgetD_dset_self]
    have hc := hinv.prodCap t ht hday htp
    rw [hm] at hc
    exact hc
  · rw [dgetD_dset_ne st.tcur machine.id t.machine_id _ _ hm]
    exact hinv.prodCursor t ht hday htp

theorem pushWait_inv (components : List ProductComponent)
    (rem0 : List (String × Int)) (mch cch : ℚ) (st : DayState)
    (machine : Machine) (now endt : ℚ)
    (hn : now = dgetD st.tcur machine.id 0) (hlt : now < endt)
    (hinv : DInv components rem0 mch cch st) :
    DInv components rem0 mch cch (pushWait st machine now endt) := by
  have hskip : ∀ cid, producedSum [pushTask st machine now endt] cid = 0 := by
    intro cid
    refine producedSum_single_skip _ _ ?_
    rintro ⟨h1, -⟩
    simp [pushTask] at h1
  have hsum : ∀ cid, producedSum (st.tasks ++ [pushTask st machine now endt]) cid =
      producedSum st.tasks cid := by
    intro cid
    rw [producedSum_append, hskip, add_zero]
  refine {
    taskPos := ?_
    dayLe := ?_
    dayMono := ?_
    seqMono := ?_
    seqLt := ?_
    busyFree := by simpa [pushWait] using hinv.busyFree
    taskBusy := ?_
    moldDisj := ?_
    remKeysNodup := by simpa [pushWait] using hinv.remKeysNodup
    remCons := by simpa [pushWait] using hinv.remCons
    remSum := ?_
    remNonneg := ?_
    prodComp := ?_
    prodCid := by
      intro t ht htp
      simp only [pushWait, List.mem_append, List.mem_singleton] at ht
      rcases ht with ht | ht
      · exact hinv.prodCid t ht htp
      · subst ht
        simp [pushTask] at htp
    owned := ?_
    complRem := by simpa [pushWait] using hinv.complRem
    complWitness := ?_
    complLast := ?_
    prodCursor := ?_
    prodCap := ?_ }
  · intro t ht
    simp only [pushWait, List.mem_append, List.mem_singleton] at ht
    rcases ht with ht | ht
    · exact hinv.taskPos t ht
    · subst ht
      refine ⟨?_, ?_, ?_, ?_, ?_⟩
      · show (0 : ℚ) < endt - now
        linarith
      · exact hlt
      · intro h
        simp [pushTask] at h
      · intro h
        simp [pushTask] at h
      · intro h
        simp [pushTask] at h
  · intro t ht
    simp only [pushWait, List.mem_append, List.mem_singleton] at ht
    rcases ht with ht | ht
    · exact hinv.dayLe t ht
    · subst ht
      exact le_refl _
  · simp only [pushWait]
    refine pairwise_append_one _ _ hinv.dayMono ?_
    intro x hx
    exact hinv.dayLe x hx
  · simp only [pushWait]
    refine pairwise_append_one _ _ hinv.seqMono ?_
    intro x hx hd hm
    have hd' : x.day = st.day := hd
    have hm' : x.machine_id = machine.id := hm
    show x.sequence_in_day < dgetD st.seq machine.id 1
    have h1 := hinv.seqLt x hx hd'
    rw [hm'] at h1
    exact h1
  · intro t ht hday
    simp only [pushWait, List.mem_append, List.mem_singleton] at ht hday ⊢
    rcases ht with ht | ht
    · by_cases hm : t.machine_id = machine.id
      · rw [hm, dgetD_dset_self]
        have h1 := hinv.seqLt t ht hday
        rw [hm] at h1
        omega
      · rw [dgetD_dset_ne st.seq machine.id t.machine_id _ _ hm]
        exact hinv.seqLt t ht hday
    · subst ht
      show dgetD st.seq machine.id 1 < dgetD
        (dset st.seq machine.id (dgetD st.seq machine.id 1 + 1)) machine.id 1
      rw [dgetD_dset_self]
      omega
  · intro t ht hday mo hmo
    simp only [pushWait, List.mem_append, List.mem_singleton] at ht hday ⊢
    rcases ht with ht | ht
    · exact hinv.taskBusy t ht hday mo hmo
    · subst ht
      simp [taskMoldOf, pushTask] at hmo
  · simp only [pushWait]
    refine pairwise_append_one _ _ hinv.moldDisj ?_
    intro x hx mo hday h1 h2
    simp [taskMoldOf, pushTask] at h2
  · intro cid q hq
    simp only [pushWait] at hq ⊢
    rw [hsum]
    exact hinv.remSum cid q hq
  · intro cid q hq
    simp only [pushWait] at hq ⊢
    rw [hsum]
    exact hinv.remNonneg cid q hq
  · intro t ht htp cid hcid
    simp only [pushWait, List.mem_append, List.mem_singleton] at ht ⊢
    rcases ht with ht | ht
    · exact hinv.prodComp t ht htp cid hcid
    · subst ht
      simp [pushTask] at htp
  · intro t ht htp cid hcid
    simp only [pushWait, List.mem_append, List.mem_singleton] at ht ⊢
    rcases ht with ht | ht
    · exact hinv.owned t ht htp cid hcid
    · subst ht
      simp [pushTask] at htp
  · intro p d h hc
    simp only [pushWait] at hc ⊢
    obtain ⟨t, ht, h1, h2, h3, h4⟩ := hinv.complWitness p d h hc
    exact ⟨t, List.mem_append_left _ ht, h1, h2, h3, h4⟩
  · intro p d h hc t ht htp hcid
    simp only [pushWait, List.mem_append, List.mem_singleton] at hc ht
    rcases ht with ht | ht
    · exact hinv.complLast p d h hc t ht htp hcid
    · subst ht
      simp [pushTask] at htp
  · intro t ht hday htp
    simp only [pushWait, List.mem_append, List.mem_singleton] at ht hday ⊢
    rcases ht with ht | ht
    · by_cases hm : t.machine_id = machine.id
      · rw [hm, dgetD_dset_self]
        have h1 := hinv.prodCursor t ht hday htp
        rw [hm, ← hn] at h1
        linarith
      · rw [dgetD_dset_ne st.tcur machine.id t.machine_id _ _ hm]
        exact hinv.prodCursor t ht hday htp
    · subst ht
      simp [pushTask] at htp
  · intro t ht hday htp
    simp only [pushWait, List.mem_append, List.mem_singleton] at ht hday ⊢
    rcases ht with ht | ht
    · have h1 := hinv.prodCap t ht hday htp
      simpa [machineCap, pushWait] using h1
    · subst ht
      simp [pushTask] at htp

theorem dget_dset_isSome_of (l : List (String × α)) (k k' : String) (v : α)
    (h : (dget l k').isSome) : (dget (dset l k v) k').isSome := by
  by_cases hk : k' = k
  · subst hk
    rw [dget_dset_self]
    rfl
  · rwa [dget_dset_ne _ _ _ _ hk]

/-- The invariant ignores the sticky-preference dicts and the done set. -/
theorem dinv_pref (components : List ProductComponent)
    (rem0 : List (String × Int)) (mch cch : ℚ) (st : DayState)
    (cm' cc' lc' : List (String × Option String)) (dn' : List (String × Bool))
    (hinv : DInv components rem0 mch cch st) :
    DInv components rem0 mch cch
      { st with
        curMold := cm'
        curColor := cc'
        lastComp := lc'
        done := dn' } := by
  exact {
    taskPos := hinv.taskPos
    dayLe := hinv.dayLe
    dayMono := hinv.dayMono
    seqMono := hinv.seqMono
    seqLt := hinv.seqLt
    busyFree := hinv.busyFree
    taskBusy := hinv.taskBusy
    moldDisj := hinv.moldDisj
    remKeysNodup := hinv.remKeysNodup
    remCons := hinv.remCons
    remSum := hinv.remSum
    remNonneg := hinv.remNonneg
    prodComp := hinv.prodComp
    prodCid := hinv.prodCid
    owned := hinv.owned
    complRem := hinv.complRem
    complWitness := hinv.complWitness
    complLast := hinv.complLast
    prodCursor := hinv.prodCursor
    prodCap := hinv.prodCap }

theorem reserveMold_inv (components : List ProductComponent)
    (rem0 : List (String × Int)) (mch cch : ℚ) (st : DayState)
    (cm : String) (s e : ℚ)
    (hfree : _interval_is_free (dgetD st.moldBusy cm []) s e = true)
    (hinv : DInv components rem0 mch cch st) :
    DInv components rem0 mch cch (reserveMold st cm s e) := by
  have hpre : pairwiseIvFree (dgetD st.moldBusy cm []) := by
    cases hdg : dget st.moldBusy cm with
    | none => simp [dgetD, hdg, pairwiseIvFree]
    | some ivs =>
      have := hinv.busyFree cm ivs hdg
      simpa [dgetD, hdg] using this
  refine {
    taskPos := hinv.taskPos
    dayLe := hinv.dayLe
    dayMono := hinv.dayMono
    seqMono := hinv.seqMono
    seqLt := hinv.seqLt
    busyFree := ?_
    taskBusy := ?_
    moldDisj := hinv.moldDisj
    remKeysNodup := hinv.remKeysNodup
    remCons := hinv.remCons
    remSum := hinv.remSum
    remNonneg := hinv.remNonneg
    prodComp := hinv.prodComp
    prodCid := hinv.prodCid
    owned := hinv.owned
    complRem := hinv.complRem
    complWitness := hinv.complWitness
    complLast := hinv.complLast
    prodCursor := hinv.prodCursor
    prodCap := hinv.prodCap }
  · intro mo ivs hmo
    simp only [reserveMold] at hmo
    by_cases hc : mo = cm
    · subst hc
      rw [dget_dset_self] at hmo
      cases hmo
      exact pairwiseIvFree_append _ _ _ hpre hfree
    · rw [dget_dset_ne _ _ _ _ hc] at hmo
      exact hinv.busyFree mo ivs hmo
  · intro t ht hday mo hmo
    simp only [reserveMold] at ht hday ⊢
    obtain ⟨ivs, hdg, hmem⟩ := hinv.taskBusy t ht hday mo hmo
    by_cases hc : mo = cm
    · rw [hc]
      refine ⟨_, dget_dset_self _ _ _, ?_⟩
      have hivs : dgetD st.moldBusy cm [] = ivs := by
        rw [← hc]
        simp [dgetD, hdg]
      rw [_reserve_interval, hivs]
      exact List.mem_append_left _ hmem
    · rw [dget_dset_ne _ _ _ _ hc]
      exact ⟨ivs, hdg, hmem⟩

theorem claimOwner_inv (components : List ProductComponent)
    (rem0 : List (String × Int)) (mch cch : ℚ) (st : DayState)
    (cid mid : String) (hinv : DInv components rem0 mch cch st) :
    DInv components rem0 mch cch (claimOwner st cid mid) := by
  by_cases h : (dget st.owner cid).isSome
  · rw [claimOwner, if_pos h]
    exact hinv
  · rw [claimOwner, if_neg h]
    have hnone : dget st.owner cid = none := Option.not_isSome_iff_eq_none.mp h
    refine {
      taskPos := hinv.taskPos
      dayLe := hinv.dayLe
      dayMono := hinv.dayMono
      seqMono := hinv.seqMono
      seqLt := hinv.seqLt
      busyFree := hinv.busyFree
      taskBusy := hinv.taskBusy
      moldDisj := hinv.moldDisj
      remKeysNodup := hinv.remKeysNodup
      remCons := hinv.remCons
      remSum := hinv.remSum
      remNonneg := hinv.remNonneg
      prodComp := hinv.prodComp
      prodCid := hinv.prodCid
      owned := ?_
      complRem := hinv.complRem
      complWitness := hinv.complWitness
      complLast := hinv.complLast
      prodCursor := hinv.prodCursor
      prodCap := hinv.prodCap }
    intro t ht htp cid2 hcid2
    have hold := hinv.owned t ht htp cid2 hcid2
    by_cases hc : cid2 = cid
    · rw [hc] at hold
      rw [hold] at hnone
      cases hnone
    · show dget (dset st.owner cid mid) cid2 = some t.machine_id
      rw [dget_dset_ne _ _ _ _ hc]
      exact hold

theorem claimOwner_owner_self (st : DayState) (cid mid : String)
    (hown : dget st.owner cid = none ∨ dget st.owner cid = some mid) :
    dget (claimOwner st cid mid).owner cid = some mid := by
  rcases hown with h | h
  · rw [claimOwner, if_neg (by simp [h])]
    exact dget_dset_self st.owner cid mid
  · rw [claimOwner, if_pos (by simp [h])]
    exact h

theorem claimOwner_tasks (st : DayState) (cid mid : String) :
    (claimOwner st cid mid).tasks = st.tasks := by
  rw [claimOwner]
  split <;> rfl

theorem claimOwner_day (st : DayState) (cid mid : String) :
    (claimOwner st cid mid).day = st.day := by
  rw [claimOwner]
  split <;> rfl

theorem claimOwner_usable (st : DayState) (cid mid : String) :
    (claimOwner st cid mid).usable = st.usable := by
  rw [claimOwner]
  split <;> rfl

theorem claimOwner_remaining (st : DayState) (cid mid : String) :
    (claimOwner st cid mid).remaining = st.remaining := by
  rw [claimOwner]
  split <;> rfl

theorem claimOwner_completion (st : DayState) (cid mid : String) :
    (claimOwner st cid mid).completion = st.completion := by
  rw [claimOwner]
  split <;> rfl

theorem claimOwner_moldBusy (st : DayState) (cid mid : String) :
    (claimOwner st cid mid).moldBusy = st.moldBusy := by
  rw [claimOwner]
  split <;> rfl

theorem claimOwner_tcur (st : DayState) (cid mid : String) :
    (claimOwner st cid mid).tcur = st.tcur := by
  rw [claimOwner]
  split <;> rfl

theorem claimOwner_seq (st : DayState) (cid mid : String) :
    (claimOwner st cid mid).seq = st.seq := by
  rw [claimOwner]
  split <;> rfl

/-- Appending a non-PRODUCE task on `machine` while advancing its clock and
sequence counter (and arbitrarily updating the preference dicts) preserves
the invariant. -/
theorem emitTask_inv (components : List ProductComponent)
    (rem0 : List (String × Int)) (mch cch : ℚ) (st : DayState)
    (machine : Machine) (tk : Task) (endt : ℚ)
    (cm' cc' lc' : List (String × Option String)) (dn' : List (String × Bool))
    (hn_le : dgetD st.tcur machine.id 0 ≤ endt)
    (htk_day : tk.day = st.day)
    (htk_mach : tk.machine_id = machine.id)
    (htk_seq : tk.sequence_in_day = dgetD st.seq machine.id 1)
    (htk_used : 0 < tk.used_hours)
    (htk_se : tk.start_hour < tk.end_hour)
    (htk_np : tk.task_type ≠ TaskType.PRODUCE)
    (htk_cm : tk.task_type = TaskType.CHANGE_MOLD → 0 < mch)
    (htk_cc : tk.task_type = TaskType.CHANGE_COLOR → 0 < cch)
    (hbusy : ∀ mo, taskMoldOf tk = some mo →
      ∃ ivs, dget st.moldBusy mo = some ivs ∧ (tk.start_hour, tk.end_hour) ∈ ivs)
    (hdisj : ∀ x ∈ st.tasks, x.day = st.day → ∀ mo, taskMoldOf x = some mo →
      taskMoldOf tk = some mo →
      _overlaps x.start_hour x.end_hour tk.start_hour tk.end_hour = false)
    (hinv : DInv components rem0 mch cch st) :
    DInv components rem0 mch cch
      { st with
        tasks := st.tasks ++ [tk]
        tcur := dset st.tcur machine.id endt
        seq := dset st.seq machine.id (dgetD st.seq machine.id 1 + 1)
        curMold := cm'
        curColor := cc'
        lastComp := lc'
        done := dn' } := by
  have hskip : ∀ cid, producedSum [tk] cid = 0 := by
    intro cid
    refine producedSum_single_skip _ _ ?_
    rintro ⟨h1, -⟩
    exact htk_np h1
  have hsum : ∀ cid, producedSum (st.tasks ++ [tk]) cid =
      producedSum st.tasks cid := by
    intro cid
    rw [producedSum_append, hskip, add_zero]
  refine {
    taskPos := ?_
    dayLe := ?_
    dayMono := ?_
    seqMono := ?_
    seqLt := ?_
    busyFree := hinv.busyFree
    taskBusy := ?_
    moldDisj := ?_
    remKeysNodup := hinv.remKeysNodup
    remCons := hinv.remCons
    remSum := ?_
    remNonneg := ?_
    prodComp := ?_
    prodCid := by
      intro t ht htp
      simp only [List.mem_append, List.mem_singleton] at ht
      rcases ht with ht | ht
      · exact hinv.prodCid t ht htp
      · subst ht
        exact absurd htp htk_np
    owned := ?_
    complRem := hinv.complRem
    complWitness := ?_
    complLast := ?_
    prodCursor := ?_
    prodCap := ?_ }
  · intro t ht
    simp only [List.mem_append, List.mem_singleton] at ht
    rcases ht with ht | ht
    · exact hinv.taskPos t ht
    · subst ht
      exact ⟨htk_used, htk_se, fun h => absurd h htk_np, fun h => htk_cm h,
        fun h => htk_cc h⟩
  · intro t ht
    simp only [List.mem_append, List.mem_singleton] at ht
    rcases ht with ht | ht
    · exact hinv.dayLe t ht
    · subst ht
      exact le_of_eq htk_day
  · refine pairwise_append_one _ _ hinv.dayMono ?_
    intro x hx
    rw [htk_day]
    exact hinv.dayLe x hx
  · refine pairwise_append_one _ _ hinv.seqMono ?_
    intro x hx hd hm
    rw [htk_day] at hd
    rw [htk_mach] at hm
    rw [htk_seq]
    have h1 := hinv.seqLt x hx hd
    rw [hm] at h1
    exact h1
  · intro t ht hday
    simp only [List.mem_append, List.mem_singleton] at ht hday ⊢
    rcases ht with ht | ht
    · by_cases hm : t.machine_id = machine.id
      · rw [hm, dgetD_dset_self]
        have h1 := hinv.seqLt t ht hday
        rw [hm] at h1
        omega
      · rw [dgetD_dset_ne st.seq machine.id t.machine_id _ _ hm]
        exact hinv.seqLt t ht hday
    · subst ht
      rw [htk_mach, dgetD_dset_self, htk_seq]
      omega
  · intro t ht hday mo hmo
    simp only [List.mem_append, List.mem_singleton] at ht hday ⊢
    rcases ht with ht | ht
    · exact hinv.taskBusy t ht hday mo hmo
    · subst ht
      exact hbusy mo hmo
  · refine pairwise_append_one _ _ hinv.moldDisj ?_
    intro x hx mo hday h1 h2
    exact hdisj x hx (hday.trans htk_day) mo h1 h2
  · intro cid q hq
    rw [hsum]
    exact hinv.remSum cid q hq
  · intro cid q hq
    rw [hsum]
    exact hinv.remNonneg cid q hq
  · intro t ht htp cid hcid
    simp only [List.mem_append, List.mem_singleton] at ht
    rcases ht with ht | ht
    · exact hinv.prodComp t ht htp cid hcid
    · subst ht
      exact absurd htp htk_np
  · intro t ht htp cid hcid
    simp only [List.mem_append, List.mem_singleton] at ht
    rcases ht with ht | ht
    · exact hinv.owned t ht htp cid hcid
    · subst ht
      exact absurd htp htk_np
  · intro p d h hc
    obtain ⟨t, ht, h1, h2, h3, h4⟩ := hinv.complWitness p d h hc
    exact ⟨t, List.mem_append_left _ ht, h1, h2, h3, h4⟩
  · intro p d h hc t ht htp hcid
    simp only [List.mem_append, List.mem_singleton] at ht
    rcases ht with ht | ht
    · exact hinv.complLast p d h hc t ht htp hcid
    · subst ht
      exact absurd htp htk_np
  · intro t ht hday htp
    simp only [List.mem_append, List.mem_singleton] at ht hday ⊢
    rcases ht with ht | ht
    · by_cases hm : t.machine_id = machine.id
      · rw [hm, dgetD_dset_self]
        have h1 := hinv.prodCursor t ht hday htp
        rw [hm] at h1
        exact le_trans h1 hn_le
      · rw [dgetD_dset_ne st.tcur machine.id t.machine_id _ _ hm]
        exact hinv.prodCursor t ht hday htp
    · subst ht
      exact absurd htp htk_np
  · intro t ht hday htp
    simp only [List.mem_append, List.mem_singleton] at ht hday ⊢
    rcases ht with ht | ht
    · exact hinv.prodCap t ht hday htp
    · subst ht
      exact absurd htp htk_np

/-- Emitting the PRODUCE task (with its reservation, ownership and prereq
facts in hand) preserves the invariant. -/
theorem emitProduce_inv (components : List ProductComponent)
    (rem0 : List (String × Int)) (mch cch : ℚ) (st : DayState)
    (machine : Machine) (comp : ProductComponent) (qty : Int) (now : ℚ)
    (r0 : Int)
    (hn : now = dgetD st.tcur machine.id 0)
    (hpph : 0 < _piece_hours comp.cycle_time_sec)
    (hq1 : 1 ≤ qty)
    (hr0 : dget st.remaining comp.id = some r0)
    (hqle : qty ≤ r0)
    (hcap : now + (qty : ℚ) * _piece_hours comp.cycle_time_sec ≤
      machineCap st machine.id)
    (hbusy : ∃ ivs, dget st.moldBusy comp.mold_id = some ivs ∧
      (now, now + (qty : ℚ) * _piece_hours comp.cycle_time_sec) ∈ ivs)
    (hown2 : dget st.owner comp.id = some machine.id)
    (hcomp : comp ∈ components)
    (hprereq : ∀ pr ∈ comp.prerequisites, ∃ d h,
      dget st.completion pr = some (d, h) ∧
      (d < st.day ∨ (d = st.day ∧ h ≤ now + EPS)))
    (hdisj : ∀ x ∈ st.tasks, x.day = st.day →
      taskMoldOf x = some comp.mold_id →
      _overlaps x.start_hour x.end_hour now
        (now + (qty : ℚ) * _piece_hours comp.cycle_time_sec) = false)
    (hinv : DInv components rem0 mch cch st) :
    DInv components rem0 mch cch (emitProduce machine comp qty st now) := by
  have hq1Q : (1 : ℚ) ≤ (qty : ℚ) := by exact_mod_cast hq1
  have hused : 0 < (qty : ℚ) * _piece_hours comp.cycle_time_sec := by
    have := mul_le_mul_of_nonneg_right hq1Q (le_of_lt hpph)
    linarith
  have hnow_lt : now < now + (qty : ℚ) * _piece_hours comp.cycle_time_sec := by
    linarith
  have hnone : dget st.completion comp.id = none := by
    cases hcc : dget st.completion comp.id with
    | none => rfl
    | some dh =>
      obtain ⟨d, h⟩ := dh
      have := hinv.complRem comp.id d h hcc r0 hr0
      omega
  have hrem0some : (dget rem0 comp.id).isSome :=
    (hinv.remCons comp.id).mp (by simp [hr0])
  have hdg0 : dgetD st.remaining comp.id 0 = r0 := by
    simp [dgetD, hr0]
  have htkq : (produceTask machine comp qty st now).produced_qty = some qty := rfl
  have hprod_tk : producedSum [produceTask machine comp qty st now] comp.id
      = qty := by
    rw [producedSum_single_produce _ _ rfl rfl, htkq]
    rfl
  have hskip : ∀ cid, cid ≠ comp.id →
      producedSum [produceTask machine comp qty st now] cid = 0 := by
    intro cid hne
    refine producedSum_single_skip _ _ ?_
    rintro ⟨-, h2⟩
    have : comp.id = cid := by simpa [produceTask] using h2
    exact hne this.symm
  refine {
    taskPos := ?_
    dayLe := ?_
    dayMono := ?_
    seqMono := ?_
    seqLt := ?_
    busyFree := hinv.busyFree
    taskBusy := ?_
    moldDisj := ?_
    remKeysNodup := nodupKeys_dset _ _ _ hinv.remKeysNodup
    remCons := ?_
    remSum := ?_
    remNonneg := ?_
    prodComp := ?_
    prodCid := by
      intro t ht htp
      simp only [emitProduce, List.mem_append, List.mem_singleton] at ht
      rcases ht with ht | ht
      · exact hinv.prodCid t ht htp
      · subst ht
        simp [produceTask]
    owned := ?_
    complRem := ?_
    complWitness := ?_
    complLast := ?_
    prodCursor := ?_
    prodCap := ?_ }
  · intro t ht
    simp only [emitProduce, List.mem_append, List.mem_singleton] at ht
    rcases ht with ht | ht
    · exact hinv.taskPos t ht
    · subst ht
      refine ⟨hused, hnow_lt, fun _ => ⟨qty, rfl, hq1⟩, ?_, ?_⟩
      · intro h
        simp [produceTask] at h
      · intro h
        simp [produceTask] at h
  · intro t ht
    simp only [emitProduce, List.mem_append, List.mem_singleton] at ht
    rcases ht with ht | ht
    · exact hinv.dayLe t ht
    · subst ht
      exact le_refl _
  · simp only [emitProduce]
    refine pairwise_append_one _ _ hinv.dayMono ?_
    intro x hx
    exact hinv.dayLe x hx
  · simp only [emitProduce]
    refine pairwise_append_one _ _ hinv.seqMono ?_
    intro x hx hd hm
    have hd' : x.day = st.day := hd
    have hm' : x.machine_id = machine.id := hm
    show x.sequence_in_day < dgetD st.seq machine.id 1
    have h1 := hinv.seqLt x hx hd'
    rw [hm'] at h1
    exact h1
  · intro t ht hday
    simp only [emitProduce, List.mem_append, List.mem_singleton] at ht hday ⊢
    rcases ht with ht | ht
    · by_cases hm : t.machine_id = machine.id
      · rw [hm, dgetD_dset_self]
        have h1 := hinv.seqLt t ht hday
        rw [hm] at h1
        omega
      · rw [dgetD_dset_ne st.seq machine.id t.machine_id _ _ hm]
        exact hinv.seqLt t ht hday
    · subst ht
      show dgetD st.seq machine.id 1 < dgetD
        (dset st.seq machine.id (dgetD st.seq machine.id 1 + 1)) machine.id 1
      rw [dgetD_dset_self]
      omega
  · intro t ht hday mo hmo
    simp only [emitProduce, List.mem_append, List.mem_singleton] at ht hday ⊢
    rcases ht with ht | ht
    · exact hinv.taskBusy t ht hday mo hmo
    · subst ht
      have hmo' : comp.mold_id = mo := by
        simpa [taskMoldOf, produceTask] using hmo
      subst hmo'
      exact hbusy
  · simp only [emitProduce]
    refine pairwise_append_one _ _ hinv.moldDisj ?_
    intro x hx mo hday h1 h2
    have hmo' : comp.mold_id = mo := by
      simpa [taskMoldOf, produceTask] using h2
    subst hmo'
    exact hdisj x hx hday h1
  · intro cid
    simp only [emitProduce]
    by_cases hc : cid = comp.id
    · subst hc
      simp [dget_dset_self, hrem0some]
    · rw [dget_dset_ne st.remaining comp.id cid _ hc]
      exact hinv.remCons cid
  · intro cid q hq
    simp only [emitProduce] at hq ⊢
    by_cases hc : cid = comp.id
    · subst hc
      rw [dget_dset_self] at hq
      cases hq
      obtain ⟨q0, hq0, hs⟩ := hinv.remSum comp.id r0 hr0
      refine ⟨q0, hq0, ?_⟩
      rw [producedSum_append, hprod_tk, hdg0]
      omega
    · rw [dget_dset_ne st.remaining comp.id cid _ hc] at hq
      obtain ⟨q0, hq0, hs⟩ := hinv.remSum cid q hq
      refine ⟨q0, hq0, ?_⟩
      rw [producedSum_append, hskip cid hc]
      omega
  · intro cid q hq
    simp only [emitProduce] at hq ⊢
    by_cases hc : cid = comp.id
    · subst hc
      rw [dget_dset_self] at hq
      cases hq
      rw [hdg0]
      left
      omega
    · rw [dget_dset_ne st.remaining comp.id cid _ hc] at hq
      rcases hinv.remNonneg cid q hq with h | ⟨hps, hr⟩
      · exact Or.inl h
      · refine Or.inr ⟨?_, hr⟩
        rw [producedSum_append, hskip cid hc, hps]
        omega
  · intro t ht htp cid hcid
    simp only [emitProduce, List.mem_append, List.mem_singleton] at ht ⊢
    rcases ht with ht | ht
    · exact hinv.prodComp t ht htp cid hcid
    · subst ht
      have hcid' : comp.id = cid := by
        simpa [produceTask] using hcid
      subst hcid'
      refine ⟨hrem0some, comp, hcomp, rfl, ?_⟩
      intro pr hpr
      obtain ⟨d, h, hcl, hb⟩ := hprereq pr hpr
      exact ⟨d, h, hcl, hb⟩
  · intro t ht htp cid hcid
    simp only [emitProduce, List.mem_append, List.mem_singleton] at ht ⊢
    rcases ht with ht | ht
    · exact hinv.owned t ht htp cid hcid
    · subst ht
      have hcid' : comp.id = cid := by
        simpa [produceTask] using hcid
      subst hcid'
      exact hown2
  · intro p d h hcp q hq
    simp only [emitProduce] at hcp hq
    by_cases hpc : p = comp.id
    · subst hpc
      rw [hcp] at hnone
      cases hnone
    · rw [dget_dset_ne st.remaining comp.id p _ hpc] at hq
      exact hinv.complRem p d h hcp q hq
  · intro p d h hcp
    simp only [emitProduce] at hcp ⊢
    obtain ⟨t, ht, h1, h2, h3, h4⟩ := hinv.complWitness p d h hcp
    exact ⟨t, List.mem_append_left _ ht, h1, h2, h3, h4⟩
  · intro p d h hcp t ht htp hcid
    simp only [emitProduce, List.mem_append, List.mem_singleton] at hcp ht
    rcases ht with ht | ht
    · exact hinv.complLast p d h hcp t ht htp hcid
    · subst ht
      have hcid' : comp.id = p := by
        simpa [produceTask] using hcid
      subst hcid'
      rw [hcp] at hnone
      cases hnone
  · intro t ht hday htp
    simp only [emitProduce, List.mem_append, List.mem_singleton] at ht hday ⊢
    rcases ht with ht | ht
    · by_cases hm : t.machine_id = machine.id
      · rw [hm, dgetD_dset_self]
        have h1 := hinv.prodCursor t ht hday htp
        rw [hm, ← hn] at h1
        linarith
      · rw [dgetD_dset_ne st.tcur machine.id t.machine_id _ _ hm]
        exact hinv.prodCursor t ht hday htp
    · subst ht
      show now + (qty : ℚ) * _piece_hours comp.cycle_time_sec ≤ dgetD
        (dset st.tcur machine.id
          (now + (qty : ℚ) * _piece_hours comp.cycle_time_sec)) machine.id 0
      rw [dgetD_dset_self]
  · intro t ht hday htp
    simp only [emitProduce, List.mem_append, List.mem_singleton] at ht hday ⊢
    rcases ht with ht | ht
    · exact hinv.prodCap t ht hday htp
    · subst ht
      exact hcap

/-- Recording a completion entry preserves the invariant, given a witness
task and the fact that the entry dominates all PRODUCE tasks of the
component. -/
theorem finishComp_inv (components : List ProductComponent)
    (rem0 : List (String × Int)) (mch cch : ℚ) (st : DayState)
    (cid : String) (endh : ℚ)
    (hwit : ∃ t ∈ st.tasks, t.task_type = TaskType.PRODUCE ∧
      t.component_id = some cid ∧ t.day = st.day ∧ t.end_hour = endh)
    (hlast : ∀ t ∈ st.tasks, t.task_type = TaskType.PRODUCE →
      t.component_id = some cid →
      t.day < st.day ∨ (t.day = st.day ∧ t.end_hour ≤ endh))
    (hnone : dget st.completion cid = none)
    (hinv : DInv components rem0 mch cch st) :
    DInv components rem0 mch cch (finishComp st cid st.day endh) := by
  by_cases hle : dgetD st.remaining cid 0 ≤ 0
  · rw [finishComp, if_pos hle]
    refine {
      taskPos := hinv.taskPos
      dayLe := hinv.dayLe
      dayMono := hinv.dayMono
      seqMono := hinv.seqMono
      seqLt := hinv.seqLt
      busyFree := hinv.busyFree
      taskBusy := hinv.taskBusy
      moldDisj := hinv.moldDisj
      remKeysNodup := hinv.remKeysNodup
      remCons := hinv.remCons
      remSum := hinv.remSum
      remNonneg := hinv.remNonneg
      prodComp := ?_
      prodCid := hinv.prodCid
      owned := hinv.owned
      complRem := ?_
      complWitness := ?_
      complLast := ?_
      prodCursor := hinv.prodCursor
      prodCap := hinv.prodCap }
    · intro t ht htp cid2 hcid2
      obtain ⟨hs, comp, hc, hid, hpr⟩ := hinv.prodComp t ht htp cid2 hcid2
      refine ⟨hs, comp, hc, hid, ?_⟩
      intro pr hprm
      obtain ⟨d, h, hcl, hb⟩ := hpr pr hprm
      have hne : pr ≠ cid := by
        intro he
        rw [he, hnone] at hcl
        cases hcl
      show ∃ d h, dget (dset st.completion cid (st.day, endh)) pr = some (d, h)
        ∧ (d < t.day ∨ (d = t.day ∧ h ≤ t.start_hour + EPS))
      rw [dget_dset_ne st.completion cid pr _ hne]
      exact ⟨d, h, hcl, hb⟩
    · intro p d h hcp q hq
      by_cases hpc : p = cid
      · subst hpc
        have hq' : dgetD st.remaining p 0 = q := by
          simp [dgetD, hq]
        rw [hq'] at hle
        exact hle
      · have hcp' : dget (dset st.completion cid (st.day, endh)) p
            = some (d, h) := hcp
        rw [dget_dset_ne st.completion cid p _ hpc] at hcp'
        exact hinv.complRem p d h hcp' q hq
    · intro p d h hcp
      by_cases hpc : p = cid
      · subst hpc
        have hcp' : dget (dset st.completion p (st.day, endh)) p
            = some (d, h) := hcp
        rw [dget_dset_self] at hcp'
        have hdh : st.day = d ∧ endh = h := by
          simpa [Prod.ext_iff] using hcp'
        obtain ⟨t, ht, h1, h2, h3, h4⟩ := hwit
        exact ⟨t, ht, h1, h2, hdh.1 ▸ h3, hdh.2 ▸ h4⟩
      · have hcp' : dget (dset st.completion cid (st.day, endh)) p
            = some (d, h) := hcp
        rw [dget_dset_ne st.completion cid p _ hpc] at hcp'
        obtain ⟨t, ht, h1, h2, h3, h4⟩ := hinv.complWitness p d h hcp'
        exact ⟨t, ht, h1, h2, h3, h4⟩
    · intro p d h hcp t ht htp hcid
      by_cases hpc : p = cid
      · subst hpc
        have hcp' : dget (dset st.completion p (st.day, endh)) p
            = some (d, h) := hcp
        rw [dget_dset_self] at hcp'
        have hdh : st.day = d ∧ endh = h := by
          simpa [Prod.ext_iff] using hcp'
        obtain ⟨hd, hh⟩ := hdh
        subst hd
        subst hh
        exact hlast t ht htp hcid
      · have hcp' : dget (dset st.completion cid (st.day, endh)) p
            = some (d, h) := hcp
        rw [dget_dset_ne st.completion cid p _ hpc] at hcp'
        exact hinv.complLast p d h hcp' t ht htp hcid
  · rw [finishComp, if_neg hle]
    exact hinv

/-- The full success path of the PRODUCE block preserves the invariant. -/
theorem produceSuccess_inv (components : List ProductComponent)
    (rem0 : List (String × Int)) (mch cch : ℚ) (st : DayState)
    (machine : Machine) (comp : ProductComponent) (now : ℚ) (qty : Int)
    (hn : now = dgetD st.tcur machine.id 0)
    (hpph : 0 < _piece_hours comp.cycle_time_sec)
    (hq1 : 1 ≤ qty)
    (hqle : qty ≤ dgetD st.remaining comp.id 0)
    (hcapq : now + (qty : ℚ) * _piece_hours comp.cycle_time_sec ≤
      machineCap st machine.id)
    (hfree : _interval_is_free (dgetD st.moldBusy comp.mold_id []) now
      (now + (qty : ℚ) * _piece_hours comp.cycle_time_sec) = true)
    (hcomp : comp ∈ components)
    (hown : dget st.owner comp.id = none ∨
      dget st.owner comp.id = some machine.id)
    (hprereq : ∀ pr ∈ comp.prerequisites, ∃ d h,
      dget st.completion pr = some (d, h) ∧
      (d < st.day ∨ (d = st.day ∧ h ≤ now + EPS)))
    (hinv : DInv components rem0 mch cch st) :
    DInv components rem0 mch cch
      (finishComp
        (emitProduce machine comp qty
          (claimOwner
            (reserveMold st comp.mold_id now
              (now + (qty : ℚ) * _piece_hours comp.cycle_time_sec))
            comp.id machine.id)
          now)
        comp.id st.day
        (now + (qty : ℚ) * _piece_hours comp.cycle_time_sec)) := by
  have hq1Q : (1 : ℚ) ≤ (qty : ℚ) := by exact_mod_cast hq1
  have hused : 0 < (qty : ℚ) * _piece_hours comp.cycle_time_sec := by
    have := mul_le_mul_of_nonneg_right hq1Q (le_of_lt hpph)
    linarith
  obtain ⟨r0, hr0, hqler0⟩ :
      ∃ r0, dget st.remaining comp.id = some r0 ∧ qty ≤ r0 := by
    cases hdg : dget st.remaining comp.id with
    | none =>
      have h0 : dgetD st.remaining comp.id 0 = 0 := by simp [dgetD, hdg]
      rw [h0] at hqle
      omega
    | some r0 =>
      refine ⟨r0, rfl, ?_⟩
      have hv : dgetD st.remaining comp.id 0 = r0 := by simp [dgetD, hdg]
      rw [hv] at hqle
      exact hqle
  have hinvR := reserveMold_inv components rem0 mch cch st comp.mold_id now
    (now + (qty : ℚ) * _piece_hours comp.cycle_time_sec) hfree hinv
  have hinvO := claimOwner_inv components rem0 mch cch _ comp.id machine.id hinvR
  have hOtcur : (claimOwner
      (reserveMold st comp.mold_id now
        (now + (qty : ℚ) * _piece_hours comp.cycle_time_sec))
      comp.id machine.id).tcur = st.tcur := by
    rw [claimOwner_tcur]
    rfl
  have hOrem : (claimOwner
      (reserveMold st comp.mold_id now
        (now + (qty : ℚ) * _piece_hours comp.cycle_time_sec))
      comp.id machine.id).remaining = st.remaining := by
    rw [claimOwner_remaining]
    rfl
  have hOcompl : (claimOwner
      (reserveMold st comp.mold_id now
        (now + (qty : ℚ) * _piece_hours comp.cycle_time_sec))
      comp.id machine.id).completion = st.completion := by
    rw [claimOwner_completion]
    rfl
  have hOday : (claimOwner
      (reserveMold st comp.mold_id now
        (now + (qty : ℚ) * _piece_hours comp.cycle_time_sec))
      comp.id machine.id).day = st.day := by
    rw [claimOwner_day]
    rfl
  have hOcap : machineCap (claimOwner
      (reserveMold st comp.mold_id now
        (now + (qty : ℚ) * _piece_hours comp.cycle_time_sec))
      comp.id machine.id) machine.id = machineCap st machine.id := by
    unfold machineCap
    rw [claimOwner_usable]
    rfl
  have hOtasks : (claimOwner
      (reserveMold st comp.mold_id now
        (now + (qty : ℚ) * _piece_hours comp.cycle_time_sec))
      comp.id machine.id).tasks = st.tasks := by
    rw [claimOwner_tasks]
    rfl
  have hinvE := emitProduce_inv components rem0 mch cch _ machine comp qty now r0
    (by rw [hOtcur]; exact hn)
    hpph hq1
    (by rw [hOrem]; exact hr0)
    hqler0
    (by rw [hOcap]; exact hcapq)
    (by
      rw [claimOwner_moldBusy]
      refine ⟨_, dget_dset_self st.moldBusy comp.mold_id _, ?_⟩
      simp [_reserve_interval])
    (claimOwner_owner_self
      (reserveMold st comp.mold_id now
        (now + (qty : ℚ) * _piece_hours comp.cycle_time_sec))
      comp.id machine.id hown)
    hcomp
    (by
      rw [hOcompl, hOday]
      exact hprereq)
    (by
      rw [hOtasks, hOday]
      intro x hx hday hmo
      obtain ⟨ivs, hdg, hmem⟩ := hinv.taskBusy x hx hday comp.mold_id hmo
      have hpre : dgetD st.moldBusy comp.mold_id [] = ivs := by
        simp [dgetD, hdg]
      exact (interval_is_free_iff _ _ _).mp hfree (x.start_hour, x.end_hour)
        (hpre ▸ hmem))
    hinvO
  have hnoneC : dget st.completion comp.id = none := by
    cases hcc : dget st.completion comp.id with
    | none => rfl
    | some dh =>
      obtain ⟨d, h⟩ := dh
      have := hinv.complRem comp.id d h hcc r0 hr0
      omega
  generalize hG : claimOwner
      (reserveMold st comp.mold_id now
        (now + (qty : ℚ) * _piece_hours comp.cycle_time_sec))
      comp.id machine.id = stO at hOtasks hOday hOcompl hinvE ⊢
  have hwitE : ∃ t ∈ stO.tasks ++ [produceTask machine comp qty stO now],
      t.task_type = TaskType.PRODUCE ∧ t.component_id = some comp.id ∧
      t.day = stO.day ∧
      t.end_hour = now + (qty : ℚ) * _piece_hours comp.cycle_time_sec :=
    ⟨produceTask machine comp qty stO now,
      List.mem_append_right _ (List.mem_singleton.mpr rfl), rfl, rfl, rfl, rfl⟩
  have hlastE : ∀ t ∈ stO.tasks ++ [produceTask machine comp qty stO now],
      t.task_type = TaskType.PRODUCE → t.component_id = some comp.id →
      t.day < stO.day ∨ (t.day = stO.day ∧
        t.end_hour ≤ now + (qty : ℚ) * _piece_hours comp.cycle_time_sec) := by
    intro t ht htp hcid
    rw [hOday]
    rcases List.mem_append.mp ht with hto | htn
    · rw [hOtasks] at hto
      have hta := hinv.owned t hto htp comp.id hcid
      rcases hown with hno | hsm
      · rw [hno] at hta
        cases hta
      · rw [hsm] at hta
        have hmid : machine.id = t.machine_id := by
          injection hta
        have hle := hinv.dayLe t hto
        rcases Nat.lt_or_ge t.day st.day with hlt | hge
        · exact Or.inl hlt
        · have hdeq : t.day = st.day := by omega
          refine Or.inr ⟨hdeq, ?_⟩
          have hend := hinv.prodCursor t hto hdeq htp
          rw [← hmid, ← hn] at hend
          show t.end_hour ≤ now + (qty : ℚ) * _piece_hours comp.cycle_time_sec
          linarith
    · rw [List.mem_singleton] at htn
      subst htn
      exact Or.inr ⟨hOday, le_refl _⟩
  have hnoneE : dget stO.completion comp.id = none := by
    rw [hOcompl]
    exact hnoneC
  rw [← hOday]
  exact finishComp_inv components rem0 mch cch
    (emitProduce machine comp qty stO now) comp.id
    (now + (qty : ℚ) * _piece_hours comp.cycle_time_sec)
    hwitE hlastE hnoneE hinvE

/-- The PRODUCE block of the slot body preserves the invariant. -/
theorem produceStage_inv (components : List ProductComponent)
    (rem0 : List (String × Int)) (mch cch : ℚ) (st : DayState)
    (machine : Machine) (comp : ProductComponent) (now : ℚ)
    (hn : now = dgetD st.tcur machine.id 0)
    (hcomp : comp ∈ components)
    (hown : dget st.owner comp.id = none ∨
      dget st.owner comp.id = some machine.id)
    (hprereq : ∀ pr ∈ comp.prerequisites, ∃ d h,
      dget st.completion pr = some (d, h) ∧
      (d < st.day ∨ (d = st.day ∧ h ≤ now + EPS)))
    (hinv : DInv components rem0 mch cch st) :
    DInv components rem0 mch cch (produceStage machine comp st now) := by
  rw [produceStage]
  dsimp only []
  by_cases hpph : _piece_hours comp.cycle_time_sec ≤ 0
  · rw [if_pos hpph]
    exact markDone_inv components rem0 mch cch st machine hinv
  · rw [if_neg hpph]
    have hpph' : 0 < _piece_hours comp.cycle_time_sec := not_le.mp hpph
    have hhard : (match _next_busy_start (dgetD st.moldBusy comp.mold_id []) now with
        | none => machineCap st machine.id
        | some nb => min (machineCap st machine.id) nb) ≤
          machineCap st machine.id := by
      cases _next_busy_start (dgetD st.moldBusy comp.mold_id []) now with
      | none => exact le_refl _
      | some nb => exact min_le_left _ _
    generalize hED : (match _next_busy_start (dgetD st.moldBusy comp.mold_id []) now with
        | none => machineCap st machine.id
        | some nb => min (machineCap st machine.id) nb) = hard_end at hhard ⊢
    generalize hQ : min (dgetD st.remaining comp.id 0)
        (Rat.floor ((hard_end - now) / _piece_hours comp.cycle_time_sec)) = qty
    by_cases havail : hard_end - now < _piece_hours comp.cycle_time_sec - EPS
    · rw [if_pos havail]
      exact markDone_inv components rem0 mch cch st machine hinv
    · rw [if_neg havail]
      by_cases hqty : qty ≤ 0
      · rw [if_pos hqty]
        exact markDone_inv components rem0 mch cch st machine hinv
      · rw [if_neg hqty]
        have hq1 : 1 ≤ qty := by omega
        have hqle : qty ≤ dgetD st.remaining comp.id 0 := by
          rw [← hQ]
          exact min_le_left _ _
        have hqfl : qty ≤ Rat.floor ((hard_end - now) /
            _piece_hours comp.cycle_time_sec) := by
          rw [← hQ]
          exact min_le_right _ _
        have hcapq : now + (qty : ℚ) * _piece_hours comp.cycle_time_sec ≤
            machineCap st machine.id := by
          have h1 : (qty : ℚ) ≤ (hard_end - now) /
              _piece_hours comp.cycle_time_sec := Rat.le_floor.mp hqfl
          have h2 : (qty : ℚ) * _piece_hours comp.cycle_time_sec ≤
              hard_end - now := (le_div_iff₀ hpph').mp h1
          linarith
        by_cases hfree : (!(_interval_is_free (dgetD st.moldBusy comp.mold_id [])
            now (now + (qty : ℚ) * _piece_hours comp.cycle_time_sec))) = true
        · rw [if_pos hfree]
          cases hw : _next_mold_free_time_for_window
              (dgetD st.moldBusy comp.mold_id []) now
              (_piece_hours comp.cycle_time_sec) (machineCap st machine.id) with
          | none =>
            exact markDone_inv components rem0 mch cch st machine hinv
          | some nxt =>
            dsimp only []
            by_cases hcnd : (decide (now + EPS < nxt) &&
                decide (nxt < machineCap st machine.id - EPS)) = true
            · rw [if_pos hcnd]
              have hlt : now < nxt := by
                simp only [Bool.and_eq_true, decide_eq_true_eq] at hcnd
                have hE : (0 : ℚ) < EPS := by norm_num [EPS]
                linarith [hcnd.1]
              exact pushWait_inv components rem0 mch cch st machine now nxt hn
                hlt hinv
            · rw [if_neg hcnd]
              exact markDone_inv components rem0 mch cch st machine hinv
        · rw [if_neg hfree]
          have hfree' : _interval_is_free (dgetD st.moldBusy comp.mold_id [])
              now (now + (qty : ℚ) * _piece_hours comp.cycle_time_sec) = true := by
            simpa using hfree
          exact produceSuccess_inv components rem0 mch cch st machine comp now
            qty hn hpph' hq1 hqle hcapq hfree' hcomp hown hprereq hinv

/-- The same-day-prerequisite block of the slot body preserves the
invariant. -/
theorem prereqStage_inv (components : List ProductComponent)
    (rem0 : List (String × Int)) (mch cch : ℚ) (st : DayState)
    (machine : Machine) (comp : ProductComponent) (now : ℚ)
    (hn : now = dgetD st.tcur machine.id 0)
    (hcomp : comp ∈ components)
    (hown : dget st.owner comp.id = none ∨
      dget st.owner comp.id = some machine.id)
    (hinv : DInv components rem0 mch cch st) :
    DInv components rem0 mch cch (prereqStage machine comp st now) := by
  rw [prereqStage]
  cases hpr : _next_ready_time_due_to_prereqs comp st.completion st.day now with
  | none => exact markDone_inv components rem0 mch cch st machine hinv
  | some prn =>
    dsimp only []
    obtain ⟨hafter, hprs⟩ := nextReady_spec comp st.completion st.day now prn hpr
    have hE : (0 : ℚ) < EPS := by norm_num [EPS]
    by_cases hlt : (decide (now + EPS < prn)) = true
    · rw [if_pos hlt]
      simp only [decide_eq_true_eq] at hlt
      by_cases hge : (decide (prn ≥ machineCap st machine.id - EPS)) = true
      · rw [if_pos hge]
        exact markDone_inv components rem0 mch cch st machine hinv
      · rw [if_neg hge]
        have hnowprn : now < prn := by linarith
        have hprW : ∀ (stW : DayState), stW.completion = st.completion →
            stW.day = st.day →
            ∀ pr ∈ comp.prerequisites, ∃ d h,
              dget stW.completion pr = some (d, h) ∧
              (d < stW.day ∨ (d = stW.day ∧ h ≤ prn + EPS)) := by
          intro stW hc hd pr hpm
          rw [hc, hd]
          obtain ⟨d, hh, hcl, hb⟩ := hprs pr hpm
          refine ⟨d, hh, hcl, ?_⟩
          rcases hb with h1 | ⟨h2, h3 | h3⟩
          · exact Or.inl h1
          · exact Or.inr ⟨h2, by linarith⟩
          · exact Or.inr ⟨h2, by linarith⟩
        cases hcm : dgetD st.curMold machine.id none with
        | none =>
          dsimp only []
          exact produceStage_inv components rem0 mch cch
            (pushWait st machine now prn) machine comp prn
            (by
              show prn = dgetD (dset st.tcur machine.id prn) machine.id 0
              rw [dgetD_dset_self])
            hcomp hown
            (hprW _ rfl rfl)
            (pushWait_inv components rem0 mch cch st machine now prn hn
              hnowprn hinv)
        | some cm =>
          dsimp only []
          cases hbz : dget st.moldBusy cm with
          | none =>
            dsimp only []
            exact produceStage_inv components rem0 mch cch
              (pushWait st machine now prn) machine comp prn
              (by
                show prn = dgetD (dset st.tcur machine.id prn) machine.id 0
                rw [dgetD_dset_self])
              hcomp hown
              (hprW _ rfl rfl)
              (pushWait_inv components rem0 mch cch st machine now prn hn
                hnowprn hinv)
          | some intervals =>
            dsimp only []
            by_cases hfr : (!(_interval_is_free intervals now prn)) = true
            · rw [if_pos hfr]
              cases hw : _next_mold_free_time_for_window intervals now
                  (prn - now) (machineCap st machine.id) with
              | none =>
                exact markDone_inv components rem0 mch cch st machine hinv
              | some nxt =>
                dsimp only []
                by_cases hcnd : (decide (now + EPS < nxt) &&
                    decide (nxt < machineCap st machine.id - EPS)) = true
                · rw [if_pos hcnd]
                  have hltn : now < nxt := by
                    simp only [Bool.and_eq_true, decide_eq_true_eq] at hcnd
                    linarith [hcnd.1]
                  exact pushWait_inv components rem0 mch cch st machine now nxt
                    hn hltn hinv
                · rw [if_neg hcnd]
                  exact markDone_inv components rem0 mch cch st machine hinv
            · rw [if_neg hfr]
              have hfree' : _interval_is_free (dgetD st.moldBusy cm []) now prn
                  = true := by
                have hiv : dgetD st.moldBusy cm [] = intervals := by
                  simp [dgetD, hbz]
                rw [hiv]
                simpa using hfr
              have hinvR := reserveMold_inv components rem0 mch cch st cm now
                prn hfree' hinv
              exact produceStage_inv components rem0 mch cch
                (pushWait (reserveMold st cm now prn) machine now prn)
                machine comp prn
                (by
                  show prn = dgetD
                    (dset (reserveMold st cm now prn).tcur machine.id prn)
                    machine.id 0
                  rw [dgetD_dset_self])
                hcomp hown
                (hprW _ rfl rfl)
                (pushWait_inv components rem0 mch cch (reserveMold st cm now prn)
                  machine now prn hn hnowprn hinvR)
    · rw [if_neg hlt]
      simp only [decide_eq_true_eq] at hlt
      have hple : prn ≤ now + EPS := le_of_not_lt hlt
      exact produceStage_inv components rem0 mch cch st machine comp now hn
        hcomp hown
        (by
          intro pr hpm
          obtain ⟨d, hh, hcl, hb⟩ := hprs pr hpm
          refine ⟨d, hh, hcl, ?_⟩
          rcases hb with h1 | ⟨h2, h3 | h3⟩
          · exact Or.inl h1
          · exact Or.inr ⟨h2, h3⟩
          · exact Or.inr ⟨h2, by linarith⟩)
        hinv

/-- The CHANGE_MOLD block of the slot body preserves the invariant. -/
theorem moldStage_inv (components : List ProductComponent)
    (rem0 : List (String × Int)) (mch cch : ℚ) (st : DayState)
    (machine : Machine) (comp : ProductComponent) (nmc : Bool) (now : ℚ)
    (hn : now = dgetD st.tcur machine.id 0)
    (hcomp : comp ∈ components)
    (hown : dget st.owner comp.id = none ∨
      dget st.owner comp.id = some machine.id)
    (hinv : DInv components rem0 mch cch st) :
    DInv components rem0 mch cch (moldStage mch machine comp nmc st now) := by
  rw [moldStage]
  by_cases hnmc : nmc = true
  · rw [if_pos hnmc]
    by_cases hmh : (0 : ℚ) < max 0 mch
    · rw [if_pos hmh]
      have hE : (0 : ℚ) < EPS := by norm_num [EPS]
      have hmch : 0 < mch := by
        rcases le_or_lt mch 0 with h0 | h0
        · rw [max_eq_left h0] at hmh
          exact absurd hmh (lt_irrefl 0)
        · exact h0
      by_cases hcap : (decide (machineCap st machine.id + EPS <
          now + max 0 mch)) = true
      · rw [if_pos hcap]
        exact markDone_inv components rem0 mch cch st machine hinv
      · rw [if_neg hcap]
        by_cases hfr : (!(_interval_is_free (dgetD st.moldBusy comp.mold_id [])
            now (now + max 0 mch))) = true
        · rw [if_pos hfr]
          cases hw : _next_mold_free_time_for_window
              (dgetD st.moldBusy comp.mold_id []) now (max 0 mch)
              (machineCap st machine.id) with
          | none =>
            exact markDone_inv components rem0 mch cch st machine hinv
          | some nxt =>
            dsimp only []
            by_cases hcnd : (decide (now + EPS < nxt) &&
                decide (nxt < machineCap st machine.id - EPS)) = true
            · rw [if_pos hcnd]
              have hltn : now < nxt := by
                simp only [Bool.and_eq_true, decide_eq_true_eq] at hcnd
                linarith [hcnd.1]
              exact pushWait_inv components rem0 mch cch st machine now nxt hn
                hltn hinv
            · rw [if_neg hcnd]
              exact markDone_inv components rem0 mch cch st machine hinv
        · rw [if_neg hfr]
          have hfree' : _interval_is_free (dgetD st.moldBusy comp.mold_id [])
              now (now + max 0 mch) = true := by
            simpa using hfr
          have hinv1 := reserveMold_inv components rem0 mch cch st comp.mold_id
            now (now + max 0 mch) hfree' hinv
          have hinv2 := emitTask_inv components rem0 mch cch
            (reserveMold st comp.mold_id now (now + max 0 mch)) machine
            (moldTask (reserveMold st comp.mold_id now (now + max 0 mch))
              machine comp (max 0 mch) now)
            (now + max 0 mch)
            (dset (reserveMold st comp.mold_id now (now + max 0 mch)).curMold
              machine.id (some comp.mold_id))
            (reserveMold st comp.mold_id now (now + max 0 mch)).curColor
            (reserveMold st comp.mold_id now (now + max 0 mch)).lastComp
            (reserveMold st comp.mold_id now (now + max 0 mch)).done
            (by
              show dgetD st.tcur machine.id 0 ≤ now + max 0 mch
              rw [← hn]
              linarith)
            rfl rfl rfl hmh
            (by
              show now < now + max 0 mch
              linarith)
            (by
              intro h
              simp [moldTask] at h)
            (fun _ => hmch)
            (by
              intro h
              simp [moldTask] at h)
            (by
              intro mo hmo
              have hmo' : comp.mold_id = mo := by
                simpa [taskMoldOf, moldTask] using hmo
              subst hmo'
              refine ⟨_, dget_dset_self st.moldBusy comp.mold_id _, ?_⟩
              show ((now, now + max 0 mch) : ℚ × ℚ) ∈
                _reserve_interval (dgetD st.moldBusy comp.mold_id []) now
                  (now + max 0 mch)
              rw [_reserve_interval]
              exact List.mem_append_right _ (List.mem_singleton.mpr rfl))
            (by
              intro x hx hday mo h1 h2
              have hmo' : comp.mold_id = mo := by
                simpa [taskMoldOf, moldTask] using h2
              subst hmo'
              have hx' : x ∈ st.tasks := hx
              have hday' : x.day = st.day := hday
              obtain ⟨ivs, hdg, hmem⟩ := hinv.taskBusy x hx' hday' comp.mold_id h1
              have hpre : dgetD st.moldBusy comp.mold_id [] = ivs := by
                simp [dgetD, hdg]
              exact (interval_is_free_iff _ _ _).mp hfree'
                (x.start_hour, x.end_hour) (hpre ▸ hmem))
            hinv1
          exact prereqStage_inv components rem0 mch cch _ machine comp
            (now + max 0 mch)
            (by
              show now + max 0 mch = dgetD
                (dset (reserveMold st comp.mold_id now (now + max 0 mch)).tcur
                  machine.id (now + max 0 mch)) machine.id 0
              rw [dgetD_dset_self])
            hcomp hown hinv2
    · rw [if_neg hmh]
      exact prereqStage_inv components rem0 mch cch _ machine comp now hn hcomp
        hown
        (dinv_pref components rem0 mch cch st
          (dset st.curMold machine.id (some comp.mold_id)) st.curColor
          st.lastComp st.done hinv)
  · rw [if_neg hnmc]
    exact prereqStage_inv components rem0 mch cch st machine comp now hn hcomp
      hown hinv

/-- The CHANGE_COLOR block of the slot body preserves the invariant. -/
theorem colorStage_inv (components : List ProductComponent)
    (rem0 : List (String × Int)) (mch cch : ℚ) (st : DayState)
    (machine : Machine) (comp : ProductComponent) (ncc nmc : Bool) (now : ℚ)
    (hn : now = dgetD st.tcur machine.id 0)
    (hcomp : comp ∈ components)
    (hown : dget st.owner comp.id = none ∨
      dget st.owner comp.id = some machine.id)
    (hinv : DInv components rem0 mch cch st) :
    DInv components rem0 mch cch
      (colorStage cch mch machine comp ncc nmc st now) := by
  rw [colorStage]
  by_cases hncc : ncc = true
  · rw [if_pos hncc]
    by_cases hch : (0 : ℚ) < max 0 cch
    · rw [if_pos hch]
      have hcch : 0 < cch := by
        rcases le_or_lt cch 0 with h0 | h0
        · rw [max_eq_left h0] at hch
          exact absurd hch (lt_irrefl 0)
        · exact h0
      by_cases hcap : (decide (machineCap st machine.id + EPS <
          now + max 0 cch)) = true
      · rw [if_pos hcap]
        exact markDone_inv components rem0 mch cch st machine hinv
      · rw [if_neg hcap]
        have hinv1 := emitTask_inv components rem0 mch cch st machine
          (colorTask st machine comp (max 0 cch) now) (now + max 0 cch)
          st.curMold (dset st.curColor machine.id (some comp.color))
          st.lastComp st.done
          (by
            rw [← hn]
            linarith)
          rfl rfl rfl hch
          (by
            show now < now + max 0 cch
            linarith)
          (by
            intro h
            simp [colorTask] at h)
          (by
            intro h
            simp [colorTask] at h)
          (fun _ => hcch)
          (by
            intro mo hmo
            simp [taskMoldOf, colorTask] at hmo)
          (by
            intro x hx hday mo h1 h2
            simp [taskMoldOf, colorTask] at h2)
          hinv
        exact moldStage_inv components rem0 mch cch _ machine comp nmc
          (now + max 0 cch)
          (by
            show now + max 0 cch = dgetD
              (dset st.tcur machine.id (now + max 0 cch)) machine.id 0
            rw [dgetD_dset_self])
          hcomp hown hinv1
    · rw [if_neg hch]
      exact moldStage_inv components rem0 mch cch _ machine comp nmc now hn
        hcomp hown
        (dinv_pref components rem0 mch cch st st.curMold
          (dset st.curColor machine.id (some comp.color)) st.lastComp st.done
          hinv)
  · rw [if_neg hncc]
    exact moldStage_inv components rem0 mch cch st machine comp nmc now hn
      hcomp hown hinv

/-- Every candidate accumulated by the scan comes from the scanned list and
passes the ownership filter. -/
theorem scanCandidates_post (cch mch : ℚ) (moldsById : List (String × Mold))
    (rank : List (String × Nat)) (st : DayState) (machine : Machine) :
    ∀ (comps : List ProductComponent) (cands : List Cand) (waits : List ℚ)
      (c : Cand),
      c ∈ (scanCandidates cch mch moldsById rank st machine comps
        (cands, waits)).1 →
      c ∈ cands ∨
      (c.comp ∈ comps ∧
        (dget st.owner c.comp.id = none ∨
          dget st.owner c.comp.id = some machine.id)) := by
  intro comps
  induction comps with
  | nil =>
    intro cands waits c hc
    rw [scanCandidates] at hc
    exact Or.inl hc
  | cons comp rest ih =>
    intro cands waits c hc
    rw [scanCandidates] at hc
    dsimp only [] at hc
    have hs : ∀ (w : List ℚ),
        c ∈ (scanCandidates cch mch moldsById rank st machine rest
          (cands, w)).1 →
        c ∈ cands ∨
        (c.comp ∈ comp :: rest ∧
          (dget st.owner c.comp.id = none ∨
            dget st.owner c.comp.id = some machine.id)) := by
      intro w h
      rcases ih cands w c h with h' | ⟨hm, ho⟩
      · exact Or.inl h'
      · exact Or.inr ⟨List.mem_cons_of_mem _ hm, ho⟩
    by_cases h1 : dgetD st.remaining comp.id 0 ≤ 0
    · rw [if_pos h1] at hc
      exact hs _ hc
    · rw [if_neg h1] at hc
      by_cases h2 : ((dget st.owner comp.id).isSome &&
          dget st.owner comp.id != some machine.id) = true
      · rw [if_pos h2] at hc
        exact hs _ hc
      · rw [if_neg h2] at hc
        have ho : dget st.owner comp.id = none ∨
            dget st.owner comp.id = some machine.id := by
          cases hog : dget st.owner comp.id with
          | none => exact Or.inl rfl
          | some v =>
            have hv : some v = some machine.id := by
              by_contra hne
              exact h2 (by simp [hog, hne])
            exact Or.inr hv
        repeat' split at hc
        all_goals try exact hs _ hc
        all_goals
          rcases ih _ _ _ hc with h' | ⟨hm, ho2⟩
        all_goals try exact Or.inr ⟨List.mem_cons_of_mem _ hm, ho2⟩
        all_goals
          rcases List.mem_append.mp h' with hcn | hcn
        all_goals try exact Or.inl hcn
        all_goals
          rw [List.mem_singleton] at hcn
        all_goals
          subst hcn
        all_goals exact Or.inr ⟨List.mem_cons_self _ _, ho⟩

theorem mem_filterSticky (st : DayState) (mid : String) (cands : List Cand)
    (c : Cand) (h : c ∈ filterSticky st mid cands) : c ∈ cands := by
  unfold filterSticky at h
  split at h
  · exact List.mem_of_mem_filter h
  · exact h

theorem mem_filterColor (st : DayState) (mid : String) (cands : List Cand)
    (c : Cand) (h : c ∈ filterColor st mid cands) : c ∈ cands := by
  unfold filterColor at h
  split at h
  · exact List.mem_of_mem_filter h
  · exact h

/-- One slot-loop iteration preserves the invariant, provided every scanned
component is a known component. -/
theorem slotMachine_inv (components : List ProductComponent)
    (rem0 : List (String × Int)) (mch cch : ℚ)
    (comp_order : List ProductComponent) (moldsById : List (String × Mold))
    (rank : List (String × Nat)) (machine : Machine) (st : DayState)
    (hall : ∀ c ∈ comp_order, c ∈ components)
    (hinv : DInv components rem0 mch cch st) :
    DInv components rem0 mch cch
      (slotMachine cch mch comp_order moldsById rank machine st) := by
  rw [slotMachine]
  have hE : (0 : ℚ) < EPS := by norm_num [EPS]
  cases hcs : (scanCandidates cch mch moldsById rank st machine comp_order
      ([], [])).1 with
  | nil =>
    dsimp only []
    cases hmin : (scanCandidates cch mch moldsById rank st machine comp_order
        ([], [])).2.min? with
    | none => exact markDone_inv components rem0 mch cch st machine hinv
    | some t_next =>
      dsimp only []
      by_cases hcnd : (decide (dgetD st.tcur machine.id 0 + EPS < t_next))
          = true
      · rw [if_pos hcnd]
        simp only [decide_eq_true_eq] at hcnd
        exact pushWait_inv components rem0 mch cch st machine _ t_next rfl
          (by linarith) hinv
      · rw [if_neg hcnd]
        exact markDone_inv components rem0 mch cch st machine hinv
  | cons c0 crest =>
    dsimp only []
    cases hsort : (filterColor st machine.id
        (filterSticky st machine.id (c0 :: crest))).insertionSort
        (fun a b => candLE a b) with
    | nil => exact markDone_inv components rem0 mch cch st machine hinv
    | cons chosen rest2 =>
      dsimp only []
      have hmem : chosen ∈ (filterColor st machine.id
          (filterSticky st machine.id (c0 :: crest))).insertionSort
          (fun a b => candLE a b) := by
        rw [hsort]
        exact List.mem_cons_self _ _
      have hmem2 : chosen ∈ filterColor st machine.id
          (filterSticky st machine.id (c0 :: crest)) :=
        (List.perm_insertionSort _ _).subset hmem
      have hmem3 : chosen ∈ c0 :: crest :=
        mem_filterSticky st machine.id _ chosen
          (mem_filterColor st machine.id _ chosen hmem2)
      have hmem4 : chosen ∈ (scanCandidates cch mch moldsById rank st machine
          comp_order ([], [])).1 := by
        rw [hcs]
        exact hmem3
      rcases scanCandidates_post cch mch moldsById rank st machine comp_order
          [] [] chosen hmem4 with hfalse | ⟨hmo, hown⟩
      · cases hfalse
      · exact colorStage_inv components rem0 mch cch st machine chosen.comp
          chosen.need_color_change chosen.need_mold_change _ rfl
          (hall chosen.comp hmo) hown hinv

theorem pushWait_day (st : DayState) (machine : Machine) (now endt : ℚ) :
    (pushWait st machine now endt).day = st.day := rfl

theorem markDone_day (st : DayState) (machine : Machine) :
    (markDone st machine).day = st.day := rfl

theorem reserveMold_day (st : DayState) (cm : String) (s e : ℚ) :
    (reserveMold st cm s e).day = st.day := rfl

theorem emitProduce_day (machine : Machine) (comp : ProductComponent)
    (qty : Int) (st : DayState) (now : ℚ) :
    (emitProduce machine comp qty st now).day = st.day := rfl

theorem finishComp_day (st : DayState) (cid : String) (day : Nat) (h : ℚ) :
    (finishComp st cid day h).day = st.day := by
  rw [finishComp]
  split <;> rfl

theorem produceStage_day (machine : Machine) (comp : ProductComponent)
    (st : DayState) (now : ℚ) :
    (produceStage machine comp st now).day = st.day := by
  rw [produceStage]
  dsimp only []
  repeat' split
  all_goals try rfl
  all_goals rw [finishComp_day, emitProduce_day, claimOwner_day, reserveMold_day]

theorem prereqStage_day (machine : Machine) (comp : ProductComponent)
    (st : DayState) (now : ℚ) :
    (prereqStage machine comp st now).day = st.day := by
  rw [prereqStage]
  repeat' split
  all_goals try rfl
  all_goals rw [produceStage_day]
  all_goals rfl

theorem moldStage_day (mch : ℚ) (machine : Machine) (comp : ProductComponent)
    (nmc : Bool) (st : DayState) (now : ℚ) :
    (moldStage mch machine comp nmc st now).day = st.day := by
  rw [moldStage]
  dsimp only []
  repeat' split
  all_goals try rfl
  all_goals rw [prereqStage_day]
  all_goals rfl

theorem colorStage_day (cch mch : ℚ) (machine : Machine)
    (comp : ProductComponent) (ncc nmc : Bool) (st : DayState) (now : ℚ) :
    (colorStage cch mch machine comp ncc nmc st now).day = st.day := by
  rw [colorStage]
  dsimp only []
  repeat' split
  all_goals try rfl
  all_goals rw [moldStage_day]
  all_goals rfl

theorem slotMachine_day (cch mch : ℚ) (comp_order : List ProductComponent)
    (moldsById : List (String × Mold)) (rank : List (String × Nat))
    (machine : Machine) (st : DayState) :
    (slotMachine cch mch comp_order moldsById rank machine st).day = st.day := by
  rw [slotMachine]
  repeat' split
  all_goals try rfl
  all_goals rw [colorStage_day]

theorem dayLoop_day (cch mch : ℚ) (comp_order : List ProductComponent)
    (moldsById : List (String × Mold)) (machines : List Machine)
    (rank : List (String × Nat)) :
    ∀ (fuel : Nat) (st : DayState),
      (dayLoop cch mch comp_order moldsById machines rank fuel st).day
        = st.day := by
  intro fuel
  induction fuel with
  | zero => intro st; rfl
  | succ n ih =>
    intro st
    rw [dayLoop]
    split
    · rfl
    · rw [ih, slotMachine_day]

/-- The slot loop preserves the invariant for any fuel. -/
theorem dayLoop_inv (components : List ProductComponent)
    (rem0 : List (String × Int)) (mch cch : ℚ)
    (comp_order : List ProductComponent) (moldsById : List (String × Mold))
    (machines : List Machine) (rank : List (String × Nat))
    (hall : ∀ c ∈ comp_order, c ∈ components) :
    ∀ (fuel : Nat) (st : DayState), DInv components rem0 mch cch st →
      DInv components rem0 mch cch
        (dayLoop cch mch comp_order moldsById machines rank fuel st) := by
  intro fuel
  induction fuel with
  | zero => intro st hinv; exact hinv
  | succ n ih =>
    intro st hinv
    rw [dayLoop]
    split
    · exact hinv
    · exact ih _ (slotMachine_inv components rem0 mch cch comp_order moldsById
        rank _ st hall hinv)

theorem mem_dictOf (l : List α) (key : α → String) (val : α → β)
    (p : String × β) (hp : p ∈ dictOf l key val) : ∃ a ∈ l, p.2 = val a := by
  suffices h : ∀ acc, p ∈ l.foldl (fun a x => dset a (key x) (val x)) acc →
      p ∈ acc ∨ ∃ a ∈ l, p.2 = val a by
    rcases h [] hp with h1 | h1
    · cases h1
    · exact h1
  clear hp
  induction l with
  | nil =>
    intro acc h
    exact Or.inl h
  | cons x rest ih =>
    intro acc h
    rcases ih (dset acc (key x) (val x)) h with h1 | ⟨a, ha, hv⟩
    · rcases mem_dset _ _ _ _ h1 with h2 | ⟨h2, -⟩
      · right
        exact ⟨x, by simp, by rw [h2]⟩
      · exact Or.inl h2
    · right
      exact ⟨a, List.mem_cons_of_mem _ ha, hv⟩

/-- Entering a fresh day turns the persisted invariant into the day
invariant. -/
theorem initDay_inv (components : List ProductComponent)
    (rem0 : List (String × Int)) (mch cch : ℚ) (machines : List Machine)
    (molds : List Mold) (p : Persist) (b day : Nat) (hb : b < day)
    (hP : PInv components rem0 mch cch b p) :
    DInv components rem0 mch cch (initDay machines molds p day) := by
  have hvac : ∀ t ∈ p.tasks, ¬(t.day = day) := by
    intro t ht hd
    have := hP.dayLe t ht
    omega
  refine {
    taskPos := hP.taskPos
    dayLe := ?_
    dayMono := hP.dayMono
    seqMono := hP.seqMono
    seqLt := ?_
    busyFree := ?_
    taskBusy := ?_
    moldDisj := hP.moldDisj
    remKeysNodup := hP.remKeysNodup
    remCons := hP.remCons
    remSum := hP.remSum
    remNonneg := hP.remNonneg
    prodComp := hP.prodComp
    prodCid := hP.prodCid
    owned := hP.owned
    complRem := hP.complRem
    complWitness := hP.complWitness
    complLast := hP.complLast
    prodCursor := ?_
    prodCap := ?_ }
  · intro t ht
    have := hP.dayLe t ht
    show t.day ≤ day
    omega
  · intro t ht hd
    exact absurd hd (hvac t ht)
  · intro mo ivs hmo
    have hmem := dget_some_mem _ _ _ hmo
    obtain ⟨a, ha, hv⟩ := mem_dictOf molds (fun m => m.id) (fun _ => []) _ hmem
    simp only [] at hv
    rw [hv]
    exact List.Pairwise.nil
  · intro t ht hd
    exact absurd hd (hvac t ht)
  · intro t ht hd
    exact absurd hd (hvac t ht)
  · intro t ht hd
    exact absurd hd (hvac t ht)

/-- Leaving a day turns the day invariant back into the persisted one. -/
theorem endDay_pinv (components : List ProductComponent)
    (rem0 : List (String × Int)) (mch cch : ℚ) (machines : List Machine)
    (st : DayState) (hinv : DInv components rem0 mch cch st) :
    PInv components rem0 mch cch st.day (endDay machines st) := by
  exact {
    taskPos := hinv.taskPos
    dayLe := hinv.dayLe
    dayMono := hinv.dayMono
    seqMono := hinv.seqMono
    moldDisj := hinv.moldDisj
    remKeysNodup := hinv.remKeysNodup
    remCons := hinv.remCons
    remSum := hinv.remSum
    remNonneg := hinv.remNonneg
    prodComp := hinv.prodComp
    prodCid := hinv.prodCid
    owned := hinv.owned
    complRem := hinv.complRem
    complWitness := hinv.complWitness
    complLast := hinv.complLast }

/-- The day loop of the decoder preserves the persisted invariant along any
strictly increasing day list. -/
theorem runDays_inv (components : List ProductComponent)
    (rem0 : List (String × Int)) (mch cch : ℚ)
    (comp_order : List ProductComponent) (molds : List Mold)
    (moldsById : List (String × Mold)) (machines : List Machine)
    (rank : List (String × Nat)) (fuel : Nat)
    (hall : ∀ c ∈ comp_order, c ∈ components) :
    ∀ (days : List Nat) (b : Nat) (p : Persist),
      PInv components rem0 mch cch b p → List.Chain (fun a b => a < b) b days →
      ∃ b2, PInv components rem0 mch cch b2
        (runDays cch mch comp_order molds moldsById machines rank fuel days p) := by
  intro days
  induction days with
  | nil =>
    intro b p hP hch
    exact ⟨b, hP⟩
  | cons day rest ih =>
    intro b p hP hch
    rw [runDays]
    obtain ⟨hbd, hch2⟩ := List.chain_cons.mp hch
    have hD := initDay_inv components rem0 mch cch machines molds p b day hbd hP
    have hD2 := dayLoop_inv components rem0 mch cch comp_order moldsById
      machines rank hall fuel (initDay machines molds p day) hD
    have hday : (dayLoop cch mch comp_order moldsById machines rank fuel
        (initDay machines molds p day)).day = day := by
      rw [dayLoop_day]
      rfl
    have hP2 := endDay_pinv components rem0 mch cch machines _ hD2
    rw [hday] at hP2
    exact ih day _ hP2 hch2

/-- `range' (s+1) n` is a strictly increasing chain above `s`. -/
theorem chain_range_lt : ∀ (n s : Nat),
    List.Chain (fun a b => a < b) s (List.range' (s + 1) n) := by
  intro n
  induction n with
  | zero => intro s; exact List.Chain.nil
  | succ m ih =>
    intro s
    rw [List.range'_succ]
    exact List.Chain.cons (Nat.lt_succ_self s) (ih (s + 1))

/-- The initial persisted state of the decoder satisfies the invariant. -/
theorem p0_pinv (components : List ProductComponent) (machines : List Machine)
    (mch cch : ℚ) :
    PInv components (dictOf components (fun c => c.id) (fun c => c.quantity))
      mch cch 0
      { remaining := dictOf components (fun c => c.id) (fun c => c.quantity),
        completion := [], owner := [],
        msMold := dictOf machines (fun m => m.id) (fun _ => none),
        msColor := dictOf machines (fun m => m.id) (fun _ => none),
        msLast := dictOf machines (fun m => m.id) (fun _ => none),
        tasks := [] } := by
  refine {
    taskPos := ?_
    dayLe := ?_
    dayMono := List.Pairwise.nil
    seqMono := List.Pairwise.nil
    moldDisj := List.Pairwise.nil
    remKeysNodup := nodupKeys_dictOf _ _ _
    remCons := fun cid => Iff.rfl
    remSum := ?_
    remNonneg := ?_
    prodComp := ?_
    prodCid := by intro t ht htp; cases ht
    owned := ?_
    complRem := ?_
    complWitness := ?_
    complLast := ?_ }
  · intro t ht
    cases ht
  · intro t ht
    cases ht
  · intro cid q hq
    exact ⟨q, hq, by simp [producedSum, producesOf]⟩
  · intro cid q hq
    exact Or.inr ⟨by simp [producedSum, producesOf], hq⟩
  · intro t ht
    cases ht
  · intro t ht
    cases ht
  · intro p d h hc
    cases hc
  · intro p d h hc
    cases hc
  · intro p d h hc
    cases hc

/-- On any successful decode the final persisted state satisfies the
invariant, and the output is its task list together with the positive
leftovers. -/
theorem decode_pinv (genome : List String) (components : List ProductComponent)
    (machines : List Machine) (molds : List Mold) (month_days : Nat)
    (mch cch : ℚ) (tasks : List Task) (unmet : List (String × Int))
    (h : _decode_v2 genome components machines molds month_days mch cch
      = .ok (tasks, unmet)) :
    ∃ b pEnd, PInv components
      (dictOf components (fun c => c.id) (fun c => c.quantity)) mch cch b
      pEnd ∧
      tasks = pEnd.tasks ∧
      unmet = pEnd.remaining.filter (fun q => 0 < q.2) := by
  unfold _decode_v2 at h
  cases htopo : _topological_order components with
  | error e =>
    rw [htopo] at h
    cases h
  | ok topo =>
    rw [htopo] at h
    dsimp only [] at h
    simp only [Except.ok.injEq, Prod.mk.injEq] at h
    obtain ⟨h1, h2⟩ := h
    have hall : ∀ c ∈ compOrder genome topo, c ∈ components := by
      intro c hc
      have hct : c ∈ topo := (List.perm_insertionSort _ _).subset hc
      exact topo_mem components topo htopo c hct
    obtain ⟨b2, hP⟩ := runDays_inv components
      (dictOf components (fun c => c.id) (fun c => c.quantity)) mch cch
      (compOrder genome topo) molds
      (dictOf molds (fun m => m.id) (fun m => m)) machines
      (genomeRank genome) (dayFuel components machines) hall
      (List.range' 1 month_days) 0
      { remaining := dictOf components (fun c => c.id) (fun c => c.quantity),
        completion := [], owner := [],
        msMold := dictOf machines (fun m => m.id) (fun _ => none),
        msColor := dictOf machines (fun m => m.id) (fun _ => none),
        msLast := dictOf machines (fun m => m.id) (fun _ => none),
        tasks := [] }
      (p0_pinv components machines mch cch)
      (chain_range_lt month_days 0)
    exact ⟨b2, _, hP, h1.symm, h2.symm⟩

/-- C1 (mold exclusivity): in every successful decode, any two tasks on the
same day that occupy the same mold — a PRODUCE via its `mold_id`, a
CHANGE_MOLD via its `to_mold_id` — have non-overlapping half-open
`[start_hour, end_hour)` intervals, machines notwithstanding. -/
theorem C1_mold_exclusivity (genome : List String)
    (components : List ProductComponent) (machines : List Machine)
    (molds : List Mold) (month_days : Nat) (mch cch : ℚ)
    (tasks : List Task) (unmet : List (String × Int))
    (h : _decode_v2 genome components machines molds month_days mch cch
      = .ok (tasks, unmet)) :
    tasks.Pairwise moldDisjoint := by
  obtain ⟨b, pEnd, hP, htasks, -⟩ := decode_pinv genome components machines
    molds month_days mch cch tasks unmet h
  rw [htasks]
  exact hP.moldDisj

theorem C1_mold_exclusivity_witness :
    ∃ tasks unmet,
      _decode_v2 ["C1", "C2"] [cW1, cW2] [mW] [dW] 2 0 0
        = Except.ok (tasks, unmet) ∧ tasks.Pairwise moldDisjoint := by
  obtain ⟨tasks, unmet, hdec⟩ :
      ∃ tasks unmet, _decode_v2 ["C1", "C2"] [cW1, cW2] [mW] [dW] 2 0 0
        = Except.ok (tasks, unmet) := ⟨_, _, rfl⟩
  exact ⟨tasks, unmet, hdec,
    C1_mold_exclusivity ["C1", "C2"] [cW1, cW2] [mW] [dW] 2 0 0 tasks unmet
      hdec⟩

/-- C9 (no zero-length tasks): every task of a successful decode has
strictly positive `used_hours` and `start_hour < end_hour`; every PRODUCE
task carries a quantity of at least one piece; and a CHANGE_MOLD
(resp. CHANGE_COLOR) task exists only when the mold (resp. color)
changeover duration is strictly positive. -/
theorem C9_no_zero_length_tasks (genome : List String)
    (components : List ProductComponent) (machines : List Machine)
    (molds : List Mold) (month_days : Nat) (mch cch : ℚ)
    (tasks : List Task) (unmet : List (String × Int))
    (h : _decode_v2 genome components machines molds month_days mch cch
      = .ok (tasks, unmet)) :
    ∀ t ∈ tasks, 0 < t.used_hours ∧ t.start_hour < t.end_hour ∧
      (t.task_type = TaskType.PRODUCE →
        ∃ q, t.produced_qty = some q ∧ 1 ≤ q) ∧
      (t.task_type = TaskType.CHANGE_MOLD → 0 < mch) ∧
      (t.task_type = TaskType.CHANGE_COLOR → 0 < cch) := by
  obtain ⟨b, pEnd, hP, htasks, -⟩ := decode_pinv genome components machines
    molds month_days mch cch tasks unmet h
  rw [htasks]
  exact hP.taskPos

theorem C9_no_zero_length_tasks_witness :
    ∃ tasks unmet,
      _decode_v2 ["C1", "C2"] [cW1, cW2] [mW] [dW] 2 0 0
        = Except.ok (tasks, unmet) ∧
      ∀ t ∈ tasks, 0 < t.used_hours ∧ t.start_hour < t.end_hour ∧
        (t.task_type = TaskType.PRODUCE →
          ∃ q, t.produced_qty = some q ∧ 1 ≤ q) ∧
        (t.task_type = TaskType.CHANGE_MOLD → (0 : ℚ) < 0) ∧
        (t.task_type = TaskType.CHANGE_COLOR → (0 : ℚ) < 0) := by
  obtain ⟨tasks, unmet, hdec⟩ :
      ∃ tasks unmet, _decode_v2 ["C1", "C2"] [cW1, cW2] [mW] [dW] 2 0 0
        = Except.ok (tasks, unmet) := ⟨_, _, rfl⟩
  exact ⟨tasks, unmet, hdec,
    C9_no_zero_length_tasks ["C1", "C2"] [cW1, cW2] [mW] [dW] 2 0 0 tasks
      unmet hdec⟩

theorem dget_filter_some_pos (l : List (String × α)) (p : String × α → Bool)
    (k : String) (v : α) (hnd : (l.map (fun q => q.1)).Nodup)
    (h : dget l k = some v) (hp : p (k, v) = true) :
    dget (l.filter p) k = some v := by
  have hmem : (k, v) ∈ l.filter p :=
    List.mem_filter.mpr ⟨dget_some_mem l k v h, hp⟩
  have hnd2 : ((l.filter p).map (fun q => q.1)).Nodup :=
    hnd.sublist ((List.filter_sublist l).map (fun q => q.1))
  exact dget_of_mem_nodup _ _ _ hnd2 hmem

theorem dget_filter_some_neg (l : List (String × α)) (p : String × α → Bool)
    (k : String) (v : α) (hnd : (l.map (fun q => q.1)).Nodup)
    (h : dget l k = some v) (hp : p (k, v) = false) :
    dget (l.filter p) k = none := by
  rw [dget_eq_none_iff]
  intro hk
  obtain ⟨q, hq, hqk⟩ := List.mem_map.mp hk
  have hql : q ∈ l := List.mem_of_mem_filter hq
  have hqp : p q = true := List.of_mem_filter hq
  have hqv : q = (k, v) := by
    obtain ⟨q1, q2⟩ := q
    simp only [] at hqk
    subst hqk
    have := dget_of_mem_nodup l q1 q2 hnd hql
    rw [h] at this
    have : v = q2 := by injection this
    rw [this]
  rw [hqv, hp] at hqp
  cases hqp

/-- C2 counterexample: a component with a negative requested quantity is
never produced and never reported unmet, so the produced-plus-unmet total
is `0`, not the initial quantity. -/
theorem C2_counterexample :
    ∃ tasks unmet,
      _decode_v2 ["N"] [cNeg] [] [] 1 0 0 = Except.ok (tasks, unmet) ∧
      producedSum tasks cNeg.id + dgetD unmet cNeg.id 0 ≠ cNeg.quantity := by
  exact ⟨[], [], rfl, by decide⟩

/-- C2 (amended): when component ids are distinct and every requested
quantity is non-negative, every successful decode conserves quantities —
produced plus unmet equals the request — and the unmet map holds exactly
the components with a strictly positive leftover, mapped to it. -/
theorem C2_amended (genome : List String) (components : List ProductComponent)
    (machines : List Machine) (molds : List Mold) (month_days : Nat)
    (mch cch : ℚ) (tasks : List Task) (unmet : List (String × Int))
    (hnd : (components.map (fun c => c.id)).Nodup)
    (hq : ∀ c ∈ components, 0 ≤ c.quantity)
    (h : _decode_v2 genome components machines molds month_days mch cch
      = .ok (tasks, unmet)) :
    (∀ c ∈ components,
      producedSum tasks c.id + dgetD unmet c.id 0 = c.quantity ∧
      (0 < c.quantity - producedSum tasks c.id →
        dget unmet c.id = some (c.quantity - producedSum tasks c.id)) ∧
      (c.quantity - producedSum tasks c.id ≤ 0 →
        dget unmet c.id = none)) ∧
    (∀ e ∈ unmet, 0 < e.2) := by
  obtain ⟨b, pEnd, hP, htasks, hunmet⟩ := decode_pinv genome components
    machines molds month_days mch cch tasks unmet h
  subst htasks
  constructor
  · intro c hc
    have hrem0 : dget (dictOf components (fun c => c.id) (fun c => c.quantity))
        c.id = some c.quantity := by
      rw [dictOf_eq_map components _ _ hnd]
      apply dget_of_mem_nodup
      · simpa [List.map_map, Function.comp] using hnd
      · exact List.mem_map.mpr ⟨c, hc, rfl⟩
    have hsome : (dget pEnd.remaining c.id).isSome :=
      (hP.remCons c.id).mpr (by simp [hrem0])
    obtain ⟨q, hqv⟩ := Option.isSome_iff_exists.mp hsome
    obtain ⟨q0, hq0, hsum⟩ := hP.remSum c.id q hqv
    rw [hrem0] at hq0
    have hq0c : c.quantity = q0 := by injection hq0
    have hqnn : 0 ≤ q := by
      rcases hP.remNonneg c.id q hqv with h1 | ⟨h1, h2⟩
      · exact h1
      · rw [hrem0] at h2
        have hcq : c.quantity = q := by injection h2
        rw [← hcq]
        exact hq c hc
    have hqeq : q = c.quantity - producedSum pEnd.tasks c.id := by omega
    by_cases hpos : 0 < q
    · have hu : dget unmet c.id = some q := by
        rw [hunmet]
        exact dget_filter_some_pos _ _ _ _ hP.remKeysNodup hqv
          (by simpa using hpos)
      refine ⟨?_, ?_, ?_⟩
      · rw [dgetD, hu]
        simp only [Option.getD]
        omega
      · intro hlt
        rw [hu, hqeq]
      · intro hle
        exfalso
        omega
    · have hq0z : q = 0 := by omega
      have hu : dget unmet c.id = none := by
        rw [hunmet]
        exact dget_filter_some_neg _ _ _ _ hP.remKeysNodup hqv
          (by simp [hq0z])
      refine ⟨?_, ?_, ?_⟩
      · rw [dgetD, hu]
        simp only [Option.getD]
        omega
      · intro hlt
        exfalso
        omega
      · intro hle
        exact hu
  · intro e he
    rw [hunmet] at he
    have := List.of_mem_filter he
    simpa using this

theorem C2_amended_witness :
    ∃ tasks unmet,
      _decode_v2 ["C1", "C2"] [cW1, cW2] [mW] [dW] 2 0 0
        = Except.ok (tasks, unmet) ∧
      (((∀ c ∈ [cW1, cW2],
        producedSum tasks c.id + dgetD unmet c.id 0 = c.quantity ∧
        (0 < c.quantity - producedSum tasks c.id →
          dget unmet c.id = some (c.quantity - producedSum tasks c.id)) ∧
        (c.quantity - producedSum tasks c.id ≤ 0 →
          dget unmet c.id = none)) ∧
      (∀ e ∈ unmet, 0 < e.2))) := by
  obtain ⟨tasks, unmet, hdec⟩ :
      ∃ tasks unmet, _decode_v2 ["C1", "C2"] [cW1, cW2] [mW] [dW] 2 0 0
        = Except.ok (tasks, unmet) := ⟨_, _, rfl⟩
  exact ⟨tasks, unmet, hdec,
    C2_amended ["C1", "C2"] [cW1, cW2] [mW] [dW] 2 0 0 tasks unmet
      (by decide) (by decide) hdec⟩

/-- C3 (prerequisite order): in every successful decode, every PRODUCE
task of a component starts no earlier (same day, up to EPS) than the end
of every PRODUCE task of each of its prerequisites — in particular the
first PRODUCE of the component against the last PRODUCE of the
prerequisite. -/
theorem C3_prereq_order (genome : List String)
    (components : List ProductComponent) (machines : List Machine)
    (molds : List Mold) (month_days : Nat) (mch cch : ℚ)
    (tasks : List Task) (unmet : List (String × Int))
    (h : _decode_v2 genome components machines molds month_days mch cch
      = .ok (tasks, unmet)) :
    ∀ t ∈ tasks, t.task_type = TaskType.PRODUCE → ∀ cid,
      t.component_id = some cid →
      ∃ comp ∈ components, comp.id = cid ∧
        ∀ pr ∈ comp.prerequisites, ∀ t2 ∈ tasks,
          t2.task_type = TaskType.PRODUCE → t2.component_id = some pr →
          t2.day < t.day ∨
          (t2.day = t.day ∧ t2.end_hour ≤ t.start_hour + EPS) := by
  obtain ⟨b, pEnd, hP, htasks, -⟩ := decode_pinv genome components machines
    molds month_days mch cch tasks unmet h
  subst htasks
  intro t ht htp cid hcid
  obtain ⟨-, comp, hcm, hid, hpr⟩ := hP.prodComp t ht htp cid hcid
  refine ⟨comp, hcm, hid, ?_⟩
  intro pr hprm t2 ht2 ht2p ht2c
  obtain ⟨d, hh, hcl, hb⟩ := hpr pr hprm
  have hlast := hP.complLast pr d hh hcl t2 ht2 ht2p ht2c
  rcases hb with h1 | ⟨h2, h3⟩
  · rcases hlast with l1 | ⟨l2, l3⟩
    · exact Or.inl (by omega)
    · exact Or.inl (by omega)
  · rcases hlast with l1 | ⟨l2, l3⟩
    · exact Or.inl (by omega)
    · refine Or.inr ⟨by omega, by linarith⟩

theorem C3_prereq_order_witness :
    ∃ tasks unmet,
      _decode_v2 ["C1", "C2"] [cW1, cW2] [mW] [dW] 2 0 0
        = Except.ok (tasks, unmet) ∧
      ∀ t ∈ tasks, t.task_type = TaskType.PRODUCE → ∀ cid,
        t.component_id = some cid →
        ∃ comp ∈ [cW1, cW2], comp.id = cid ∧
          ∀ pr ∈ comp.prerequisites, ∀ t2 ∈ tasks,
            t2.task_type = TaskType.PRODUCE → t2.component_id = some pr →
            t2.day < t.day ∨
            (t2.day = t.day ∧ t2.end_hour ≤ t.start_hour + EPS) := by
  obtain ⟨tasks, unmet, hdec⟩ :
      ∃ tasks unmet, _decode_v2 ["C1", "C2"] [cW1, cW2] [mW] [dW] 2 0 0
        = Except.ok (tasks, unmet) := ⟨_, _, rfl⟩
  exact ⟨tasks, unmet, hdec,
    C3_prereq_order ["C1", "C2"] [cW1, cW2] [mW] [dW] 2 0 0 tasks unmet hdec⟩

attribute [local semireducible] Rat.add Rat.mul Rat.sub Rat.inv Rat.ofScientific

theorem except_eq_ok_of_toOption (e : Except String GaResult) (a : GaResult)
    (h : e.toOption = some a) : e = Except.ok a := by
  cases e with
  | error err => simp [Except.toOption] at h
  | ok v =>
    simp [Except.toOption] at h
    rw [h]

/-- C6 counterexample: a run of the optimizer whose assignment list puts
machine M2 between two M1 tasks of the same day, so the output is not
sorted by day, then machine input order, then sequence. -/
theorem C6_counterexample :
    ∃ r, ga_optimize_v2 GUnit [cb1, cb2, cb3] [mb1, mb2] [db1, db2, db3]
        1 0 0 2 1 0 () = Except.ok r ∧
      ¬ orderedByDayMachineSeq [mb1, mb2] r.assignments := by
  have hr : ga_optimize_v2 GUnit [cb1, cb2, cb3] [mb1, mb2] [db1, db2, db3]
      1 0 0 2 1 0 () = Except.ok ((ga_optimize_v2 GUnit [cb1, cb2, cb3]
        [mb1, mb2] [db1, db2, db3] 1 0 0 2 1 0 ()).toOption.getD
        { assignments := [], unmet := [], score := 0 }) :=
    except_eq_ok_of_toOption _ _ (by decide)
  refine ⟨_, hr, ?_⟩
  unfold orderedByDayMachineSeq
  decide

/-- C6 (amended): the assignments returned by the optimizer are emitted in
day order (non-decreasing), and within one day and one machine the
sequence numbers strictly increase along the list; tasks of different
machines interleave within a day in event order, not machine input
order. -/
theorem C6_amended (γ : Type) (G : RandGen γ)
    (components : List ProductComponent) (machines : List Machine)
    (molds : List Mold) (month_days : Int) (mch cch : ℚ)
    (pop_size n_generations : Int) (mutation_rate : ℚ) (g : γ)
    (r : GaResult)
    (h : ga_optimize_v2 G components machines molds month_days mch cch
      pop_size n_generations mutation_rate g = .ok r) :
    r.assignments.Pairwise (fun t1 t2 => t1.day ≤ t2.day ∧
      (t1.day = t2.day → t1.machine_id = t2.machine_id →
        t1.sequence_in_day < t2.sequence_in_day)) := by
  unfold ga_optimize_v2 at h
  split at h
  · cases h
  · split at h
    · cases h
    · split at h
      · cases h
      · split at h
        · cases h
        · split at h
          split at h
          · cases h
          · cases h
          · rename_i bs bg hga
            split at h
            · cases h
            · rename_i ft fu hdec
              split at h
              · cases h
              · rename_i score hfit
                cases h
                obtain ⟨b, pEnd, hP, hft, -⟩ := decode_pinv bg components
                  machines molds month_days.toNat mch cch ft fu hdec
                subst hft
                show pEnd.tasks.Pairwise _
                exact hP.dayMono.and hP.seqMono

theorem C6_amended_witness :
    ∃ r, ga_optimize_v2 GUnit [cb1, cb2, cb3] [mb1, mb2] [db1, db2, db3]
        1 0 0 2 1 0 () = Except.ok r ∧
      r.assignments.Pairwise (fun t1 t2 => t1.day ≤ t2.day ∧
        (t1.day = t2.day → t1.machine_id = t2.machine_id →
          t1.sequence_in_day < t2.sequence_in_day)) := by
  have hr : ga_optimize_v2 GUnit [cb1, cb2, cb3] [mb1, mb2] [db1, db2, db3]
      1 0 0 2 1 0 () = Except.ok ((ga_optimize_v2 GUnit [cb1, cb2, cb3]
        [mb1, mb2] [db1, db2, db3] 1 0 0 2 1 0 ()).toOption.getD
        { assignments := [], unmet := [], score := 0 }) :=
    except_eq_ok_of_toOption _ _ (by decide)
  exact ⟨_, hr, C6_amended Unit GUnit [cb1, cb2, cb3] [mb1, mb2]
    [db1, db2, db3] 1 0 0 2 1 0 () _ hr⟩

/-! ### Claim C5: characterizing the graph-building pass -/

theorem contains_iff_mem (l : List String) (a : String) :
    l.contains a = true ↔ a ∈ l := by
  simp

theorem mem_edgesOf (components : List ProductComponent) (p q : String) :
    (p, q) ∈ edgesOf components ↔ prereqEdge components p q := by
  unfold edgesOf prereqEdge
  rw [List.mem_flatMap]
  constructor
  · rintro ⟨c, hc, hm⟩
    obtain ⟨pr, hpr, hpe⟩ := List.mem_map.mp hm
    have hp : pr = p := congrArg Prod.fst hpe
    have hq : c.id = q := congrArg Prod.snd hpe
    exact ⟨c, hc, hq, hp ▸ hpr⟩
  · rintro ⟨c, hc, hq, hp⟩
    exact ⟨c, hc, List.mem_map.mpr ⟨p, hp, by rw [hq]⟩⟩

theorem edgesOf_cons (c : ProductComponent) (rest : List ProductComponent) :
    edgesOf (c :: rest) =
      c.prerequisites.map (fun pr => (pr, c.id)) ++ edgesOf rest := by
  unfold edgesOf
  exact List.flatMap_cons c rest _

theorem edgesOf_snd_mem (components : List ProductComponent) :
    ∀ e ∈ edgesOf components, e.2 ∈ components.map (fun c => c.id) := by
  rintro ⟨p, q⟩ he
  obtain ⟨c, hc, hq, -⟩ := (mem_edgesOf components p q).mp he
  exact List.mem_map.mpr ⟨c, hc, hq⟩

theorem edgesOf_fst_mem (components : List ProductComponent)
    (hk : ¬ unknownPrereq components) :
    ∀ e ∈ edgesOf components, e.1 ∈ components.map (fun c => c.id) := by
  rintro ⟨p, q⟩ he
  obtain ⟨c, hc, -, hp⟩ := (mem_edgesOf components p q).mp he
  by_contra hcon
  exact hk ⟨c, hc, p, hp, hcon⟩

theorem addPrereqEdges_ok (ids : List String) (cid : String) :
    ∀ (prs : List String)
      (gi : List (String × List String) × List (String × Int)),
      (∀ pr ∈ prs, pr ∈ ids) →
      addPrereqEdges ids cid prs gi =
        Except.ok ((prs.map (fun pr => (pr, cid))).foldl addEdge gi) := by
  intro prs
  induction prs with
  | nil =>
    intro gi _
    obtain ⟨graph, indeg⟩ := gi
    rfl
  | cons pr rest ih =>
    intro gi h
    obtain ⟨graph, indeg⟩ := gi
    rw [addPrereqEdges, if_pos ((contains_iff_mem ids pr).mpr (h pr (by simp)))]
    rw [ih _ (fun x hx => h x (by simp [hx]))]
    rfl

theorem addPrereqEdges_error_iff (ids : List String) (cid : String) :
    ∀ (prs : List String)
      (gi : List (String × List String) × List (String × Int)),
      (∃ e, addPrereqEdges ids cid prs gi = Except.error e) ↔
        ∃ pr ∈ prs, pr ∉ ids := by
  intro prs
  induction prs with
  | nil =>
    intro gi
    obtain ⟨graph, indeg⟩ := gi
    constructor
    · rintro ⟨e, he⟩
      exact Except.noConfusion he
    · rintro ⟨pr, hpr, -⟩
      cases hpr
  | cons pr rest ih =>
    intro gi
    obtain ⟨graph, indeg⟩ := gi
    by_cases hc : pr ∈ ids
    · rw [addPrereqEdges, if_pos ((contains_iff_mem ids pr).mpr hc)]
      rw [ih]
      constructor
      · rintro ⟨x, hx, h⟩
        exact ⟨x, List.mem_cons_of_mem _ hx, h⟩
      · rintro ⟨x, hx, h⟩
        rcases List.mem_cons.mp hx with he | hm
        · exact absurd (he ▸ hc) h
        · exact ⟨x, hm, h⟩
    · rw [addPrereqEdges,
        if_neg (fun hcon => hc ((contains_iff_mem ids pr).mp hcon))]
      refine iff_of_true ⟨_, rfl⟩ ⟨pr, by simp, hc⟩

theorem buildPrereqGraph_ok (ids : List String) :
    ∀ (comps : List ProductComponent)
      (gi : List (String × List String) × List (String × Int)),
      (∀ c ∈ comps, ∀ pr ∈ c.prerequisites, pr ∈ ids) →
      buildPrereqGraph ids comps gi =
        Except.ok ((edgesOf comps).foldl addEdge gi) := by
  intro comps
  induction comps with
  | nil =>
    intro gi _
    rfl
  | cons c rest ih =>
    intro gi h
    rw [buildPrereqGraph,
      addPrereqEdges_ok ids c.id c.prerequisites gi (h c (by simp))]
    show buildPrereqGraph ids rest
      ((c.prerequisites.map (fun pr => (pr, c.id))).foldl addEdge gi) = _
    rw [ih _ (fun c2 h2 => h c2 (by simp [h2]))]
    rw [edgesOf_cons, List.foldl_append]

theorem buildPrereqGraph_error_iff (ids : List String) :
    ∀ (comps : List ProductComponent)
      (gi : List (String × List String) × List (String × Int)),
      (∃ e, buildPrereqGraph ids comps gi = Except.error e) ↔
        ∃ c ∈ comps, ∃ pr ∈ c.prerequisites, pr ∉ ids := by
  intro comps
  induction comps with
  | nil =>
    intro gi
    constructor
    · rintro ⟨e, he⟩
      exact Except.noConfusion he
    · rintro ⟨c, hc, -⟩
      cases hc
  | cons c rest ih =>
    intro gi
    by_cases hc : ∀ pr ∈ c.prerequisites, pr ∈ ids
    · rw [buildPrereqGraph, addPrereqEdges_ok ids c.id c.prerequisites gi hc]
      have hred : (∃ e, buildPrereqGraph ids rest
          ((c.prerequisites.map (fun pr => (pr, c.id))).foldl addEdge gi)
          = Except.error e) ↔
          ∃ c2 ∈ rest, ∃ pr ∈ c2.prerequisites, pr ∉ ids := ih _
      rw [hred]
      constructor
      · rintro ⟨c2, h2, pr, hpr, hno⟩
        exact ⟨c2, List.mem_cons_of_mem _ h2, pr, hpr, hno⟩
      · rintro ⟨c2, h2, pr, hpr, hno⟩
        rcases List.mem_cons.mp h2 with he | hm
        · exact absurd (hc pr (he ▸ hpr)) hno
        · exact ⟨c2, hm, pr, hpr, hno⟩
    · push_neg at hc
      obtain ⟨pr, hpr, hno⟩ := hc
      obtain ⟨e, he⟩ := (addPrereqEdges_error_iff ids c.id c.prerequisites
        gi).mpr ⟨pr, hpr, hno⟩
      rw [buildPrereqGraph, he]
      exact iff_of_true ⟨e, rfl⟩ ⟨c, by simp, pr, hpr, hno⟩

/-! ### Claim C5: the fold over the edge list -/

theorem dget_dset_isSome_iff (l : List (String × α)) (k k2 : String) (v : α) :
    (dget (dset l k v) k2).isSome ↔ k2 = k ∨ (dget l k2).isSome := by
  by_cases h : k2 = k
  · subst h
    rw [dget_dset_self]
    simp
  · rw [dget_dset_ne _ _ _ _ h]
    simp [h]

theorem addEdge_foldl_graph :
    ∀ (E : List (String × String))
      (gi : List (String × List String) × List (String × Int)) (p : String),
      dgetD (E.foldl addEdge gi).1 p [] =
        dgetD gi.1 p [] ++ (E.filter (fun e => e.1 == p)).map (fun e => e.2) := by
  intro E
  induction E with
  | nil =>
    intro gi p
    simp
  | cons e rest ih =>
    intro gi p
    rw [List.foldl_cons, ih]
    by_cases hp : e.1 = p
    · rw [List.filter_cons_of_pos (by simp [hp])]
      have h1 : dgetD (addEdge gi e).1 p [] = dgetD gi.1 p [] ++ [e.2] := by
        show dgetD (dset gi.1 e.1 (dgetD gi.1 e.1 [] ++ [e.2])) p [] = _
        rw [hp, dgetD_dset_self]
      rw [h1, List.map_cons, List.append_assoc, List.singleton_append]
    · rw [List.filter_cons_of_neg (by simp [hp])]
      have h1 : dgetD (addEdge gi e).1 p [] = dgetD gi.1 p [] := by
        show dgetD (dset gi.1 e.1 (dgetD gi.1 e.1 [] ++ [e.2])) p [] = _
        rw [dgetD_dset_ne _ _ _ _ _ (fun hpe => hp hpe.symm)]
      rw [h1]

theorem addEdge_foldl_indeg :
    ∀ (E : List (String × String))
      (gi : List (String × List String) × List (String × Int)) (x : String),
      dgetD (E.foldl addEdge gi).2 x 0 =
        dgetD gi.2 x 0 + ((E.filter (fun e => e.2 == x)).length : Int) := by
  intro E
  induction E with
  | nil =>
    intro gi x
    simp
  | cons e rest ih =>
    intro gi x
    rw [List.foldl_cons, ih]
    by_cases hx : e.2 = x
    · rw [List.filter_cons_of_pos (by simp [hx])]
      have h1 : dgetD (addEdge gi e).2 x 0 = dgetD gi.2 x 0 + 1 := by
        show dgetD (dset gi.2 e.2 (dgetD gi.2 e.2 0 + 1)) x 0 = _
        rw [hx, dgetD_dset_self]
      rw [h1, List.length_cons]
      push_cast
      ring
    · rw [List.filter_cons_of_neg (by simp [hx])]
      have h1 : dgetD (addEdge gi e).2 x 0 = dgetD gi.2 x 0 := by
        show dgetD (dset gi.2 e.2 (dgetD gi.2 e.2 0 + 1)) x 0 = _
        rw [dgetD_dset_ne _ _ _ _ _ (fun hpe => hx hpe.symm)]
      rw [h1]

theorem addEdge_foldl_keys (ids : List String) :
    ∀ (E : List (String × String))
      (gi : List (String × List String) × List (String × Int)),
      (∀ e ∈ E, e.2 ∈ ids) →
      (∀ x, (dget gi.2 x).isSome ↔ x ∈ ids) →
      ∀ x, (dget (E.foldl addEdge gi).2 x).isSome ↔ x ∈ ids := by
  intro E
  induction E with
  | nil =>
    intro gi _ hbase x
    exact hbase x
  | cons e rest ih =>
    intro gi hE hbase x
    rw [List.foldl_cons]
    refine ih (addEdge gi e) (fun e2 h2 => hE e2 (by simp [h2])) ?_ x
    intro y
    show (dget (dset gi.2 e.2 (dgetD gi.2 e.2 0 + 1)) y).isSome ↔ y ∈ ids
    rw [dget_dset_isSome_iff]
    constructor
    · rintro (he | hy)
      · exact he ▸ hE e (by simp)
      · exact (hbase y).mp hy
    · intro hy
      exact Or.inr ((hbase y).mpr hy)

theorem addEdge_foldl_nodupKeys :
    ∀ (E : List (String × String))
      (gi : List (String × List String) × List (String × Int)),
      (gi.2.map (fun p => p.1)).Nodup →
      ((E.foldl addEdge gi).2.map (fun p => p.1)).Nodup := by
  intro E
  induction E with
  | nil =>
    intro gi h
    exact h
  | cons e rest ih =>
    intro gi h
    rw [List.foldl_cons]
    exact ih (addEdge gi e) (nodupKeys_dset _ _ _ h)

theorem dget_dictOf_isSome (l : List α) (key : α → String) (val : α → β)
    (k : String) :
    (dget (dictOf l key val) k).isSome ↔ k ∈ l.map key := by
  suffices hgen : ∀ acc : List (String × β),
      (dget (l.foldl (fun a x => dset a (key x) (val x)) acc) k).isSome ↔
        k ∈ l.map key ∨ (dget acc k).isSome by
    have := hgen []
    rw [dget_nil] at this
    simpa [dictOf] using this
  induction l with
  | nil =>
    intro acc
    simp
  | cons x rest ih =>
    intro acc
    rw [List.foldl_cons, ih (dset acc (key x) (val x)),
      dget_dset_isSome_iff]
    simp only [List.map_cons, List.mem_cons]
    tauto

theorem dgetD_dictOf_const (l : List α) (key : α → String) (b : β)
    (k : String) :
    dgetD (dictOf l key (fun _ => b)) k b = b := by
  cases h : dget (dictOf l key fun _ => b) k with
  | none => simp [dgetD, h]
  | some v =>
    obtain ⟨a, -, -, hv⟩ := dget_dictOf_mem l key (fun _ => b) k v h
    simp [dgetD, h, ← hv]

/-! ### Claim C5: the neighbor-processing pass of one Kahn step -/

theorem processNeighbors_spec :
    ∀ (lst : List String) (indeg : List (String × Int)) (queue : List String),
      (∀ x, (lst.count x : Int) ≤ dgetD indeg x 0) →
      (∀ n ∈ lst, (dget indeg n).isSome) →
      (∀ x, dgetD (processNeighbors lst indeg queue).1 x 0
          = dgetD indeg x 0 - (lst.count x : Int)) ∧
      (∀ x, (dget (processNeighbors lst indeg queue).1 x).isSome
          ↔ (dget indeg x).isSome) ∧
      ∃ newq, (processNeighbors lst indeg queue).2 = queue ++ newq ∧
        newq.Nodup ∧
        (∀ x, x ∈ newq ↔ x ∈ lst ∧ dgetD indeg x 0 = (lst.count x : Int)) := by
  intro lst
  induction lst with
  | nil =>
    intro indeg queue _ _
    refine ⟨fun x => by simp [processNeighbors], fun x => Iff.rfl,
      [], by simp [processNeighbors], List.nodup_nil, fun x => ?_⟩
    simp
  | cons nxt rest ih =>
    intro indeg queue h0 hkeys
    have hnn : (dget indeg nxt).isSome := hkeys nxt (by simp)
    have hcnt_nxt : ((nxt :: rest).count nxt : Int) = (rest.count nxt : Int) + 1 := by
      rw [List.count_cons]
      simp
    have hcnt_ne : ∀ x, x ≠ nxt → ((nxt :: rest).count x : Int) = (rest.count x : Int) := by
      intro x hx
      have hne : nxt ≠ x := fun h => hx h.symm
      simp [List.count_cons, hne]
    set d : Int := dgetD indeg nxt 0 - 1 with hd
    set indeg1 : List (String × Int) := dset indeg nxt d with hindeg1
    have hdg1_self : dgetD indeg1 nxt 0 = d := by
      rw [hindeg1, dgetD_dset_self]
    have hdg1_ne : ∀ x, x ≠ nxt → dgetD indeg1 x 0 = dgetD indeg x 0 := by
      intro x hx
      rw [hindeg1, dgetD_dset_ne _ _ _ _ _ hx]
    have hkeys1 : ∀ n ∈ rest, (dget indeg1 n).isSome := by
      intro n hn
      rw [hindeg1]
      rw [dget_dset_isSome_iff]
      exact Or.inr (hkeys n (by simp [hn]))
    have hkeys1_iff : ∀ x, (dget indeg1 x).isSome ↔ (dget indeg x).isSome := by
      intro x
      rw [hindeg1, dget_dset_isSome_iff]
      constructor
      · rintro (he | hx)
        · exact he ▸ hnn
        · exact hx
      · exact Or.inr
    have h0' : ∀ x, (rest.count x : Int) ≤ dgetD indeg1 x 0 := by
      intro x
      by_cases hx : x = nxt
      · subst hx
        rw [hdg1_self, hd]
        have := h0 x
        rw [hcnt_nxt] at this
        omega
      · rw [hdg1_ne x hx]
        have := h0 x
        rw [hcnt_ne x hx] at this
        exact this
    -- unfold one step of processNeighbors
    have hstep : processNeighbors (nxt :: rest) indeg queue =
        if d == 0 then processNeighbors rest indeg1 (queue ++ [nxt])
        else processNeighbors rest indeg1 queue := by
      rw [processNeighbors]
    by_cases hd0 : d = 0
    · rw [hstep, if_pos (by simp [hd0])]
      obtain ⟨hc, hk, newq, hq, hnd, hmem⟩ := ih indeg1 (queue ++ [nxt]) h0' hkeys1
      have hrest0 : (rest.count nxt : Int) = 0 := by
        have := h0' nxt
        rw [hdg1_self, hd0] at this
        omega
      refine ⟨?_, ?_, nxt :: newq, ?_, ?_, ?_⟩
      · intro x
        rw [hc x]
        by_cases hx : x = nxt
        · subst hx
          rw [hdg1_self, hcnt_nxt, hd]
          omega
        · rw [hdg1_ne x hx, hcnt_ne x hx]
      · intro x
        rw [hk x]
        exact hkeys1_iff x
      · rw [hq, List.append_assoc, List.singleton_append]
      · refine List.Nodup.cons ?_ hnd
        intro hmemn
        have := (hmem nxt).mp hmemn
        have hpos : 0 < rest.count nxt := List.count_pos_iff.mpr this.1
        omega
      · intro x
        rw [List.mem_cons, hmem x]
        by_cases hx : x = nxt
        · subst hx
          refine iff_of_true (Or.inl rfl) ⟨by simp, ?_⟩
          rw [hcnt_nxt, hrest0, hd] at *
          omega
        · constructor
          · rintro (he | ⟨hm, hv⟩)
            · exact absurd he hx
            · rw [hdg1_ne x hx] at hv
              rw [hcnt_ne x hx]
              exact ⟨by simp [hm], hv⟩
          · rintro ⟨hm, hv⟩
            rcases List.mem_cons.mp hm with he | hm2
            · exact absurd he hx
            · refine Or.inr ⟨hm2, ?_⟩
              rw [hdg1_ne x hx]
              rw [hcnt_ne x hx] at hv
              exact hv
    · rw [hstep, if_neg (by simp [hd0])]
      obtain ⟨hc, hk, newq, hq, hnd, hmem⟩ := ih indeg1 queue h0' hkeys1
      refine ⟨?_, ?_, newq, hq, hnd, ?_⟩
      · intro x
        rw [hc x]
        by_cases hx : x = nxt
        · subst hx
          rw [hdg1_self, hcnt_nxt, hd]
          omega
        · rw [hdg1_ne x hx, hcnt_ne x hx]
      · intro x
        rw [hk x]
        exact hkeys1_iff x
      · intro x
        rw [hmem x]
        by_cases hx : x = nxt
        · subst hx
          rw [hdg1_self, hcnt_nxt]
          constructor
          · rintro ⟨hm, hv⟩
            have hpos : 0 < rest.count x := List.count_pos_iff.mpr hm
            refine ⟨by simp, ?_⟩
            rw [hd] at hv
            omega
          · rintro ⟨-, hv⟩
            have hmr : x ∈ rest := by
              by_contra hnr
              have : rest.count x = 0 := List.count_eq_zero.mpr hnr
              rw [this] at hv
              simp at hv
              rw [hd] at hd0
              omega
            refine ⟨hmr, ?_⟩
            rw [hd]
            omega
        · rw [hdg1_ne x hx, hcnt_ne x hx]
          constructor
          · rintro ⟨hm, hv⟩
            exact ⟨by simp [hm], hv⟩
          · rintro ⟨hm, hv⟩
            rcases List.mem_cons.mp hm with he | hm2
            · exact absurd he hx
            · exact ⟨hm2, hv⟩

/-! ### Claim C5: one step of the Kahn loop preserves the invariant -/

theorem length_filter_mono (l : List α) (p q : α → Bool)
    (h : ∀ a ∈ l, p a = true → q a = true) :
    (l.filter p).length ≤ (l.filter q).length := by
  rw [← List.countP_eq_length_filter, ← List.countP_eq_length_filter]
  exact List.countP_mono_left h

theorem count_filter_map_snd (E : List (String × String)) (c x : String) :
    ((E.filter (fun e => e.1 == c)).map (fun e => e.2)).count x
      = (E.filter (fun e => e.1 == c && e.2 == x)).length := by
  induction E with
  | nil => rfl
  | cons e rest ih =>
    by_cases hc : e.1 = c
    · by_cases hx : e.2 = x
      · rw [List.filter_cons_of_pos (by simp [hc]), List.map_cons,
          List.filter_cons_of_pos (by simp [hc, hx]), List.count_cons,
          List.length_cons, ih]
        simp [hx]
      · rw [List.filter_cons_of_pos (by simp [hc]), List.map_cons,
          List.filter_cons_of_neg (by simp [hx]), List.count_cons, ih]
        simp [hx]
    · rw [List.filter_cons_of_neg (by simp [hc]),
        List.filter_cons_of_neg (by simp [hc])]
      exact ih

theorem pendIn_snoc (E : List (String × String)) (out : List String)
    (cid x : String) (hc : cid ∉ out) :
    (pendIn E (out ++ [cid]) x : Int) =
      (pendIn E out x : Int) -
        ((E.filter (fun e => e.1 == cid && e.2 == x)).length : Int) := by
  unfold pendIn
  induction E with
  | nil => simp
  | cons e rest ih =>
    by_cases h2 : e.2 = x
    · by_cases h1o : e.1 ∈ out
      · have hne : ¬ e.1 = cid := fun h => hc (h ▸ h1o)
        rw [List.filter_cons_of_neg (by simp [h1o]),
          List.filter_cons_of_neg (by simp [h1o]),
          List.filter_cons_of_neg (by simp [hne])]
        exact ih
      · by_cases h1c : e.1 = cid
        · rw [List.filter_cons_of_neg (by simp [h1c]),
            List.filter_cons_of_pos (by simp [h2, h1o]),
            List.filter_cons_of_pos (by simp [h1c, h2]),
            List.length_cons, List.length_cons]
          push_cast
          push_cast at ih
          omega
        · rw [List.filter_cons_of_pos (by simp [h2, h1o, h1c]),
            List.filter_cons_of_pos (by simp [h2, h1o]),
            List.filter_cons_of_neg (by simp [h1c]),
            List.length_cons, List.length_cons]
          push_cast
          push_cast at ih
          omega
    · rw [List.filter_cons_of_neg (by simp [h2]),
        List.filter_cons_of_neg (by simp [h2]),
        List.filter_cons_of_neg (by simp [h2])]
      exact ih

theorem indexOf_append_left (l1 l2 : List String) (a : String) (h : a ∈ l1) :
    (l1 ++ l2).indexOf a = l1.indexOf a := by
  induction l1 with
  | nil => cases h
  | cons b rest ih =>
    by_cases hba : b = a
    · simp [List.indexOf_cons, hba]
    · have hbeq : (b == a) = false := by simp [hba]
      have ha : a ∈ rest := by
        rcases List.mem_cons.mp h with he | hm
        · exact absurd he.symm hba
        · exact hm
      rw [List.cons_append]
      simp [List.indexOf_cons, hbeq, ih ha]

theorem indexOf_append_not_mem (l1 l2 : List String) (a : String)
    (h : a ∉ l1) :
    (l1 ++ l2).indexOf a = l1.length + l2.indexOf a := by
  induction l1 with
  | nil => simp
  | cons b rest ih =>
    simp only [List.mem_cons, not_or] at h
    have hne : b ≠ a := fun he => h.1 he.symm
    have hbeq : (b == a) = false := by simp [hne]
    rw [List.cons_append]
    simp only [List.indexOf_cons, hbeq, cond_false, List.length_cons,
      ih h.2]
    omega

theorem kahn_step (ids : List String) (E : List (String × String))
    (graph : List (String × List String))
    (hgraph : ∀ c, dgetD graph c [] =
      (E.filter (fun e => e.1 == c)).map (fun e => e.2))
    (hE2 : ∀ e ∈ E, e.2 ∈ ids)
    (out queue : List String) (indeg : List (String × Int)) (cid : String)
    (hK : KInv ids E out (cid :: queue) indeg) :
    KInv ids E (out ++ [cid])
      (processNeighbors (dgetD graph cid []) indeg queue).2
      (processNeighbors (dgetD graph cid []) indeg queue).1 := by
  set lst := dgetD graph cid [] with hlst
  have hnodup := hK.outq_nodup
  have hcid_not_out : cid ∉ out := by
    rw [List.nodup_append] at hnodup
    intro hco
    exact hnodup.2.2 hco (by simp)
  have hcount_lst : ∀ x, (lst.count x : Int) =
      ((E.filter (fun e => e.1 == cid && e.2 == x)).length : Int) := by
    intro x
    rw [hlst, hgraph cid, count_filter_map_snd]
  have hlst_ids : ∀ n ∈ lst, n ∈ ids := by
    intro n hn
    rw [hlst, hgraph cid] at hn
    obtain ⟨e, hef, hes⟩ := List.mem_map.mp hn
    exact hes ▸ hE2 e (List.mem_of_mem_filter hef)
  have h0 : ∀ x, (lst.count x : Int) ≤ dgetD indeg x 0 := by
    intro x
    rw [hcount_lst x, hK.count x]
    have hmono : (E.filter (fun e => e.1 == cid && e.2 == x)).length ≤
        pendIn E out x := by
      unfold pendIn
      refine length_filter_mono E _ _ ?_
      intro e he hpe
      simp only [Bool.and_eq_true, beq_iff_eq] at hpe
      simp only [Bool.and_eq_true, beq_iff_eq, Bool.not_eq_true',
        decide_eq_false_iff_not]
      exact ⟨hpe.2, hpe.1 ▸ hcid_not_out⟩
    exact_mod_cast hmono
  have hkeys_lst : ∀ n ∈ lst, (dget indeg n).isSome :=
    fun n hn => (hK.keys n).mpr (hlst_ids n hn)
  obtain ⟨hc, hkeys2, newq, hq, hnodup_newq, hmem⟩ :=
    processNeighbors_spec lst indeg queue h0 hkeys_lst
  have hcount2 : ∀ x, dgetD (processNeighbors lst indeg queue).1 x 0 =
      (pendIn E (out ++ [cid]) x : Int) := by
    intro x
    rw [hc x, hK.count x, hcount_lst x, pendIn_snoc E out cid x hcid_not_out]
  have hnewq_inlst : ∀ x ∈ newq, x ∈ lst := fun x hx => ((hmem x).mp hx).1
  have hnewq_pos : ∀ x ∈ newq, 0 < (lst.count x : Int) := by
    intro x hx
    have := List.count_pos_iff.mpr (hnewq_inlst x hx)
    exact_mod_cast this
  have hnewq_not_old : ∀ x ∈ newq, x ∉ out ++ cid :: queue := by
    intro x hx hmem_old
    have h1 := hK.mem_zero x hmem_old
    have h2 := ((hmem x).mp hx).2
    have h3 := hnewq_pos x hx
    omega
  refine {
    outq_nodup := ?_
    outq_sub := ?_
    keys := ?_
    count := hcount2
    zero_mem := ?_
    mem_zero := ?_
    queue_pred := ?_
    out_order := ?_ }
  · rw [hq]
    have hperm : ((out ++ [cid]) ++ (queue ++ newq)) =
        (out ++ cid :: queue) ++ newq := by
      simp [List.append_assoc]
    rw [hperm, List.nodup_append]
    exact ⟨hK.outq_nodup, hnodup_newq,
      fun a ha han => hnewq_not_old a han ha⟩
  · intro x hx
    rcases List.mem_append.mp hx with h1 | h2
    · rcases List.mem_append.mp h1 with ho | hcid'
      · exact hK.outq_sub x (by simp [ho])
      · have hxe : x = cid := by simpa using hcid'
        exact hK.outq_sub x (by simp [hxe])
    · rw [hq] at h2
      rcases List.mem_append.mp h2 with hqo | hnq
      · exact hK.outq_sub x (by simp [hqo])
      · exact hlst_ids x (hnewq_inlst x hnq)
  · intro x
    rw [hkeys2 x]
    exact hK.keys x
  · intro x hxids hz
    rw [hc x] at hz
    by_cases hcnt : (lst.count x : Int) = 0
    · have hz0 : dgetD indeg x 0 = 0 := by omega
      have hold := hK.zero_mem x hxids hz0
      rw [hq]
      rcases List.mem_append.mp hold with ho | hcq
      · simp [ho]
      · rcases List.mem_cons.mp hcq with he | hqm
        · simp [he]
        · simp [hqm]
    · have hnn : (0:Int) ≤ (lst.count x : Int) := Int.ofNat_nonneg _
      have hpos : 0 < (lst.count x : Int) := by omega
      have hxin : x ∈ lst := by
        have hp2 : 0 < lst.count x := by exact_mod_cast hpos
        exact List.count_pos_iff.mp hp2
      have heq : dgetD indeg x 0 = (lst.count x : Int) := by omega
      have hx_new : x ∈ newq := (hmem x).mpr ⟨hxin, heq⟩
      rw [hq]
      simp [hx_new]
  · intro x hx
    rw [hc x]
    have hx_cases : x ∈ out ++ cid :: queue ∨ x ∈ newq := by
      rcases List.mem_append.mp hx with h1 | h2
      · rcases List.mem_append.mp h1 with ho | hcid'
        · exact Or.inl (by simp [ho])
        · have hxe : x = cid := by simpa using hcid'
          exact Or.inl (by simp [hxe])
      · rw [hq] at h2
        rcases List.mem_append.mp h2 with hqo | hnq
        · exact Or.inl (by simp [hqo])
        · exact Or.inr hnq
    rcases hx_cases with hold | hnew
    · have h1 := hK.mem_zero x hold
      have h2 := h0 x
      have h3 : (0:Int) ≤ (lst.count x : Int) := Int.ofNat_nonneg _
      omega
    · have := ((hmem x).mp hnew).2
      omega
  · intro x hxq e heE he2
    rw [hq] at hxq
    rcases List.mem_append.mp hxq with hqo | hnq
    · have h1 := hK.queue_pred x (by simp [hqo]) e heE he2
      simp [h1]
    · have hz : dgetD (processNeighbors lst indeg queue).1 x 0 = 0 := by
        rw [hc x]
        have := ((hmem x).mp hnq).2
        omega
      rw [hcount2 x] at hz
      have hz2 : pendIn E (out ++ [cid]) x = 0 := by exact_mod_cast hz
      unfold pendIn at hz2
      rw [List.length_eq_zero] at hz2
      have hall := List.filter_eq_nil_iff.mp hz2 e heE
      simp only [Bool.and_eq_true, beq_iff_eq, Bool.not_eq_true',
        decide_eq_false_iff_not, not_and] at hall
      by_contra hcon
      exact (hall he2) hcon
  · intro e heE he2
    rcases List.mem_append.mp he2 with ho | hcid'
    · obtain ⟨h1, h2⟩ := hK.out_order e heE ho
      refine ⟨by simp [h1], ?_⟩
      rw [indexOf_append_left out [cid] e.1 h1,
        indexOf_append_left out [cid] e.2 ho]
      exact h2
    · have he2c : e.2 = cid := by simpa using hcid'
      have h1 : e.1 ∈ out := hK.queue_pred cid (by simp) e heE he2c
      refine ⟨by simp [h1], ?_⟩
      rw [indexOf_append_left out [cid] e.1 h1, he2c,
        indexOf_append_not_mem out [cid] cid hcid_not_out]
      have hlt : out.indexOf e.1 < out.length :=
        List.indexOf_lt_length.mpr h1
      simpa using hlt

theorem nodup_length_le (l s : List String) (hnd : l.Nodup)
    (hsub : ∀ x ∈ l, x ∈ s) : l.length ≤ s.length := by
  calc l.length = l.toFinset.card := (List.toFinset_card_of_nodup hnd).symm
    _ ≤ s.toFinset.card := Finset.card_le_card
        (fun x hx => List.mem_toFinset.mpr (hsub x (List.mem_toFinset.mp hx)))
    _ ≤ s.length := List.toFinset_card_le s

theorem kahnLoop_spec (ids : List String) (E : List (String × String))
    (graph : List (String × List String))
    (hgraph : ∀ c, dgetD graph c [] =
      (E.filter (fun e => e.1 == c)).map (fun e => e.2))
    (hE2 : ∀ e ∈ E, e.2 ∈ ids) :
    ∀ (fuel : Nat) (out queue : List String) (indeg : List (String × Int)),
      KInv ids E out queue indeg →
      ids.length ≤ fuel + out.length →
      KInv ids E (kahnLoop graph fuel queue indeg out).1 []
        (kahnLoop graph fuel queue indeg out).2 := by
  intro fuel
  induction fuel with
  | zero =>
    intro out queue indeg hK hfuel
    cases queue with
    | nil => exact hK
    | cons c rest =>
      exfalso
      have hlen := nodup_length_le (out ++ c :: rest) ids hK.outq_nodup
        hK.outq_sub
      rw [List.length_append, List.length_cons] at hlen
      omega
  | succ f ih =>
    intro out queue indeg hK hfuel
    cases queue with
    | nil => exact hK
    | cons cid rest =>
      have hstep := kahn_step ids E graph hgraph hE2 out rest indeg cid hK
      have hloop : kahnLoop graph (f+1) (cid :: rest) indeg out =
          kahnLoop graph f
            (processNeighbors (dgetD graph cid []) indeg rest).2
            (processNeighbors (dgetD graph cid []) indeg rest).1
            (out ++ [cid]) := by
        rw [kahnLoop]
      rw [hloop]
      refine ih (out ++ [cid]) _ _ hstep ?_
      rw [List.length_append, List.length_singleton]
      omega

/-! ### Claim C5: the initial Kahn state satisfies the invariant -/

theorem kahn_init (ids : List String) (E : List (String × String))
    (indeg : List (String × Int))
    (hkeys : ∀ x, (dget indeg x).isSome ↔ x ∈ ids)
    (hnodupKeys : (indeg.map (fun p => p.1)).Nodup)
    (hcount : ∀ x, dgetD indeg x 0 = (pendIn E [] x : Int))
    (hE2 : ∀ e ∈ E, e.2 ∈ ids) :
    KInv ids E [] ((indeg.filter (fun p => p.2 == 0)).map (fun p => p.1))
      indeg := by
  have hmemq : ∀ x,
      x ∈ (indeg.filter (fun p => p.2 == 0)).map (fun p => p.1) ↔
        dget indeg x = some 0 := by
    intro x
    constructor
    · intro hx
      obtain ⟨p, hpf, hpx⟩ := List.mem_map.mp hx
      have hpm : p ∈ indeg := List.mem_of_mem_filter hpf
      have hpz : (p.2 == (0:Int)) = true := (List.mem_filter.mp hpf).2
      have hpz2 : p.2 = 0 := by simpa using hpz
      have hp_pair : (x, (0:Int)) ∈ indeg := by
        have hpe : p = (x, 0) := Prod.ext_iff.mpr ⟨hpx, hpz2⟩
        rw [← hpe]
        exact hpm
      exact dget_of_mem_nodup indeg x 0 hnodupKeys hp_pair
    · intro hx
      exact List.mem_map.mpr ⟨(x, 0),
        List.mem_filter.mpr ⟨dget_some_mem indeg x 0 hx, by simp⟩, rfl⟩
  refine {
    outq_nodup := ?_
    outq_sub := ?_
    keys := hkeys
    count := hcount
    zero_mem := ?_
    mem_zero := ?_
    queue_pred := ?_
    out_order := ?_ }
  · simp only [List.nil_append]
    have hsub : ((indeg.filter (fun p => p.2 == 0)).map
        (fun p => p.1)).Sublist (indeg.map (fun p => p.1)) :=
      List.Sublist.map _ (List.filter_sublist indeg)
    exact hnodupKeys.sublist hsub
  · intro x hx
    simp only [List.nil_append] at hx
    have := (hmemq x).mp hx
    exact (hkeys x).mp (by simp [this])
  · intro x hxids hz
    simp only [List.nil_append]
    rw [hmemq x]
    have hsome := (hkeys x).mpr hxids
    obtain ⟨v, hv⟩ := Option.isSome_iff_exists.mp hsome
    have hv0 : v = 0 := by
      have hd : dgetD indeg x 0 = v := by simp [dgetD, hv]
      omega
    rw [hv, hv0]
  · intro x hx
    simp only [List.nil_append] at hx
    rw [dgetD, (hmemq x).mp hx]
    rfl
  · intro x hx e heE he2
    exfalso
    simp only [List.nil_append] at hx
    have hz : dgetD indeg x 0 = 0 := by
      rw [dgetD, (hmemq x).mp hx]
      rfl
    rw [hcount x] at hz
    have hz2 : pendIn E [] x = 0 := by exact_mod_cast hz
    unfold pendIn at hz2
    rw [List.length_eq_zero] at hz2
    have := List.filter_eq_nil_iff.mp hz2 e heE
    simp [he2] at this
  · intro e heE he2
    cases he2

/-! ### Claim C5: a list in which every element has a predecessor
contains a cycle -/

theorem cycle_of_pred (R : List String) (Rel : String → String → Prop)
    (x0 : String) (hx0 : x0 ∈ R)
    (hpred : ∀ x ∈ R, ∃ y ∈ R, Rel y x) :
    ∃ x, Relation.TransGen Rel x x := by
  have hstep : ∀ x : {x // x ∈ R}, ∃ y : {y // y ∈ R}, Rel y.1 x.1 := by
    rintro ⟨x, hx⟩
    obtain ⟨y, hy, hr⟩ := hpred x hx
    exact ⟨⟨y, hy⟩, hr⟩
  choose f hf using hstep
  set g : Nat → {x // x ∈ R} := fun n => f^[n] ⟨x0, hx0⟩ with hg
  have hgs : ∀ n, g (n + 1) = f (g n) := by
    intro n
    rw [hg]
    exact Function.iterate_succ_apply' f n ⟨x0, hx0⟩
  have hchain : ∀ j i, i < j → Relation.TransGen Rel (g j).1 (g i).1 := by
    intro j
    induction j with
    | zero =>
      intro i hi
      omega
    | succ k ih =>
      intro i hi
      have h1 : Rel (g (k+1)).1 (g k).1 := by
        rw [hgs k]
        exact hf (g k)
      rcases Nat.lt_succ_iff_lt_or_eq.mp hi with h | h
      · exact Relation.TransGen.head h1 (ih i h)
      · subst h
        exact Relation.TransGen.single h1
  have hpigeon : ∃ i j : Fin (R.length + 1), i ≠ j ∧ (g i.1).1 = (g j.1).1 := by
    by_contra hcon
    push_neg at hcon
    have hinj : Set.InjOn (fun i : Fin (R.length + 1) => (g i.1).1)
        ↑(Finset.univ : Finset (Fin (R.length + 1))) := by
      intro i _ j _ hij
      by_contra hne
      exact (hcon i j hne) hij
    have hmapsto : ∀ i ∈ (Finset.univ : Finset (Fin (R.length + 1))),
        (g i.1).1 ∈ R.toFinset := by
      intro i _
      exact List.mem_toFinset.mpr (g i.1).2
    have hcard := Finset.card_le_card_of_injOn _ hmapsto hinj
    rw [Finset.card_univ, Fintype.card_fin] at hcard
    have := List.toFinset_card_le R
    omega
  obtain ⟨i, j, hne, heq⟩ := hpigeon
  rcases Nat.lt_or_ge i.1 j.1 with hlt | hge
  · have htg := hchain j.1 i.1 hlt
    rw [heq] at htg
    exact ⟨(g j.1).1, htg⟩
  · have hvne : i.1 ≠ j.1 := Fin.val_ne_of_ne hne
    have hlt : j.1 < i.1 := by omega
    have htg := hchain i.1 j.1 hlt
    rw [← heq] at htg
    exact ⟨(g i.1).1, htg⟩

theorem filterMap_length_all_some (l : List String)
    (f : String → Option ProductComponent)
    (h : ∀ x ∈ l, (f x).isSome) :
    (l.filterMap f).length = l.length := by
  induction l with
  | nil => rfl
  | cons x rest ih =>
    obtain ⟨v, hv⟩ := Option.isSome_iff_exists.mp (h x (by simp))
    rw [List.filterMap_cons, hv]
    simp [ih (fun y hy => h y (by simp [hy]))]

/-! ### Claim C5: the full characterization of `_topological_order` on
inputs with distinct ids and known prerequisites -/

theorem topo_result (components : List ProductComponent)
    (hnd : (components.map (fun c => c.id)).Nodup)
    (hknown : ¬ unknownPrereq components) :
    (prereqCyclic components ∧
      _topological_order components =
        Except.error "Circular dependency detected in prerequisites.") ∨
    (¬ prereqCyclic components ∧
      ∃ topo, _topological_order components = Except.ok topo) := by
  set ids := components.map (fun c => c.id) with hids
  have hknown' : ∀ c ∈ components, ∀ pr ∈ c.prerequisites, pr ∈ ids := by
    intro c hc pr hpr
    by_contra hno
    exact hknown ⟨c, hc, pr, hpr, hno⟩
  set gi0 := (dictOf components (fun c => c.id) (fun _ => ([] : List String)),
    dictOf components (fun c => c.id) (fun _ => (0 : Int))) with hgi0
  set E := edgesOf components with hE
  have hbuild := buildPrereqGraph_ok ids components gi0 hknown'
  obtain ⟨graphV, indegV, hfold⟩ :
      ∃ g i, E.foldl addEdge gi0 = (g, i) := ⟨_, _, rfl⟩
  have hbuild2 : buildPrereqGraph ids components gi0 =
      Except.ok (graphV, indegV) := by
    rw [hbuild, hfold]
  have hE2 : ∀ e ∈ E, e.2 ∈ ids := edgesOf_snd_mem components
  have hgraph : ∀ c, dgetD graphV c [] =
      (E.filter (fun e => e.1 == c)).map (fun e => e.2) := by
    intro c
    have h1 : (E.foldl addEdge gi0).1 = graphV := by rw [hfold]
    rw [← h1, addEdge_foldl_graph]
    have hbase : dgetD gi0.1 c [] = [] := dgetD_dictOf_const _ _ _ _
    rw [hbase, List.nil_append]
  have hkeys : ∀ x, (dget indegV x).isSome ↔ x ∈ ids := by
    intro x
    have h1 : (E.foldl addEdge gi0).2 = indegV := by rw [hfold]
    rw [← h1]
    refine addEdge_foldl_keys ids E gi0 hE2 ?_ x
    intro y
    exact dget_dictOf_isSome components _ _ y
  have hnodupKeys : (indegV.map (fun p => p.1)).Nodup := by
    have h1 : (E.foldl addEdge gi0).2 = indegV := by rw [hfold]
    rw [← h1]
    exact addEdge_foldl_nodupKeys E gi0 (nodupKeys_dictOf _ _ _)
  have hcount : ∀ x, dgetD indegV x 0 = (pendIn E [] x : Int) := by
    intro x
    have h1 : (E.foldl addEdge gi0).2 = indegV := by rw [hfold]
    rw [← h1, addEdge_foldl_indeg]
    have hbase : dgetD gi0.2 x 0 = 0 := dgetD_dictOf_const _ _ _ _
    rw [hbase, zero_add]
    unfold pendIn
    have hcong : E.filter
        (fun e => e.2 == x && !(decide (e.1 ∈ ([] : List String)))) =
        E.filter (fun e => e.2 == x) := by
      refine List.filter_congr ?_
      intro e he
      simp
    rw [hcong]
  have hinit := kahn_init ids E indegV hkeys hnodupKeys hcount hE2
  have hfuel : ids.length ≤ (components.length + 1) +
      ([] : List String).length := by
    rw [hids]
    simp
  have hK := kahnLoop_spec ids E graphV hgraph hE2 (components.length + 1) []
    ((indegV.filter (fun p => p.2 == 0)).map (fun p => p.1)) indegV hinit hfuel
  obtain ⟨outIdsV, indegF, hkl⟩ :
      ∃ o i, kahnLoop graphV (components.length + 1)
        ((indegV.filter (fun p => p.2 == 0)).map (fun p => p.1)) indegV []
        = (o, i) := ⟨_, _, rfl⟩
  rw [hkl] at hK
  have houtsub : ∀ x ∈ outIdsV, x ∈ ids := by
    intro x hx
    exact hK.outq_sub x (by simpa using hx)
  have houtnodup : outIdsV.Nodup := by
    have := hK.outq_nodup
    simpa using this
  have hby_id : ∀ cid ∈ outIdsV,
      (dget (dictOf components (fun c => c.id) (fun c => c)) cid).isSome := by
    intro cid hc
    rw [dget_dictOf_isSome]
    exact houtsub cid hc
  have hfm_len : (outIdsV.filterMap (fun cid =>
      dget (dictOf components (fun c => c.id) (fun c => c)) cid)).length
      = outIdsV.length := filterMap_length_all_some _ _ hby_id
  have hids_len : ids.length = components.length := by
    rw [hids, List.length_map]
  have htopo_eq : _topological_order components =
      if (outIdsV.filterMap (fun cid =>
            dget (dictOf components (fun c => c.id) (fun c => c)) cid)).length
          ≠ components.length
      then Except.error "Circular dependency detected in prerequisites."
      else Except.ok (outIdsV.filterMap (fun cid =>
            dget (dictOf components (fun c => c.id) (fun c => c)) cid)) := by
    unfold _topological_order
    dsimp only []
    rw [← hids, ← hgi0, hbuild2]
    dsimp only []
    rw [hkl]
  by_cases hlen : outIdsV.length = components.length
  · right
    have hsub2 : ∀ y ∈ ids, y ∈ outIdsV := by
      intro y hy
      have h1 : outIdsV.toFinset ⊆ ids.toFinset := fun z hz =>
        List.mem_toFinset.mpr (houtsub z (List.mem_toFinset.mp hz))
      have hcard1 : outIdsV.toFinset.card = outIdsV.length :=
        List.toFinset_card_of_nodup houtnodup
      have hcard2 : ids.toFinset.card = ids.length :=
        List.toFinset_card_of_nodup hnd
      have heqfs : outIdsV.toFinset = ids.toFinset :=
        Finset.eq_of_subset_of_card_le h1 (by omega)
      exact List.mem_toFinset.mp (heqfs ▸ List.mem_toFinset.mpr hy)
    have hedge : ∀ a b, prereqEdge components a b →
        outIdsV.indexOf a < outIdsV.indexOf b := by
      intro a b hr
      have hEm : (a, b) ∈ E := by
        rw [hE]
        exact (mem_edgesOf components a b).mpr hr
      have hbid : b ∈ ids := hE2 (a, b) hEm
      have hbout : b ∈ outIdsV := hsub2 b hbid
      exact (hK.out_order (a, b) hEm hbout).2
    constructor
    · rintro ⟨x, hx⟩
      have hrank : ∀ b, Relation.TransGen (prereqEdge components) x b →
          outIdsV.indexOf x < outIdsV.indexOf b := by
        intro b htg
        induction htg with
        | single hr => exact hedge _ _ hr
        | tail htg2 hr ih => exact lt_trans ih (hedge _ _ hr)
      exact absurd (hrank x hx) (lt_irrefl _)
    · refine ⟨outIdsV.filterMap (fun cid =>
          dget (dictOf components (fun c => c.id) (fun c => c)) cid), ?_⟩
      rw [htopo_eq, if_neg ?_]
      rw [hfm_len]
      omega
  · left
    constructor
    · have hxex : ∃ x ∈ ids, x ∉ outIdsV := by
        by_contra hcon
        push_neg at hcon
        have h1 : ids.length ≤ outIdsV.length :=
          nodup_length_le ids outIdsV hnd hcon
        have h2 : outIdsV.length ≤ ids.length :=
          nodup_length_le outIdsV ids houtnodup houtsub
        omega
      obtain ⟨x0, hx0ids, hx0no⟩ := hxex
      have hx0R : x0 ∈ ids.filter (fun y => decide (y ∉ outIdsV)) :=
        List.mem_filter.mpr ⟨hx0ids, by simp [hx0no]⟩
      have hpred : ∀ x ∈ ids.filter (fun y => decide (y ∉ outIdsV)),
          ∃ y ∈ ids.filter (fun y => decide (y ∉ outIdsV)),
            prereqEdge components y x := by
        intro x hx
        obtain ⟨hxids, hxdec⟩ := List.mem_filter.mp hx
        have hxno : x ∉ outIdsV := by simpa using hxdec
        have hnz : dgetD indegF x 0 ≠ 0 := by
          intro h0
          have := hK.zero_mem x hxids h0
          simp only [List.append_nil] at this
          exact hxno this
        rw [hK.count x] at hnz
        have hnzn : pendIn E outIdsV x ≠ 0 := by exact_mod_cast hnz
        have hpos : 0 < pendIn E outIdsV x := Nat.pos_of_ne_zero hnzn
        unfold pendIn at hpos
        obtain ⟨e, hef⟩ := List.exists_mem_of_length_pos hpos
        have heE : e ∈ E := List.mem_of_mem_filter hef
        have hprop := (List.mem_filter.mp hef).2
        simp only [Bool.and_eq_true, beq_iff_eq, Bool.not_eq_true',
          decide_eq_false_iff_not] at hprop
        obtain ⟨he2, he1no⟩ := hprop
        have he1ids : e.1 ∈ ids := by
          rw [hids]
          refine edgesOf_fst_mem components hknown e ?_
          rw [← hE]
          exact heE
        refine ⟨e.1, List.mem_filter.mpr ⟨he1ids, by simp [he1no]⟩, ?_⟩
        have hpe : prereqEdge components e.1 e.2 := by
          refine (mem_edgesOf components e.1 e.2).mp ?_
          rw [← hE]
          exact heE
        rw [he2] at hpe
        exact hpe
      obtain ⟨z, hz⟩ := cycle_of_pred
        (ids.filter (fun y => decide (y ∉ outIdsV)))
        (prereqEdge components) x0 hx0R hpred
      exact ⟨z, hz⟩
    · rw [htopo_eq, if_pos ?_]
      rw [hfm_len]
      exact fun h => hlen h

theorem topo_error_iff (components : List ProductComponent)
    (hnd : (components.map (fun c => c.id)).Nodup) :
    (∃ e, _topological_order components = Except.error e) ↔
      unknownPrereq components ∨ prereqCyclic components := by
  by_cases hk : unknownPrereq components
  · obtain ⟨c, hc, pr, hpr, hno⟩ := hk
    obtain ⟨e, he⟩ := (buildPrereqGraph_error_iff
      (components.map (fun c => c.id)) components
      (dictOf components (fun c => c.id) (fun _ => ([] : List String)),
       dictOf components (fun c => c.id) (fun _ => (0 : Int)))).mpr
      ⟨c, hc, pr, hpr, hno⟩
    refine iff_of_true ⟨e, ?_⟩ (Or.inl ⟨c, hc, pr, hpr, hno⟩)
    unfold _topological_order
    dsimp only []
    rw [he]
  · rcases topo_result components hnd hk with ⟨hcyc, herr⟩ | ⟨hncyc, topo, hok⟩
    · exact iff_of_true ⟨_, herr⟩ (Or.inr hcyc)
    · refine iff_of_false ?_ ?_
      · rintro ⟨e, he⟩
        rw [hok] at he
        exact Except.noConfusion he
      · rintro (h | h)
        · exact hk h
        · exact hncyc h

/-! ### Claim C5: the decoder and fitness never fail beyond the
topological sort -/

theorem decode_error_iff_topo (genome : List String)
    (components : List ProductComponent) (machines : List Machine)
    (molds : List Mold) (month_days : Nat) (mch cch : ℚ) :
    (∃ e, _decode_v2 genome components machines molds month_days mch cch
      = Except.error e) ↔
    (∃ e, _topological_order components = Except.error e) := by
  unfold _decode_v2
  cases htopo : _topological_order components with
  | error e =>
    exact iff_of_true ⟨e, rfl⟩ ⟨e, rfl⟩
  | ok topo =>
    refine iff_of_false ?_ ?_
    · rintro ⟨e, he⟩
      exact Except.noConfusion he
    · rintro ⟨e, he⟩
      exact Except.noConfusion he

theorem decode_ok_exists (genome : List String)
    (components : List ProductComponent) (machines : List Machine)
    (molds : List Mold) (month_days : Nat) (mch cch : ℚ)
    (h : ∀ e, _decode_v2 genome components machines molds month_days mch cch
      ≠ Except.error e) :
    ∃ tasks unmet,
      _decode_v2 genome components machines molds month_days mch cch
        = Except.ok (tasks, unmet) := by
  cases hd : _decode_v2 genome components machines molds month_days mch cch with
  | error e => exact absurd hd (h e)
  | ok p => exact ⟨p.1, p.2, rfl⟩

theorem scanFpd_key_src :
    ∀ (ts : List Task) (f : List (String × Int)) (p : String × Int),
      p ∈ scanFpd ts f →
      p.1 ∈ f.map (fun q => q.1) ∨
        ∃ t ∈ ts, t.task_type = TaskType.PRODUCE ∧
          t.component_id = some p.1 := by
  intro ts
  induction ts with
  | nil =>
    intro f p hp
    exact Or.inl (List.mem_map.mpr ⟨p, hp, rfl⟩)
  | cons t rest ih =>
    intro f p hp
    cases htt : t.task_type with
    | PRODUCE =>
      cases hci : t.component_id with
      | none =>
        rw [scanFpd, htt, hci] at hp
        rcases ih f p hp with h | ⟨t2, ht2, hprod, hcid⟩
        · exact Or.inl h
        · exact Or.inr ⟨t2, by simp [ht2], hprod, hcid⟩
      | some cid =>
        rw [scanFpd, htt, hci] at hp
        rcases ih _ p hp with h | ⟨t2, ht2, hprod, hcid⟩
        · by_cases hpc : p.1 = cid
          · exact Or.inr ⟨t, by simp, htt, by rw [hci, hpc]⟩
          · left
            obtain ⟨q, hq, hqe⟩ := List.mem_map.mp h
            rcases mem_dset f cid _ q hq with he | ⟨hqf, -⟩
            · exfalso
              apply hpc
              rw [← hqe, he]
            · exact List.mem_map.mpr ⟨q, hqf, hqe⟩
        · exact Or.inr ⟨t2, by simp [ht2], hprod, hcid⟩
    | CHANGE_MOLD =>
      rw [scanFpd, htt] at hp
      rcases ih f p hp with h | ⟨t2, ht2, hprod, hcid⟩
      · exact Or.inl h
      · exact Or.inr ⟨t2, by simp [ht2], hprod, hcid⟩
    | CHANGE_COLOR =>
      rw [scanFpd, htt] at hp
      rcases ih f p hp with h | ⟨t2, ht2, hprod, hcid⟩
      · exact Or.inl h
      · exact Or.inr ⟨t2, by simp [ht2], hprod, hcid⟩
    | WAIT =>
      rw [scanFpd, htt] at hp
      rcases ih f p hp with h | ⟨t2, ht2, hprod, hcid⟩
      · exact Or.inl h
      · exact Or.inr ⟨t2, by simp [ht2], hprod, hcid⟩

theorem lateStartPen_some (compsById : List (String × ProductComponent)) :
    ∀ (fpd : List (String × Int)) (acc : ℚ),
      (∀ p ∈ fpd, (dget compsById p.1).isSome) →
      ∃ v, lateStartPen compsById fpd acc = some v := by
  intro fpd
  induction fpd with
  | nil =>
    intro acc _
    exact ⟨acc, rfl⟩
  | cons p rest ih =>
    intro acc h
    obtain ⟨p1, p2⟩ := p
    obtain ⟨c, hc⟩ := Option.isSome_iff_exists.mp (h (p1, p2) (by simp))
    rw [lateStartPen, hc]
    dsimp only []
    split
    · exact ih _ (fun q hq => h q (by simp [hq]))
    · exact ih _ (fun q hq => h q (by simp [hq]))

theorem fitness_some_of_prodfacts (tasks : List Task)
    (unmet : List (String × Int)) (components : List ProductComponent)
    (hcid : ∀ t ∈ tasks, t.task_type = TaskType.PRODUCE →
      (t.component_id).isSome)
    (hcomp : ∀ t ∈ tasks, t.task_type = TaskType.PRODUCE → ∀ cid,
      t.component_id = some cid → ∃ comp ∈ components, comp.id = cid) :
    ∃ v, _fitness_v2 tasks unmet components = some v := by
  unfold _fitness_v2
  rw [fitnessScan_eq tasks 0 0 0 [] hcid]
  dsimp only []
  have hkeys : ∀ p ∈ scanFpd tasks [],
      (dget (dictOf components (fun c => c.id) (fun c => c)) p.1).isSome := by
    intro p hp
    rcases scanFpd_key_src tasks [] p hp with h | ⟨t, ht, hprod, hcid2⟩
    · simp at h
    · obtain ⟨comp, hcm, hce⟩ := hcomp t ht hprod p.1 hcid2
      rw [dget_dictOf_isSome]
      exact List.mem_map.mpr ⟨comp, hcm, hce⟩
  obtain ⟨v, hv⟩ := lateStartPen_some
    (dictOf components (fun c => c.id) (fun c => c)) (scanFpd tasks []) 0 hkeys
  rw [hv]
  exact ⟨_, rfl⟩

theorem decode_fitness_some (genome : List String)
    (components : List ProductComponent) (machines : List Machine)
    (molds : List Mold) (month_days : Nat) (mch cch : ℚ)
    (tasks : List Task) (unmet : List (String × Int))
    (h : _decode_v2 genome components machines molds month_days mch cch
      = Except.ok (tasks, unmet)) (unmet2 : List (String × Int)) :
    ∃ v, _fitness_v2 tasks unmet2 components = some v := by
  obtain ⟨b, pEnd, hP, htasks, -⟩ := decode_pinv genome components machines
    molds month_days mch cch tasks unmet h
  rw [htasks]
  refine fitness_some_of_prodfacts _ _ _ hP.prodCid ?_
  intro t ht htp cid hcid
  obtain ⟨-, comp, hcm, hce, -⟩ := hP.prodComp t ht htp cid hcid
  exact ⟨comp, hcm, hce⟩

theorem scorePopulation_ok (components : List ProductComponent)
    (machines : List Machine) (molds : List Mold) (month_days : Nat)
    (mch cch : ℚ)
    (hok : ∀ e, _topological_order components ≠ Except.error e) :
    ∀ pop : List (List String),
      ∃ scored,
        scorePopulation components machines molds month_days mch cch pop
          = Except.ok scored ∧ scored.length = pop.length := by
  intro pop
  induction pop with
  | nil => exact ⟨[], rfl, rfl⟩
  | cons gnm rest ih =>
    obtain ⟨tasks, unmet, hdec⟩ : ∃ tasks unmet,
        _decode_v2 gnm components machines molds month_days mch cch
          = Except.ok (tasks, unmet) := by
      refine decode_ok_exists gnm components machines molds month_days mch cch ?_
      intro e he
      obtain ⟨e2, he2⟩ := (decode_error_iff_topo gnm components machines molds
        month_days mch cch).mp ⟨e, he⟩
      exact hok e2 he2
    obtain ⟨v, hv⟩ := decode_fitness_some gnm components machines molds
      month_days mch cch tasks unmet hdec unmet
    obtain ⟨scored, hsc, hlen⟩ := ih
    refine ⟨(v, gnm) :: scored, ?_, by simp [hlen]⟩
    rw [scorePopulation, hdec]
    dsimp only []
    rw [hv, hsc]

theorem scorePopulation_error (components : List ProductComponent)
    (machines : List Machine) (molds : List Mold) (month_days : Nat)
    (mch cch : ℚ) (e : String)
    (he : _topological_order components = Except.error e) :
    ∀ (gnm : List String) (rest : List (List String)),
      ∃ e2, scorePopulation components machines molds month_days mch cch
        (gnm :: rest) = Except.error e2 := by
  intro gnm rest
  have hdec : _decode_v2 gnm components machines molds month_days mch cch
      = Except.error e := by
    unfold _decode_v2
    rw [he]
  rw [scorePopulation, hdec]
  exact ⟨e, rfl⟩

/-! ### Claim C5: the population never collapses -/

theorem initPopulation_length (G : RandGen γ)
    (components : List ProductComponent) :
    ∀ (n : Nat) (g : γ), (initPopulation G components n g).1.length = n := by
  intro n
  induction n with
  | zero =>
    intro g
    rfl
  | succ k ih =>
    intro g
    have hstep : (initPopulation G components (k+1) g).1 =
        (_random_genome G components g).1 ::
          (initPopulation G components k (_random_genome G components g).2).1 :=
      rfl
    rw [hstep, List.length_cons, ih]

theorem tournamentFill_length (G : RandGen γ)
    (scored : List (ℚ × List String)) (pop_size : Nat) :
    ∀ (fuel : Nat) (pool : List (List String)) (g : γ),
      pop_size ≤ pool.length + fuel →
      pop_size ≤ (tournamentFill G scored pop_size fuel pool g).1.length := by
  intro fuel
  induction fuel with
  | zero =>
    intro pool g h
    show pop_size ≤ pool.length
    omega
  | succ k ih =>
    intro pool g h
    by_cases hlt : pool.length < pop_size
    · obtain ⟨parent, g2, hstep⟩ : ∃ parent g2,
          tournamentFill G scored pop_size (k+1) pool g =
            tournamentFill G scored pop_size k (pool ++ [parent]) g2 := by
        rw [tournamentFill, if_pos hlt]
        exact ⟨_, _, rfl⟩
      rw [hstep]
      refine ih _ _ ?_
      rw [List.length_append]
      simp only [List.length_singleton]
      omega
    · have hstep : tournamentFill G scored pop_size (k+1) pool g = (pool, g) := by
        rw [tournamentFill, if_neg hlt]
      rw [hstep]
      show pop_size ≤ pool.length
      omega

theorem breedPairs_length (G : RandGen γ) :
    ∀ (pool : List (List String)) (g : γ),
      (breedPairs G pool g).1.length = pool.length
  | [], _ => rfl
  | [_], _ => rfl
  | p1 :: p2 :: rest, g => by
    have hstep : (breedPairs G (p1 :: p2 :: rest) g).1 =
        (crossoverOxR G p1 p2 g).1 ::
          (crossoverOxR G p2 p1 (crossoverOxR G p1 p2 g).2).1 ::
          (breedPairs G rest
            (crossoverOxR G p2 p1 (crossoverOxR G p1 p2 g).2).2).1 := rfl
    rw [hstep, List.length_cons, List.length_cons,
      breedPairs_length G rest _, List.length_cons, List.length_cons]

theorem mutateAll_length (G : RandGen γ) (mr : ℚ) :
    ∀ (cs : List (List String)) (g : γ),
      (mutateAll G mr cs g).1.length = cs.length := by
  intro cs
  induction cs with
  | nil =>
    intro g
    rfl
  | cons c rest ih =>
    intro g
    have hstep : (mutateAll G mr (c :: rest) g).1 =
        (if (G.randQ g).1 < mr then mutateSwapR G c (G.randQ g).2
         else (c, (G.randQ g).2)).1 ::
        (mutateAll G mr rest
          (if (G.randQ g).1 < mr then mutateSwapR G c (G.randQ g).2
           else (c, (G.randQ g).2)).2).1 := rfl
    rw [hstep, List.length_cons, ih, List.length_cons]

theorem nextPopulation_length (G : RandGen γ)
    (scored : List (ℚ × List String)) (pop_size : Nat) (mr : ℚ) (g : γ)
    (hps : 2 ≤ pop_size) :
    (nextPopulation G scored pop_size mr g).1.length = pop_size := by
  have hpool : pop_size ≤ ((tournamentFill G scored pop_size pop_size
      ((scored.take (max 2 (pop_size / 5))).map (fun p => p.2)) g).1).length := by
    refine tournamentFill_length G scored pop_size pop_size _ g ?_
    omega
  have hstep : (nextPopulation G scored pop_size mr g).1 =
      ((mutateAll G mr
        (breedPairs G
          (tournamentFill G scored pop_size pop_size
            ((scored.take (max 2 (pop_size / 5))).map (fun p => p.2)) g).1
          (tournamentFill G scored pop_size pop_size
            ((scored.take (max 2 (pop_size / 5))).map (fun p => p.2)) g).2).1
        (breedPairs G
          (tournamentFill G scored pop_size pop_size
            ((scored.take (max 2 (pop_size / 5))).map (fun p => p.2)) g).1
          (tournamentFill G scored pop_size pop_size
            ((scored.take (max 2 (pop_size / 5))).map (fun p => p.2)) g).2).2).1).take
        pop_size := rfl
  rw [hstep, List.length_take, mutateAll_length, breedPairs_length]
  omega

/-! ### Claim C5: the generation loop succeeds on legal inputs and
fails on the first generation otherwise -/

theorem gaLoop_ok (G : RandGen γ) (components : List ProductComponent)
    (machines : List Machine) (molds : List Mold) (month_days : Nat)
    (mch cch : ℚ) (pop_size : Nat) (mr : ℚ)
    (hok : ∀ e, _topological_order components ≠ Except.error e)
    (hps : 2 ≤ pop_size) :
    ∀ (n : Nat) (population : List (List String))
      (best : Option (ℚ × List String)) (g : γ),
      0 < population.length →
      (best.isSome = true ∨ 0 < n) →
      ∃ r, gaLoop G components machines molds month_days mch cch pop_size mr
        n population best g = Except.ok (some r) := by
  intro n
  induction n with
  | zero =>
    intro population best g hpop hbest
    rcases hbest with hs | h0
    · obtain ⟨r, hr⟩ := Option.isSome_iff_exists.mp hs
      refine ⟨r, ?_⟩
      rw [hr]
      rfl
    · omega
  | succ k ih =>
    intro population best g hpop hbest
    obtain ⟨scoredRaw, hsc, hlen⟩ := scorePopulation_ok components machines
      molds month_days mch cch hok population
    have hsorted_len : (scoredRaw.insertionSort (fun a b => b.1 ≤ a.1)).length
        = population.length := by
      rw [List.length_insertionSort, hlen]
    cases hscc : scoredRaw.insertionSort (fun a b => b.1 ≤ a.1) with
    | nil =>
      rw [hscc] at hsorted_len
      simp at hsorted_len
      omega
    | cons top stail =>
      cases best with
      | none =>
        have hstep : gaLoop G components machines molds month_days mch cch
            pop_size mr (k+1) population none g =
          gaLoop G components machines molds month_days mch cch pop_size mr k
            (nextPopulation G (top :: stail) pop_size mr g).1
            (some (top.1, top.2))
            (nextPopulation G (top :: stail) pop_size mr g).2 := by
          rw [gaLoop, hsc]
          dsimp only []
          rw [hscc]
        rw [hstep]
        refine ih _ _ _ ?_ (Or.inl rfl)
        rw [nextPopulation_length G _ pop_size mr _ hps]
        omega
      | some b =>
        obtain ⟨bs, bg⟩ := b
        have hstep : gaLoop G components machines molds month_days mch cch
            pop_size mr (k+1) population (some (bs, bg)) g =
          gaLoop G components machines molds month_days mch cch pop_size mr k
            (nextPopulation G (top :: stail) pop_size mr g).1
            (if bs < top.1 then some (top.1, top.2) else some (bs, bg))
            (nextPopulation G (top :: stail) pop_size mr g).2 := by
          rw [gaLoop, hsc]
          dsimp only []
          rw [hscc]
        rw [hstep]
        have hbest2 : (if bs < top.1 then some (top.1, top.2)
            else some (bs, bg)).isSome = true := by
          split <;> rfl
        refine ih _ _ _ ?_ (Or.inl hbest2)
        rw [nextPopulation_length G _ pop_size mr _ hps]
        omega

theorem gaLoop_error (G : RandGen γ) (components : List ProductComponent)
    (machines : List Machine) (molds : List Mold) (month_days : Nat)
    (mch cch : ℚ) (pop_size : Nat) (mr : ℚ) (e : String)
    (he : _topological_order components = Except.error e) :
    ∀ (k : Nat) (gnm : List String) (rest : List (List String))
      (best : Option (ℚ × List String)) (g : γ),
      ∃ e2, gaLoop G components machines molds month_days mch cch pop_size mr
        (k+1) (gnm :: rest) best g = Except.error e2 := by
  intro k gnm rest best g
  obtain ⟨e2, he2⟩ := scorePopulation_error components machines molds
    month_days mch cch e he gnm rest
  rw [gaLoop, he2]
  exact ⟨e2, rfl⟩

/-- C5 (corrected): with pairwise-distinct component ids, `ga_optimize_v2`
raises the input error exactly when `month_days < 1`, `pop_size < 2`,
`n_generations < 1`, `mutation_rate` lies outside `[0, 1]`, some component
lists an unknown prerequisite id, or the prerequisite graph is cyclic; and
`_decode_v2` raises it exactly in the last two cases, for every genome and
decoding parameters.  In particular no input with valid bounds and a legal
prerequisite graph ever produces an error of any kind. -/
theorem C5_amended (γ : Type) (G : RandGen γ)
    (components : List ProductComponent) (machines : List Machine)
    (molds : List Mold) (month_days : Int) (mch cch : ℚ)
    (pop_size n_generations : Int) (mutation_rate : ℚ) (g : γ)
    (hnd : (components.map (fun c => c.id)).Nodup) :
    ((∃ e, ga_optimize_v2 G components machines molds month_days mch cch
        pop_size n_generations mutation_rate g = Except.error e) ↔
      (month_days < 1 ∨ pop_size < 2 ∨ n_generations < 1 ∨
        mutation_rate < 0 ∨ 1 < mutation_rate ∨
        unknownPrereq components ∨ prereqCyclic components)) ∧
    (∀ (genome : List String) (machines2 : List Machine)
        (molds2 : List Mold) (month_days2 : Nat) (mch2 cch2 : ℚ),
      (∃ e, _decode_v2 genome components machines2 molds2 month_days2
        mch2 cch2 = Except.error e) ↔
      (unknownPrereq components ∨ prereqCyclic components)) := by
  have hdecode : ∀ (genome : List String) (machines2 : List Machine)
      (molds2 : List Mold) (month_days2 : Nat) (mch2 cch2 : ℚ),
      (∃ e, _decode_v2 genome components machines2 molds2 month_days2
        mch2 cch2 = Except.error e) ↔
      (unknownPrereq components ∨ prereqCyclic components) := by
    intro genome machines2 molds2 md2 mch2 cch2
    rw [decode_error_iff_topo, topo_error_iff components hnd]
  refine ⟨?_, hdecode⟩
  unfold ga_optimize_v2
  by_cases h1 : month_days < 1
  · rw [if_pos h1]
    exact iff_of_true ⟨_, rfl⟩ (Or.inl h1)
  rw [if_neg h1]
  by_cases h2 : pop_size < 2
  · rw [if_pos h2]
    exact iff_of_true ⟨_, rfl⟩ (Or.inr (Or.inl h2))
  rw [if_neg h2]
  by_cases h3 : n_generations < 1
  · rw [if_pos h3]
    exact iff_of_true ⟨_, rfl⟩ (Or.inr (Or.inr (Or.inl h3)))
  rw [if_neg h3]
  by_cases h4 : 0 ≤ mutation_rate ∧ mutation_rate ≤ 1
  · rw [if_neg (not_not_intro h4)]
    have hval : (month_days < 1 ∨ pop_size < 2 ∨ n_generations < 1 ∨
        mutation_rate < 0 ∨ 1 < mutation_rate ∨
        unknownPrereq components ∨ prereqCyclic components) ↔
        (unknownPrereq components ∨ prereqCyclic components) := by
      have hm1 : ¬ mutation_rate < 0 := not_lt.mpr h4.1
      have hm2 : ¬ 1 < mutation_rate := not_lt.mpr h4.2
      constructor
      · rintro (h | h | h | h | h | h | h)
        · exact absurd h h1
        · exact absurd h h2
        · exact absurd h h3
        · exact absurd h hm1
        · exact absurd h hm2
        · exact Or.inl h
        · exact Or.inr h
      · rintro (h | h)
        · exact Or.inr (Or.inr (Or.inr (Or.inr (Or.inr (Or.inl h)))))
        · exact Or.inr (Or.inr (Or.inr (Or.inr (Or.inr (Or.inr h)))))
    rw [hval]
    obtain ⟨pop0, g0, hip⟩ : ∃ p g0,
        initPopulation G components pop_size.toNat g = (p, g0) := ⟨_, _, rfl⟩
    rw [hip]
    dsimp only []
    have hpop_len : pop0.length = pop_size.toNat := by
      have h := initPopulation_length G components pop_size.toNat g
      rw [hip] at h
      exact h
    have hps2 : 2 ≤ pop_size.toNat := by omega
    have hpop_pos : 0 < pop0.length := by omega
    by_cases hgraph : unknownPrereq components ∨ prereqCyclic components
    · obtain ⟨et, het⟩ := (topo_error_iff components hnd).mpr hgraph
      refine iff_of_true ?_ hgraph
      obtain ⟨k, hk⟩ : ∃ k, n_generations.toNat = k + 1 :=
        ⟨n_generations.toNat - 1, by omega⟩
      cases hp0 : pop0 with
      | nil =>
        rw [hp0] at hpop_pos
        simp at hpop_pos
      | cons gnm rest =>
        obtain ⟨e2, he2⟩ := gaLoop_error G components machines molds
          month_days.toNat mch cch pop_size.toNat mutation_rate et het
          k gnm rest none g0
        refine ⟨e2, ?_⟩
        rw [hk, he2]
    · refine iff_of_false ?_ hgraph
      rintro ⟨e, he⟩
      have hok : ∀ e2, _topological_order components ≠ Except.error e2 := by
        intro e2 hc
        exact hgraph ((topo_error_iff components hnd).mp ⟨e2, hc⟩)
      obtain ⟨r, hr⟩ := gaLoop_ok G components machines molds month_days.toNat
        mch cch pop_size.toNat mutation_rate hok hps2 n_generations.toNat
        pop0 none g0 hpop_pos (Or.inr (by omega))
      obtain ⟨bs, bg⟩ := r
      rw [hr] at he
      dsimp only [] at he
      obtain ⟨tasks, unmet, hdec⟩ : ∃ t u,
          _decode_v2 bg components machines molds month_days.toNat mch cch
            = Except.ok (t, u) := by
        refine decode_ok_exists bg components machines molds month_days.toNat
          mch cch ?_
        intro e3 he3
        obtain ⟨e4, he4⟩ := (decode_error_iff_topo bg components machines
          molds month_days.toNat mch cch).mp ⟨e3, he3⟩
        exact hok e4 he4
      rw [hdec] at he
      dsimp only [] at he
      obtain ⟨v, hv⟩ := decode_fitness_some bg components machines molds
        month_days.toNat mch cch tasks unmet hdec unmet
      rw [hv] at he
      exact Except.noConfusion he
  · rw [if_pos h4]
    have hmr : mutation_rate < 0 ∨ 1 < mutation_rate := by
      by_cases h5 : 0 ≤ mutation_rate
      · right
        by_contra h6
        exact h4 ⟨h5, le_of_not_lt h6⟩
      · exact Or.inl (lt_of_not_le h5)
    rcases hmr with hmr | hmr
    · exact iff_of_true ⟨_, rfl⟩ (Or.inr (Or.inr (Or.inr (Or.inl hmr))))
    · exact iff_of_true ⟨_, rfl⟩
        (Or.inr (Or.inr (Or.inr (Or.inr (Or.inl hmr)))))

/-- C5 counterexample: with duplicated component ids the decoder (and the
GA driver) raise the circular-dependency message although every
prerequisite id is known and the prerequisite graph has no cycle: the
in-degree dictionary collapses the duplicate ids, so Kahn's pass outputs
fewer components than the input has. -/
theorem C5_counterexample :
    (∃ e, _decode_v2 ["C1"] [cW1, cW1] [] [] 1 0 0 = Except.error e) ∧
    (∃ e, ga_optimize_v2 GUnit [cW1, cW1] [] [] 1 0 0 2 1 0 ()
      = Except.error e) ∧
    ¬ unknownPrereq [cW1, cW1] ∧ ¬ prereqCyclic [cW1, cW1] := by
  refine ⟨⟨"Circular dependency detected in prerequisites.", by rfl⟩,
    ⟨"Circular dependency detected in prerequisites.", by rfl⟩, ?_, ?_⟩
  · rintro ⟨c, hc, pr, hpr, -⟩
    have hce : c = cW1 := by
      rcases List.mem_cons.mp hc with h | h
      · exact h
      · simpa using h
    rw [hce] at hpr
    simp [cW1] at hpr
  · rintro ⟨x, hx⟩
    have hne : ∀ a b, ¬ prereqEdge [cW1, cW1] a b := by
      rintro a b ⟨c, hc, -, hpr⟩
      have hce : c = cW1 := by
        rcases List.mem_cons.mp hc with h | h
        · exact h
        · simpa using h
      rw [hce] at hpr
      simp [cW1] at hpr
    cases hx with
    | single hr => exact hne _ _ hr
    | tail h hr => exact hne _ _ hr

theorem C5_amended_witness :
    (([cW1, cW2].map (fun c => c.id)).Nodup) ∧
    (((∃ e, ga_optimize_v2 GUnit [cW1, cW2] [mW] [dW] 2 0 0 2 1 0 ()
        = Except.error e) ↔
      ((2:Int) < 1 ∨ (2:Int) < 2 ∨ (1:Int) < 1 ∨ (0:ℚ) < 0 ∨ 1 < (0:ℚ) ∨
        unknownPrereq [cW1, cW2] ∨ prereqCyclic [cW1, cW2])) ∧
    (∀ (genome : List String) (machines2 : List Machine)
        (molds2 : List Mold) (month_days2 : Nat) (mch2 cch2 : ℚ),
      (∃ e, _decode_v2 genome [cW1, cW2] machines2 molds2 month_days2
        mch2 cch2 = Except.error e) ↔
      (unknownPrereq [cW1, cW2] ∨ prereqCyclic [cW1, cW2]))) :=
  ⟨by decide,
   C5_amended Unit GUnit [cW1, cW2] [mW] [dW] 2 0 0 2 1 0 () (by decide)⟩

end TaskAlign
